import Mathlib

/-!
Verification of the word-boundary reconstruction engine in
`scripts/clean_tb2_syllable_spacing.py`.

The Python source is shallowly embedded: strings become `String`/`List Char`,
Python float scores become `ℝ` (with `math.log10` as `Real.logb 10`) and the
similarity/threshold arithmetic becomes exact `ℚ`, machine ints become `ℤ`/`ℕ`.
The optional `wordfreq.zipf_frequency` import is modelled as unavailable
(`zipf_frequency = None`), which is the guarded fallback taken by the script
when the package is missing; no claim below depends on the zipf branch.
`difflib.SequenceMatcher` (with `autojunk=False` and no junk, as the script
always calls it) is embedded by its documented semantics: the longest matching
block of two sequences, ties broken by lowest first index then lowest second
index, recursively applied to both sides of the found block.
-/

/-! ## Character model (Python `str` semantics for the characters used) -/

/-- Python regex `\s` and `str.strip` whitespace for the characters occurring
in this pipeline. -/
def pyIsWs (c : Char) : Bool :=
  (9 ≤ c.val && c.val ≤ 13) || (28 ≤ c.val && c.val ≤ 32) ||
  c.val = 0x85 || c.val = 0xA0 || c.val = 0x1680 ||
  (0x2000 ≤ c.val && c.val ≤ 0x200A) || c.val = 0x2028 || c.val = 0x2029 ||
  c.val = 0x202F || c.val = 0x205F || c.val = 0x3000

/-- The script letter class `A-Za-zÀ-ÖØ-öø-ÿ` (`LETTER_CLASS`). -/
def isLetterChar (c : Char) : Bool :=
  (65 ≤ c.val && c.val ≤ 90) || (97 ≤ c.val && c.val ≤ 122) ||
  (0xC0 ≤ c.val && c.val ≤ 0xD6) || (0xD8 ≤ c.val && c.val ≤ 0xF6) ||
  (0xF8 ≤ c.val && c.val ≤ 0xFF)

/-- Characters matched by `[LETTER_CLASS-]`, i.e. word-token characters. -/
def isWordChar (c : Char) : Bool :=
  isLetterChar c || c = '-'

/-- Python `str.lower` restricted to the Latin range used by `LETTER_CLASS`. -/
def pyLowerChar (c : Char) : Char :=
  if (65 ≤ c.val && c.val ≤ 90) || (0xC0 ≤ c.val && c.val ≤ 0xD6) ||
      (0xD8 ≤ c.val && c.val ≤ 0xDE) then
    Char.ofNat (c.toNat + 32)
  else c

/-- Python `str.lower` on a string. -/
def pyLowerStr (s : String) : String :=
  ⟨s.data.map pyLowerChar⟩

/-- Python `\w` (word characters) for the character repertoire of the script:
letters, ASCII digits and underscore. -/
def isPyWordChar (c : Char) : Bool :=
  isLetterChar c || c.isDigit || c = '_'

/-- Python `str.isupper` on one character, Latin range. -/
def pyIsUpperChar (c : Char) : Bool :=
  (65 ≤ c.val && c.val ≤ 90) || (0xC0 ≤ c.val && c.val ≤ 0xD6) ||
  (0xD8 ≤ c.val && c.val ≤ 0xDE)

/-- Python `str.upper` on one character, Latin range. -/
def pyUpperChar (c : Char) : Char :=
  if (97 ≤ c.val && c.val ≤ 122) || (0xE0 ≤ c.val && c.val ≤ 0xF6) ||
      (0xF8 ≤ c.val && c.val ≤ 0xFE) then
    Char.ofNat (c.toNat - 32)
  else c

/-! ## Normalizer (`normalize_spacing`, `normalize_punctuation_spacing`) -/

/-- The `str.replace` chain of `normalize_spacing` as a character table:
CR and soft hyphen are deleted, NBSP (` `), narrow (` `) and thin
(` `) spaces become space, curly quotes straighten, em/en dashes become
hyphen, fi/fl ligatures expand.  The replaced characters are pairwise distinct
and no replacement output is itself replaced later in the chain, so the
sequential replaces equal a single simultaneous character map. -/
def charMapTable : List (Char × List Char) :=
  [('\u000D', []), (' ', [' ']), (' ', [' ']), (' ', [' ']),
   ('”', ['"']), ('“', ['"']), ('’', ['\'']), ('‘', ['\'']),
   ('—', ['-']), ('–', ['-']), ('­', []),
   ('ﬁ', ['f', 'i']), ('ﬂ', ['f', 'l'])]

/-- One character through the replace chain of `normalize_spacing`. -/
def charMapOne (c : Char) : List Char :=
  match charMapTable.find? (fun p => p.1 = c) with
  | some p => p.2
  | none => [c]

/-- The whole replace chain of `normalize_spacing` on a character list. -/
def charMap (l : List Char) : List Char :=
  l.flatMap charMapOne

/-- `MULTISPACE_RE.sub(" ", ·)`: every maximal whitespace run becomes one
space. -/
def collapseWs : List Char → List Char
  | [] => []
  | c :: rest =>
    if pyIsWs c then ' ' :: collapseWs (rest.dropWhile pyIsWs)
    else c :: collapseWs rest
termination_by l => l.length
decreasing_by
  · simp only [List.length_cons]
    exact Nat.lt_succ_of_le (List.dropWhile_sublist _).length_le
  · simp

/-- Python `str.strip()`: drop leading and trailing whitespace. -/
def stripWs (l : List Char) : List Char :=
  ((l.dropWhile pyIsWs).reverse.dropWhile pyIsWs).reverse

/-- `normalize_spacing` on a character list. -/
def normalizeSpacingL (l : List Char) : List Char :=
  stripWs (collapseWs (charMap l))

/-- The script function `normalize_spacing`. -/
def normalize_spacing (s : String) : String :=
  ⟨normalizeSpacingL s.data⟩

/-- Characters of the class `[,.;:!?]` in `normalize_punctuation_spacing`. -/
def isStopPunct (c : Char) : Bool :=
  c = ',' || c = '.' || c = ';' || c = ':' || c = '!' || c = '?'

/-- Characters of the class `[(\[{]`. -/
def isOpenBracket (c : Char) : Bool :=
  c = '(' || c = '[' || c = '{'

/-- Characters of the class `[)\]}]`. -/
def isCloseBracket (c : Char) : Bool :=
  c = ')' || c = ']' || c = '}'

/-- Characters of the class `['\"]`. -/
def isQuoteChar (c : Char) : Bool :=
  c = '\'' || c = '"'

/-- Scanner for a sub of pattern whitespace-run-before-a-`p`-character with
replacement the character alone, as in the sub of `\s+([,.;:!?])` by the
captured group: the maximal whitespace run is dropped exactly when the next
character satisfies `p`. -/
def delWsBefore (p : Char → Bool) : List Char → List Char
  | [] => []
  | c :: rest =>
    if pyIsWs c then
      match rest.dropWhile pyIsWs with
      | [] => c :: rest.takeWhile pyIsWs
      | _ :: _ =>
        if p ((rest.dropWhile pyIsWs).headD c) then delWsBefore p (rest.dropWhile pyIsWs)
        else (c :: rest.takeWhile pyIsWs) ++ delWsBefore p (rest.dropWhile pyIsWs)
    else c :: delWsBefore p rest
termination_by l => l.length
decreasing_by
  all_goals simp only [List.length_cons]
  all_goals
    first
      | exact Nat.lt_succ_of_le (List.dropWhile_sublist _).length_le
      | omega

/-- Scanner for the sub of `([(\[{])\s+` by the captured group: the
whitespace run directly after an opening bracket is dropped. -/
def delWsAfter (p : Char → Bool) : List Char → List Char
  | [] => []
  | c :: rest =>
    if p c then c :: delWsAfter p (rest.dropWhile pyIsWs)
    else c :: delWsAfter p rest
termination_by l => l.length
decreasing_by
  · simp only [List.length_cons]
    exact Nat.lt_succ_of_le (List.dropWhile_sublist _).length_le
  · simp

/-- Scanner for the sub of `:([\"'])` by colon-space-group: inserts one space
between a colon and a directly following quote. -/
def spaceColonQuote : List Char → List Char
  | [] => []
  | [c] => [c]
  | c :: d :: rest2 =>
    if c = ':' && isQuoteChar d then c :: ' ' :: d :: spaceColonQuote rest2
    else c :: spaceColonQuote (d :: rest2)

/-- Scanner for the sub of `(['\"])\s+` by the group followed by one space:
a whitespace run directly after a quote collapses to a single space. -/
def collapseAfterQuote : List Char → List Char
  | [] => []
  | c :: rest =>
    if isQuoteChar c && (match rest.head? with | some d => pyIsWs d | none => false) then
      c :: ' ' :: collapseAfterQuote (rest.dropWhile pyIsWs)
    else c :: collapseAfterQuote rest
termination_by l => l.length
decreasing_by
  · simp only [List.length_cons]
    exact Nat.lt_succ_of_le (List.dropWhile_sublist _).length_le
  · simp

/-- The script function `normalize_punctuation_spacing`: after
`normalize_spacing`, remove space before stop punctuation, after opening and
before closing brackets and before quotes, insert a space between a colon and
a quote, normalize space after quotes, then collapse and strip. -/
def normalize_punctuation_spacing (s : String) : String :=
  ⟨stripWs (collapseWs (collapseAfterQuote (spaceColonQuote (delWsBefore isQuoteChar
    (delWsBefore isCloseBracket (delWsAfter isOpenBracket
      (delWsBefore isStopPunct (normalize_spacing s).data)))))))⟩

/-! ## Idempotence infrastructure for the normalizer -/

/-- Every whitespace character of the list is a plain space. -/
def WsSingle (l : List Char) : Prop :=
  ∀ c ∈ l, pyIsWs c = true → c = ' '

/-- No two adjacent whitespace characters. -/
def NoWsPair (l : List Char) : Prop :=
  l.Chain' fun a b => ¬(pyIsWs a = true ∧ pyIsWs b = true)

/-- The first character, when present, is not whitespace. -/
def HeadNonWs (l : List Char) : Prop :=
  ∀ c, l.head? = some c → pyIsWs c = false

/-- The last character, when present, is not whitespace. -/
def LastNonWs (l : List Char) : Prop :=
  ∀ c, l.getLast? = some c → pyIsWs c = false

/-- Shape of `normalize_spacing` output. -/
def WsNorm (l : List Char) : Prop :=
  WsSingle l ∧ NoWsPair l ∧ HeadNonWs l ∧ LastNonWs l

theorem charMap_cons (c : Char) (rest : List Char) :
    charMap (c :: rest) = charMapOne c ++ charMap rest := by
  simp [charMap]

theorem charMapOne_fix (d c : Char) (hc : c ∈ charMapOne d) : charMapOne c = [c] := by
  unfold charMapOne at hc ⊢
  cases hfind : charMapTable.find? (fun p => p.1 = d) with
  | none =>
    rw [hfind] at hc
    simp only [List.mem_singleton] at hc
    subst hc
    rw [hfind]
  | some p =>
    rw [hfind] at hc
    have hmem : p ∈ charMapTable := List.mem_of_find?_eq_some hfind
    fin_cases hmem <;> simp_all <;>
      first
        | (subst hc; decide)
        | (rcases hc with hc | hc <;> (subst hc; decide))

theorem charMap_fix (l : List Char) (h : ∀ c ∈ l, charMapOne c = [c]) :
    charMap l = l := by
  induction l with
  | nil => rfl
  | cons c rest ih =>
    have hc : charMapOne c = [c] := h c (List.mem_cons_self _ _)
    have hr : charMap rest = rest := ih fun d hd => h d (List.mem_cons_of_mem _ hd)
    rw [charMap_cons, hc, hr]
    rfl

theorem mem_charMap (l : List Char) (c : Char) (hc : c ∈ charMap l) :
    ∃ d ∈ l, c ∈ charMapOne d := by
  simpa [charMap] using List.mem_flatMap.mp hc

theorem collapseWs_cons_ws (c : Char) (rest : List Char) (h : pyIsWs c = true) :
    collapseWs (c :: rest) = ' ' :: collapseWs (rest.dropWhile pyIsWs) := by
  rw [collapseWs]
  simp [h]

theorem collapseWs_cons_nonws (c : Char) (rest : List Char) (h : pyIsWs c = false) :
    collapseWs (c :: rest) = c :: collapseWs rest := by
  rw [collapseWs]
  simp [h]

theorem collapseWs_nil : collapseWs [] = [] := by
  simp [collapseWs]

theorem mem_collapseWs (l : List Char) (c : Char) (hc : c ∈ collapseWs l) :
    c ∈ l ∨ c = ' ' := by
  induction l using collapseWs.induct with
  | case1 => simp [collapseWs] at hc
  | case2 d rest hws ih =>
    rw [collapseWs_cons_ws d rest hws] at hc
    rcases List.mem_cons.mp hc with h | h
    · exact Or.inr h
    · rcases ih h with h' | h'
      · exact Or.inl (List.mem_cons_of_mem _ ((List.dropWhile_sublist _).mem h'))
      · exact Or.inr h'
  | case3 d rest hws ih =>
    rw [collapseWs_cons_nonws d rest (by simpa using hws)] at hc
    rcases List.mem_cons.mp hc with h | h
    · exact Or.inl (h ▸ List.mem_cons_self _ _)
    · rcases ih h with h' | h'
      · exact Or.inl (List.mem_cons_of_mem _ h')
      · exact Or.inr h'

theorem collapseWs_wsSingle (l : List Char) : WsSingle (collapseWs l) := by
  induction l using collapseWs.induct with
  | case1 => intro c hc; simp [collapseWs] at hc
  | case2 d rest hws ih =>
    rw [collapseWs_cons_ws d rest hws]
    intro c hc hwsc
    rcases List.mem_cons.mp hc with h | h
    · exact h
    · exact ih c h hwsc
  | case3 d rest hws ih =>
    rw [collapseWs_cons_nonws d rest (by simpa using hws)]
    intro c hc hwsc
    rcases List.mem_cons.mp hc with h | h
    · subst h; exact absurd hwsc (by simpa using hws)
    · exact ih c h hwsc

theorem collapseWs_headNonWs (l : List Char) (h : HeadNonWs l) :
    HeadNonWs (collapseWs l) := by
  cases l with
  | nil => intro c hc; simp [collapseWs] at hc
  | cons d rest =>
    have hd : pyIsWs d = false := h d rfl
    rw [collapseWs_cons_nonws d rest hd]
    intro c hc
    simp only [List.head?_cons, Option.some.injEq] at hc
    subst hc
    exact hd

theorem dropWhile_headNonWs (l : List Char) : HeadNonWs (l.dropWhile pyIsWs) := by
  intro c hc
  have := List.head?_dropWhile_not pyIsWs l
  rw [hc] at this
  exact this

theorem collapseWs_noWsPair (l : List Char) : NoWsPair (collapseWs l) := by
  induction l using collapseWs.induct with
  | case1 => simp [collapseWs, NoWsPair]
  | case2 d rest hws ih =>
    rw [collapseWs_cons_ws d rest hws]
    rw [NoWsPair, List.chain'_cons']
    refine ⟨?_, ih⟩
    intro b hb
    have hnb := collapseWs_headNonWs _ (dropWhile_headNonWs rest) b hb
    intro hcontra
    rw [hnb] at hcontra
    exact absurd hcontra.2 (by simp)
  | case3 d rest hws ih =>
    rw [collapseWs_cons_nonws d rest (by simpa using hws)]
    rw [NoWsPair, List.chain'_cons']
    refine ⟨?_, ih⟩
    intro b _ hcontra
    simp only [Bool.not_eq_true] at hws
    rw [hws] at hcontra
    exact absurd hcontra.1 (by simp)

theorem dropWhile_eq_self_of_headNonWs (l : List Char) (h : HeadNonWs l) :
    l.dropWhile pyIsWs = l := by
  cases l with
  | nil => rfl
  | cons c rest =>
    rw [List.dropWhile_cons, if_neg]
    rw [h c rfl]
    simp

theorem stripWs_eq_dropTrail (l : List Char) :
    stripWs l = ((l.dropWhile pyIsWs).reverse.dropWhile pyIsWs).reverse := rfl

theorem stripWs_sub (l : List Char) : ∀ c ∈ stripWs l, c ∈ l := by
  intro c hc
  rw [stripWs_eq_dropTrail] at hc
  rw [List.mem_reverse] at hc
  have h1 := (List.dropWhile_sublist (l := (l.dropWhile pyIsWs).reverse) pyIsWs).mem hc
  rw [List.mem_reverse] at h1
  exact (List.dropWhile_sublist _).mem h1

theorem stripWs_isInfix (l : List Char) : stripWs l <:+: l := by
  have h1 : stripWs l <+: l.dropWhile pyIsWs := by
    rw [stripWs_eq_dropTrail]
    rw [← List.reverse_suffix]
    simpa using List.dropWhile_suffix (l := (l.dropWhile pyIsWs).reverse) pyIsWs
  have h2 : l.dropWhile pyIsWs <:+ l := List.dropWhile_suffix pyIsWs
  exact h1.isInfix.trans h2.isInfix

theorem stripWs_lastNonWs (l : List Char) : LastNonWs (stripWs l) := by
  intro c hc
  rw [stripWs_eq_dropTrail, List.getLast?_reverse] at hc
  have := List.head?_dropWhile_not pyIsWs (l.dropWhile pyIsWs).reverse
  rw [hc] at this
  exact this

theorem head?_of_isPrefix (l₁ l₂ : List Char) (h : l₁ <+: l₂) (c : Char)
    (hc : l₁.head? = some c) : l₂.head? = some c := by
  rcases h with ⟨t, rfl⟩
  cases l₁ with
  | nil => simp at hc
  | cons d r => simpa using hc

theorem stripWs_headNonWs (l : List Char) : HeadNonWs (stripWs l) := by
  intro c hc
  have h1 : stripWs l <+: l.dropWhile pyIsWs := by
    rw [stripWs_eq_dropTrail]
    rw [← List.reverse_suffix]
    simpa using List.dropWhile_suffix (l := (l.dropWhile pyIsWs).reverse) pyIsWs
  have h2 := head?_of_isPrefix _ _ h1 c hc
  exact dropWhile_headNonWs l c h2

theorem stripWs_id (l : List Char) (hh : HeadNonWs l) (hl : LastNonWs l) :
    stripWs l = l := by
  rw [stripWs_eq_dropTrail, dropWhile_eq_self_of_headNonWs l hh]
  rw [dropWhile_eq_self_of_headNonWs, List.reverse_reverse]
  intro c hc
  rw [List.head?_reverse] at hc
  exact hl c hc

theorem collapseWs_id (l : List Char) (hA : WsSingle l) (hB : NoWsPair l)
    (hL : LastNonWs l) : collapseWs l = l := by
  induction l using collapseWs.induct with
  | case1 => simp [collapseWs]
  | case2 d rest hws ih =>
    have hd : d = ' ' := hA d (List.mem_cons_self _ _) hws
    cases rest with
    | nil =>
      exfalso
      have := hL d (by simp)
      rw [this] at hws
      exact absurd hws (by simp)
    | cons e t =>
      have hne : pyIsWs e = false := by
        have hchain := hB
        rw [NoWsPair, List.chain'_cons] at hchain
        by_contra hcontra
        simp only [Bool.not_eq_false] at hcontra
        exact hchain.1 ⟨hws, hcontra⟩
      have hdrop : (e :: t).dropWhile pyIsWs = e :: t := by
        rw [List.dropWhile_cons, if_neg]
        rw [hne]
        simp
      rw [collapseWs_cons_ws d (e :: t) hws, hdrop]
      rw [hdrop] at ih
      rw [ih (fun c hc hcws => hA c (List.mem_cons_of_mem _ hc) hcws)
        (by rw [NoWsPair] at hB ⊢; exact hB.tail)
        (by intro c hc; exact hL c (by rw [List.getLast?_cons_cons]; exact hc)), hd]
  | case3 d rest hws ih =>
    simp only [Bool.not_eq_true] at hws
    rw [collapseWs_cons_nonws d rest hws]
    cases rest with
    | nil => simp [collapseWs]
    | cons e t =>
      rw [ih (fun c hc hcws => hA c (List.mem_cons_of_mem _ hc) hcws)
        (by rw [NoWsPair] at hB ⊢; exact hB.tail)
        (by intro c hc; exact hL c (by rw [List.getLast?_cons_cons]; exact hc))]

theorem wsNorm_normalizeSpacingL (l : List Char) : WsNorm (normalizeSpacingL l) := by
  refine ⟨?_, ?_, ?_, ?_⟩
  · intro c hc hws
    exact collapseWs_wsSingle (charMap l) c (stripWs_sub _ c hc) hws
  · exact List.Chain'.infix (collapseWs_noWsPair (charMap l)) (stripWs_isInfix _)
  · exact stripWs_headNonWs _
  · exact stripWs_lastNonWs _

theorem fixchars_normalizeSpacingL (l : List Char) :
    ∀ c ∈ normalizeSpacingL l, charMapOne c = [c] := by
  intro c hc
  have h1 := stripWs_sub _ c hc
  rcases mem_collapseWs _ c h1 with h2 | h2
  · obtain ⟨d, _, hd2⟩ := mem_charMap _ c h2
    exact charMapOne_fix d c hd2
  · subst h2; decide

theorem charMap_normalizeSpacingL (l : List Char) :
    charMap (normalizeSpacingL l) = normalizeSpacingL l :=
  charMap_fix _ (fixchars_normalizeSpacingL l)

theorem collapseWs_id_of_wsNorm (l : List Char) (h : WsNorm l) : collapseWs l = l :=
  collapseWs_id l h.1 h.2.1 h.2.2.2

theorem stripWs_id_of_wsNorm (l : List Char) (h : WsNorm l) : stripWs l = l :=
  stripWs_id l h.2.2.1 h.2.2.2

theorem normalizeSpacingL_idem (l : List Char) :
    normalizeSpacingL (normalizeSpacingL l) = normalizeSpacingL l := by
  have hn := wsNorm_normalizeSpacingL l
  conv_lhs => rw [normalizeSpacingL, charMap_normalizeSpacingL,
    collapseWs_id_of_wsNorm _ hn, stripWs_id_of_wsNorm _ hn]

theorem delWsBefore_nil (p : Char → Bool) : delWsBefore p [] = [] := by
  rw [delWsBefore]

theorem delWsBefore_cons_nonws (p : Char → Bool) (c : Char) (rest : List Char)
    (h : pyIsWs c = false) :
    delWsBefore p (c :: rest) = c :: delWsBefore p rest := by
  rw [delWsBefore]
  simp [h]

theorem delWsBefore_cons_ws_nil (p : Char → Bool) (c : Char) (rest : List Char)
    (h : pyIsWs c = true) (hdw : rest.dropWhile pyIsWs = []) :
    delWsBefore p (c :: rest) = c :: rest.takeWhile pyIsWs := by
  rw [delWsBefore]
  simp [h, hdw]

theorem delWsBefore_cons_ws_del (p : Char → Bool) (c : Char) (rest : List Char)
    (d : Char) (t : List Char) (h : pyIsWs c = true)
    (hdw : rest.dropWhile pyIsWs = d :: t) (hp : p d = true) :
    delWsBefore p (c :: rest) = delWsBefore p (d :: t) := by
  rw [delWsBefore]
  simp [h, hdw, hp]

theorem delWsBefore_cons_ws_keep (p : Char → Bool) (c : Char) (rest : List Char)
    (d : Char) (t : List Char) (h : pyIsWs c = true)
    (hdw : rest.dropWhile pyIsWs = d :: t) (hp : p d = false) :
    delWsBefore p (c :: rest) =
      (c :: rest.takeWhile pyIsWs) ++ delWsBefore p (d :: t) := by
  rw [delWsBefore]
  simp [h, hdw, hp]

theorem delWsBefore_sub (p : Char → Bool) (l : List Char) :
    ∀ c ∈ delWsBefore p l, c ∈ l := by
  induction l using delWsBefore.induct p with
  | case1 => intro c hc; rw [delWsBefore_nil] at hc; simp at hc
  | case2 a tail hws hdw =>
    intro c hc
    rw [delWsBefore_cons_ws_nil _ _ _ hws hdw] at hc
    rcases List.mem_cons.mp hc with h | h
    · exact h ▸ List.mem_cons_self _ _
    · exact List.mem_cons_of_mem _ ((List.takeWhile_sublist _).mem h)
  | case3 a tail hws d t hdw hp ih =>
    intro c hc
    rw [delWsBefore_cons_ws_del _ _ _ _ _ hws hdw (by simpa [hdw] using hp)] at hc
    have h2 := ih c (by rw [hdw]; exact hc)
    exact List.mem_cons_of_mem _ ((List.dropWhile_sublist pyIsWs).mem h2)
  | case4 a tail hws d t hdw hp ih =>
    intro c hc
    rw [delWsBefore_cons_ws_keep _ _ _ _ _ hws hdw (by simpa [hdw] using hp)] at hc
    rcases List.mem_append.mp hc with h | h
    · rcases List.mem_cons.mp h with h' | h'
      · exact h' ▸ List.mem_cons_self _ _
      · exact List.mem_cons_of_mem _ ((List.takeWhile_sublist _).mem h')
    · have h2 := ih c (by rw [hdw]; exact h)
      exact List.mem_cons_of_mem _ ((List.dropWhile_sublist pyIsWs).mem h2)
  | case5 a tail hws ih =>
    intro c hc
    rw [delWsBefore_cons_nonws _ _ _ (by simpa using hws)] at hc
    rcases List.mem_cons.mp hc with h | h
    · exact h ▸ List.mem_cons_self _ _
    · exact List.mem_cons_of_mem _ (ih c h)

theorem delWsBefore_ne_nil (p : Char → Bool) (l : List Char) (h : l ≠ []) :
    delWsBefore p l ≠ [] := by
  induction l using delWsBefore.induct p with
  | case1 => exact absurd rfl h
  | case2 a tail hws hdw =>
    rw [delWsBefore_cons_ws_nil _ _ _ hws hdw]
    simp
  | case3 a tail hws d t hdw hp ih =>
    rw [delWsBefore_cons_ws_del _ _ _ _ _ hws hdw (by simpa [hdw] using hp)]
    have := ih (by rw [hdw]; simp)
    rwa [hdw] at this
  | case4 a tail hws d t hdw hp ih =>
    rw [delWsBefore_cons_ws_keep _ _ _ _ _ hws hdw (by simpa [hdw] using hp)]
    simp
  | case5 a tail hws ih =>
    rw [delWsBefore_cons_nonws _ _ _ (by simpa using hws)]
    simp

theorem delWsBefore_head (p : Char → Bool) (l : List Char) (b : Char)
    (hb : (delWsBefore p l).head? = some b) :
    l.head? = some b ∨ (pyIsWs b = false ∧ p b = true) := by
  induction l using delWsBefore.induct p with
  | case1 => rw [delWsBefore_nil] at hb; simp at hb
  | case2 a tail hws hdw =>
    rw [delWsBefore_cons_ws_nil _ _ _ hws hdw] at hb
    simp only [List.head?_cons, Option.some.injEq] at hb
    exact Or.inl (by simp [hb])
  | case3 a tail hws d t hdw hp ih =>
    rw [delWsBefore_cons_ws_del _ _ _ _ _ hws hdw (by simpa [hdw] using hp)] at hb
    have hd : pyIsWs d = false := by
      have := dropWhile_headNonWs tail
      rw [hdw] at this
      exact this d rfl
    have hb2 : (delWsBefore p (d :: t)).head? = some b := hb
    rw [delWsBefore_cons_nonws _ _ _ hd] at hb2
    simp only [List.head?_cons, Option.some.injEq] at hb2
    subst hb2
    exact Or.inr ⟨hd, by simpa [hdw] using hp⟩
  | case4 a tail hws d t hdw hp ih =>
    rw [delWsBefore_cons_ws_keep _ _ _ _ _ hws hdw (by simpa [hdw] using hp)] at hb
    simp only [List.cons_append, List.head?_cons, Option.some.injEq] at hb
    exact Or.inl (by simp [hb])
  | case5 a tail hws ih =>
    rw [delWsBefore_cons_nonws _ _ _ (by simpa using hws)] at hb
    simp only [List.head?_cons, Option.some.injEq] at hb
    exact Or.inl (by simp [hb])

theorem takeWhile_eq_self_of_dropWhile_nil (ptest : Char → Bool) (l : List Char)
    (h : l.dropWhile ptest = []) : l.takeWhile ptest = l := by
  have := List.takeWhile_append_dropWhile ptest l
  rw [h, List.append_nil] at this
  exact this

theorem cons_decomp_of_dropWhile (a : Char) (tail : List Char) (d : Char) (t : List Char)
    (hdw : tail.dropWhile pyIsWs = d :: t) :
    a :: tail = (a :: tail.takeWhile pyIsWs) ++ (d :: t) := by
  rw [List.cons_append]
  rw [← hdw, List.takeWhile_append_dropWhile]

theorem delWsBefore_chain' (p : Char → Bool) (R : Char → Char → Prop) (l : List Char)
    (hlink : ∀ a b, pyIsWs a = false → pyIsWs b = false → p b = true → R a b)
    (h : l.Chain' R) : (delWsBefore p l).Chain' R := by
  induction l using delWsBefore.induct p with
  | case1 => rw [delWsBefore_nil]; exact List.chain'_nil
  | case2 a tail hws hdw =>
    rw [delWsBefore_cons_ws_nil _ _ _ hws hdw,
      takeWhile_eq_self_of_dropWhile_nil _ _ hdw]
    exact h
  | case3 a tail hws d t hdw hp ih =>
    rw [delWsBefore_cons_ws_del _ _ _ _ _ hws hdw (by simpa [hdw] using hp)]
    have htail : tail.Chain' R := h.tail
    have hch : (tail.dropWhile pyIsWs).Chain' R :=
      List.Chain'.infix htail (List.dropWhile_suffix pyIsWs).isInfix
    have := ih hch
    rwa [hdw] at this
  | case4 a tail hws d t hdw hp ih =>
    rw [delWsBefore_cons_ws_keep _ _ _ _ _ hws hdw (by simpa [hdw] using hp)]
    have hdecomp := cons_decomp_of_dropWhile a tail d t hdw
    have h2 : ((a :: tail.takeWhile pyIsWs) ++ (d :: t)).Chain' R := by rwa [← hdecomp]
    rw [List.chain'_append] at h2
    rw [List.chain'_append]
    refine ⟨h2.1, ?_, ?_⟩
    · have hch : (tail.dropWhile pyIsWs).Chain' R :=
        List.Chain'.infix h.tail (List.dropWhile_suffix pyIsWs).isInfix
      have := ih hch
      rwa [hdw] at this
    · intro x hx y hy
      have hd : pyIsWs d = false := by
        have := dropWhile_headNonWs tail
        rw [hdw] at this
        exact this d rfl
      rw [delWsBefore_cons_nonws _ _ _ hd] at hy
      simp only [List.head?_cons, Option.mem_def, Option.some.injEq] at hy
      subst hy
      exact h2.2.2 x hx d (by simp)
  | case5 a tail hws ih =>
    simp only [Bool.not_eq_true] at hws
    rw [delWsBefore_cons_nonws _ _ _ hws]
    rw [List.chain'_cons']
    constructor
    · intro y hy
      rw [Option.mem_def] at hy
      rcases delWsBefore_head p tail y hy with h1 | h1
      · rw [List.chain'_cons'] at h
        exact h.1 y (by rw [Option.mem_def]; exact h1)
      · exact hlink a y hws h1.1 h1.2
    · exact ih h.tail

theorem chain'_of_all_ws (p : Char → Bool) (run : List Char)
    (hrun : ∀ c ∈ run, pyIsWs c = true) (hp : ∀ b, pyIsWs b = true → p b = false) :
    run.Chain' fun a b => pyIsWs a = true → p b = false := by
  apply List.Pairwise.chain'
  exact List.pairwise_of_forall_mem_list fun a _ b hb _ => hp b (hrun b hb)

theorem delWsBefore_estab (p : Char → Bool) (l : List Char)
    (hp : ∀ b, pyIsWs b = true → p b = false) :
    (delWsBefore p l).Chain' fun a b => pyIsWs a = true → p b = false := by
  induction l using delWsBefore.induct p with
  | case1 => rw [delWsBefore_nil]; exact List.chain'_nil
  | case2 a tail hws hdw =>
    rw [delWsBefore_cons_ws_nil _ _ _ hws hdw]
    refine chain'_of_all_ws p _ ?_ hp
    intro c hc
    rcases List.mem_cons.mp hc with h | h
    · exact h ▸ hws
    · exact List.mem_takeWhile_imp h
  | case3 a tail hws d t hdw hp2 ih =>
    rw [delWsBefore_cons_ws_del _ _ _ _ _ hws hdw (by simpa [hdw] using hp2)]
    have := ih
    rwa [hdw] at this
  | case4 a tail hws d t hdw hp2 ih =>
    rw [delWsBefore_cons_ws_keep _ _ _ _ _ hws hdw (by simpa [hdw] using hp2)]
    rw [List.chain'_append]
    refine ⟨?_, by have := ih; rwa [hdw] at this, ?_⟩
    · refine chain'_of_all_ws p _ ?_ hp
      intro c hc
      rcases List.mem_cons.mp hc with h | h
      · exact h ▸ hws
      · exact List.mem_takeWhile_imp h
    · intro x _ y hy
      have hd : pyIsWs d = false := by
        have := dropWhile_headNonWs tail
        rw [hdw] at this
        exact this d rfl
      rw [delWsBefore_cons_nonws _ _ _ hd] at hy
      simp only [List.head?_cons, Option.mem_def, Option.some.injEq] at hy
      subst hy
      intro _
      simpa [hdw] using hp2
  | case5 a tail hws ih =>
    simp only [Bool.not_eq_true] at hws
    rw [delWsBefore_cons_nonws _ _ _ hws]
    rw [List.chain'_cons']
    refine ⟨?_, ih⟩
    intro y _ hcontra
    rw [hws] at hcontra
    exact absurd hcontra (by simp)

theorem delWsBefore_id (p : Char → Bool) (l : List Char)
    (h : l.Chain' fun a b => pyIsWs a = true → p b = false) :
    delWsBefore p l = l := by
  induction l using delWsBefore.induct p with
  | case1 => exact delWsBefore_nil p
  | case2 a tail hws hdw =>
    rw [delWsBefore_cons_ws_nil _ _ _ hws hdw,
      takeWhile_eq_self_of_dropWhile_nil _ _ hdw]
  | case3 a tail hws d t hdw hp ih =>
    exfalso
    have hdecomp := cons_decomp_of_dropWhile a tail d t hdw
    have h2 : ((a :: tail.takeWhile pyIsWs) ++ (d :: t)).Chain'
        (fun a b => pyIsWs a = true → p b = false) := by rwa [← hdecomp]
    rw [List.chain'_append] at h2
    obtain ⟨x, hx⟩ : ∃ x, (a :: tail.takeWhile pyIsWs).getLast? = some x :=
      Option.ne_none_iff_exists'.mp (by simp [List.getLast?_eq_none_iff])
    have hxws : pyIsWs x = true := by
      rcases List.mem_cons.mp (List.mem_of_mem_getLast? hx) with h' | h'
      · exact h' ▸ hws
      · exact List.mem_takeWhile_imp h'
    have := h2.2.2 x (by rw [Option.mem_def]; exact hx) d (by simp) hxws
    rw [hdw] at hp
    simp only [List.headD_cons] at hp
    rw [this] at hp
    exact absurd hp (by simp)
  | case4 a tail hws d t hdw hp ih =>
    rw [delWsBefore_cons_ws_keep _ _ _ _ _ hws hdw (by simpa [hdw] using hp)]
    have hch : (tail.dropWhile pyIsWs).Chain' (fun a b => pyIsWs a = true → p b = false) :=
      List.Chain'.infix h.tail (List.dropWhile_suffix pyIsWs).isInfix
    have hr := ih hch
    rw [← hdw, hr, hdw]
    exact (cons_decomp_of_dropWhile a tail d t hdw).symm
  | case5 a tail hws ih =>
    rw [delWsBefore_cons_nonws _ _ _ (by simpa using hws), ih h.tail]

theorem delWsBefore_headNonWs (p : Char → Bool) (l : List Char) (h : HeadNonWs l) :
    HeadNonWs (delWsBefore p l) := by
  intro c hc
  rcases delWsBefore_head p l c hc with h1 | h1
  · exact h c h1
  · exact h1.1

theorem getLast?_cons_of_ne_nil (a : Char) (tail : List Char) (h : tail ≠ []) :
    (a :: tail).getLast? = tail.getLast? := by
  have : a :: tail = [a] ++ tail := rfl
  rw [this, List.getLast?_append_of_ne_nil _ h]

theorem getLast?_suffix_ne_nil (l s : List Char) (hs : s <:+ l) (h : s ≠ []) :
    l.getLast? = s.getLast? := by
  rcases hs with ⟨pre, rfl⟩
  rw [List.getLast?_append_of_ne_nil _ h]

theorem delWsBefore_lastNonWs (p : Char → Bool) (l : List Char) (h : LastNonWs l) :
    LastNonWs (delWsBefore p l) := by
  induction l using delWsBefore.induct p with
  | case1 => rw [delWsBefore_nil]; exact h
  | case2 a tail hws hdw =>
    rw [delWsBefore_cons_ws_nil _ _ _ hws hdw,
      takeWhile_eq_self_of_dropWhile_nil _ _ hdw]
    exact h
  | case3 a tail hws d t hdw hp ih =>
    rw [delWsBefore_cons_ws_del _ _ _ _ _ hws hdw (by simpa [hdw] using hp)]
    have hlast : LastNonWs (tail.dropWhile pyIsWs) := by
      intro c hc
      apply h c
      rw [getLast?_cons_of_ne_nil a tail (by
        intro hnil; rw [hnil] at hdw; simp at hdw)]
      rw [getLast?_suffix_ne_nil tail _ (List.dropWhile_suffix pyIsWs) (by rw [hdw]; simp)]
      exact hc
    have := ih hlast
    rwa [hdw] at this
  | case4 a tail hws d t hdw hp ih =>
    rw [delWsBefore_cons_ws_keep _ _ _ _ _ hws hdw (by simpa [hdw] using hp)]
    have hlast : LastNonWs (tail.dropWhile pyIsWs) := by
      intro c hc
      apply h c
      rw [getLast?_cons_of_ne_nil a tail (by
        intro hnil; rw [hnil] at hdw; simp at hdw)]
      rw [getLast?_suffix_ne_nil tail _ (List.dropWhile_suffix pyIsWs) (by rw [hdw]; simp)]
      exact hc
    have hih := ih hlast
    rw [hdw] at hih
    intro c hc
    rw [List.getLast?_append_of_ne_nil _ (delWsBefore_ne_nil p (d :: t) (by simp))] at hc
    exact hih c hc
  | case5 a tail hws ih =>
    rw [delWsBefore_cons_nonws _ _ _ (by simpa using hws)]
    cases htail : tail with
    | nil =>
      intro c hc
      rw [delWsBefore_nil] at hc
      simp only [List.getLast?_singleton, Option.some.injEq] at hc
      subst hc
      simpa using hws
    | cons e t2 =>
      intro c hc
      rw [getLast?_cons_of_ne_nil _ _ (by
        rw [← htail]
        exact delWsBefore_ne_nil p tail (by rw [htail]; simp))] at hc
      rw [← htail] at hc
      have hlast : LastNonWs tail := by
        intro c2 hc2
        apply h c2
        rw [getLast?_cons_of_ne_nil a tail (by rw [htail]; simp)]
        exact hc2
      exact ih hlast c hc

theorem delWsAfter_nil (p : Char → Bool) : delWsAfter p [] = [] := by
  rw [delWsAfter]

theorem delWsAfter_cons_p (p : Char → Bool) (c : Char) (rest : List Char)
    (h : p c = true) :
    delWsAfter p (c :: rest) = c :: delWsAfter p (rest.dropWhile pyIsWs) := by
  rw [delWsAfter]
  simp [h]

theorem delWsAfter_cons_np (p : Char → Bool) (c : Char) (rest : List Char)
    (h : p c = false) :
    delWsAfter p (c :: rest) = c :: delWsAfter p rest := by
  rw [delWsAfter]
  simp [h]

theorem delWsAfter_sub (p : Char → Bool) (l : List Char) :
    ∀ c ∈ delWsAfter p l, c ∈ l := by
  induction l using delWsAfter.induct p with
  | case1 => intro c hc; rw [delWsAfter_nil] at hc; simp at hc
  | case2 a tail hp ih =>
    intro c hc
    rw [delWsAfter_cons_p _ _ _ hp] at hc
    rcases List.mem_cons.mp hc with h | h
    · exact h ▸ List.mem_cons_self _ _
    · exact List.mem_cons_of_mem _ ((List.dropWhile_sublist pyIsWs).mem (ih c h))
  | case3 a tail hp ih =>
    intro c hc
    rw [delWsAfter_cons_np _ _ _ (by simpa using hp)] at hc
    rcases List.mem_cons.mp hc with h | h
    · exact h ▸ List.mem_cons_self _ _
    · exact List.mem_cons_of_mem _ (ih c h)

theorem delWsAfter_head (p : Char → Bool) (l : List Char) :
    (delWsAfter p l).head? = l.head? := by
  cases l with
  | nil => rw [delWsAfter_nil]
  | cons c rest =>
    by_cases h : p c
    · rw [delWsAfter_cons_p _ _ _ h]; rfl
    · rw [delWsAfter_cons_np _ _ _ (by simpa using h)]; rfl

theorem delWsAfter_ne_nil (p : Char → Bool) (l : List Char) (h : l ≠ []) :
    delWsAfter p l ≠ [] := by
  cases l with
  | nil => exact absurd rfl h
  | cons c rest =>
    by_cases hpc : p c
    · rw [delWsAfter_cons_p _ _ _ hpc]; simp
    · rw [delWsAfter_cons_np _ _ _ (by simpa using hpc)]; simp

theorem delWsAfter_chain' (p : Char → Bool) (R : Char → Char → Prop) (l : List Char)
    (hlink : ∀ a b, p a = true → pyIsWs b = false → R a b)
    (h : l.Chain' R) : (delWsAfter p l).Chain' R := by
  induction l using delWsAfter.induct p with
  | case1 => rw [delWsAfter_nil]; exact List.chain'_nil
  | case2 a tail hp ih =>
    rw [delWsAfter_cons_p _ _ _ hp]
    rw [List.chain'_cons']
    constructor
    · intro y hy
      rw [Option.mem_def, delWsAfter_head] at hy
      cases tail with
      | nil => simp at hy
      | cons e t2 =>
        by_cases hwe : pyIsWs e
        · have := dropWhile_headNonWs (e :: t2) y (by exact hy)
          exact hlink a y hp this
        · rw [List.dropWhile_cons, if_neg (by simpa using hwe)] at hy
          simp only [List.head?_cons, Option.some.injEq] at hy
          rw [List.chain'_cons'] at h
          exact hy ▸ h.1 e (by simp)
    · refine ih ?_
      exact List.Chain'.infix h.tail (List.dropWhile_suffix pyIsWs).isInfix
  | case3 a tail hp ih =>
    rw [delWsAfter_cons_np _ _ _ (by simpa using hp)]
    rw [List.chain'_cons']
    constructor
    · intro y hy
      rw [Option.mem_def, delWsAfter_head] at hy
      rw [List.chain'_cons'] at h
      exact h.1 y (by rw [Option.mem_def]; exact hy)
    · exact ih h.tail

theorem delWsAfter_estab (p : Char → Bool) (l : List Char) :
    (delWsAfter p l).Chain' fun a b => p a = true → pyIsWs b = false := by
  induction l using delWsAfter.induct p with
  | case1 => rw [delWsAfter_nil]; exact List.chain'_nil
  | case2 a tail hp ih =>
    rw [delWsAfter_cons_p _ _ _ hp]
    rw [List.chain'_cons']
    constructor
    · intro y hy _
      rw [Option.mem_def, delWsAfter_head] at hy
      exact dropWhile_headNonWs tail y hy
    · exact ih
  | case3 a tail hp ih =>
    rw [delWsAfter_cons_np _ _ _ (by simpa using hp)]
    rw [List.chain'_cons']
    constructor
    · intro y _ hcontra
      exact absurd hcontra (by simpa using hp)
    · exact ih

theorem delWsAfter_id (p : Char → Bool) (l : List Char)
    (h : l.Chain' fun a b => p a = true → pyIsWs b = false) :
    delWsAfter p l = l := by
  induction l using delWsAfter.induct p with
  | case1 => exact delWsAfter_nil p
  | case2 a tail hp ih =>
    rw [delWsAfter_cons_p _ _ _ hp]
    have hdw : tail.dropWhile pyIsWs = tail := by
      apply dropWhile_eq_self_of_headNonWs
      intro c hc
      rw [List.chain'_cons'] at h
      exact h.1 c (by rw [Option.mem_def]; exact hc) hp
    have hr := ih (by rw [hdw]; exact h.tail)
    rw [hdw] at hr
    rw [hdw, hr]
  | case3 a tail hp ih =>
    rw [delWsAfter_cons_np _ _ _ (by simpa using hp), ih h.tail]

theorem delWsAfter_lastNonWs (p : Char → Bool) (l : List Char) (h : LastNonWs l) :
    LastNonWs (delWsAfter p l) := by
  induction l using delWsAfter.induct p with
  | case1 => rw [delWsAfter_nil]; exact h
  | case2 a tail hp ih =>
    rw [delWsAfter_cons_p _ _ _ hp]
    cases hdw : tail.dropWhile pyIsWs with
    | nil =>
      rw [delWsAfter_nil]
      cases tail with
      | nil =>
        intro c hc
        simp only [List.getLast?_singleton, Option.some.injEq] at hc
        exact hc ▸ h a (by simp)
      | cons e t2 =>
        exfalso
        have hall : ∀ x ∈ e :: t2, pyIsWs x = true := by
          intro x hx
          have := List.takeWhile_append_dropWhile pyIsWs (e :: t2)
          rw [hdw, List.append_nil] at this
          rw [← this] at hx
          exact List.mem_takeWhile_imp hx
        obtain ⟨x, hx⟩ : ∃ x, (e :: t2).getLast? = some x :=
          Option.ne_none_iff_exists'.mp (by simp [List.getLast?_eq_none_iff])
        have hxl := h x (by
          rw [getLast?_cons_of_ne_nil a (e :: t2) (by simp)]
          exact hx)
        rw [hall x (List.mem_of_mem_getLast? hx)] at hxl
        exact absurd hxl (by simp)
    | cons d t3 =>
      have hlast : LastNonWs (tail.dropWhile pyIsWs) := by
        intro c2 hc2
        apply h c2
        have htne : tail ≠ [] := by
          intro hnil; rw [hnil] at hdw; simp at hdw
        rw [getLast?_cons_of_ne_nil a tail htne]
        rw [getLast?_suffix_ne_nil tail _ (List.dropWhile_suffix pyIsWs)
          (by rw [hdw]; simp)]
        exact hc2
      have hih := ih hlast
      intro c hc
      rw [getLast?_cons_of_ne_nil _ _ (delWsAfter_ne_nil p (d :: t3) (by simp))] at hc
      rw [← hdw] at hc
      exact hih c hc
  | case3 a tail hp ih =>
    rw [delWsAfter_cons_np _ _ _ (by simpa using hp)]
    cases tail with
    | nil =>
      intro c hc
      rw [delWsAfter_nil] at hc
      simp only [List.getLast?_singleton, Option.some.injEq] at hc
      exact hc ▸ h a (by simp)
    | cons e t2 =>
      intro c hc
      rw [getLast?_cons_of_ne_nil _ _ (delWsAfter_ne_nil p (e :: t2) (by simp))] at hc
      have hlast : LastNonWs (e :: t2) := by
        intro c2 hc2
        apply h c2
        rw [getLast?_cons_of_ne_nil a (e :: t2) (by simp)]
        exact hc2
      exact ih hlast c hc

theorem scq_nil : spaceColonQuote [] = [] := rfl

theorem scq_one (c : Char) : spaceColonQuote [c] = [c] := rfl

theorem scq_cons2_pos (c d : Char) (r : List Char) (h1 : c = ':')
    (h2 : isQuoteChar d = true) :
    spaceColonQuote (c :: d :: r) = c :: ' ' :: d :: spaceColonQuote r := by
  rw [spaceColonQuote]
  simp [h1, h2]

theorem scq_cons2_neg (c d : Char) (r : List Char)
    (h : ¬(c = ':' ∧ isQuoteChar d = true)) :
    spaceColonQuote (c :: d :: r) = c :: spaceColonQuote (d :: r) := by
  rw [spaceColonQuote]
  rw [if_neg]
  simpa using h

theorem scq_head (l : List Char) : (spaceColonQuote l).head? = l.head? := by
  match l with
  | [] => rfl
  | [c] => rfl
  | c :: d :: r =>
    by_cases h : c = ':' ∧ isQuoteChar d = true
    · rw [scq_cons2_pos c d r h.1 h.2]; rfl
    · rw [scq_cons2_neg c d r h]; rfl

theorem scq_ne_nil (l : List Char) (h : l ≠ []) : spaceColonQuote l ≠ [] := by
  match l with
  | [] => exact absurd rfl h
  | [c] => simp [scq_one]
  | c :: d :: r =>
    by_cases h2 : c = ':' ∧ isQuoteChar d = true
    · rw [scq_cons2_pos c d r h2.1 h2.2]; simp
    · rw [scq_cons2_neg c d r h2]; simp

theorem scq_sub (l : List Char) : ∀ c ∈ spaceColonQuote l, c ∈ l ∨ c = ' ' := by
  match l with
  | [] => intro c hc; rw [scq_nil] at hc; simp at hc
  | [a] => intro c hc; rw [scq_one] at hc; simp at hc; simp [hc]
  | a :: d :: r =>
    intro c hc
    by_cases h2 : a = ':' ∧ isQuoteChar d = true
    · rw [scq_cons2_pos a d r h2.1 h2.2] at hc
      rcases List.mem_cons.mp hc with h | h
      · exact Or.inl (h ▸ List.mem_cons_self _ _)
      rcases List.mem_cons.mp h with h | h
      · exact Or.inr h
      rcases List.mem_cons.mp h with h | h
      · exact Or.inl (by simp [h])
      · rcases scq_sub r c h with h' | h'
        · exact Or.inl (by simp [h'])
        · exact Or.inr h'
    · rw [scq_cons2_neg a d r h2] at hc
      rcases List.mem_cons.mp hc with h | h
      · exact Or.inl (h ▸ List.mem_cons_self _ _)
      · rcases scq_sub (d :: r) c h with h' | h'
        · exact Or.inl (List.mem_cons_of_mem _ h')
        · exact Or.inr h'

theorem scq_chain' (R : Char → Char → Prop) (l : List Char)
    (h1 : R ':' ' ') (h2 : ∀ q, isQuoteChar q = true → R ' ' q)
    (h : l.Chain' R) : (spaceColonQuote l).Chain' R := by
  match l with
  | [] => exact List.chain'_nil
  | [a] => rw [scq_one]; exact List.chain'_singleton a
  | a :: d :: r =>
    rw [List.chain'_cons'] at h
    obtain ⟨ha, hdr⟩ := h
    by_cases hc : a = ':' ∧ isQuoteChar d = true
    · rw [scq_cons2_pos a d r hc.1 hc.2]
      rw [List.chain'_cons']
      refine ⟨fun y hy => by simp at hy; rw [← hy, hc.1]; exact h1, ?_⟩
      rw [List.chain'_cons']
      refine ⟨fun y hy => by simp at hy; rw [← hy]; exact h2 d hc.2, ?_⟩
      rw [List.chain'_cons']
      rw [List.chain'_cons'] at hdr
      constructor
      · intro y hy
        rw [Option.mem_def, scq_head] at hy
        exact hdr.1 y (by rw [Option.mem_def]; exact hy)
      · exact scq_chain' R r h1 h2 hdr.2
    · rw [scq_cons2_neg a d r hc]
      rw [List.chain'_cons']
      constructor
      · intro y hy
        rw [Option.mem_def, scq_head] at hy
        exact ha y (by rw [Option.mem_def]; exact hy)
      · exact scq_chain' R (d :: r) h1 h2 hdr

theorem quote_nonws (q : Char) (h : isQuoteChar q = true) : pyIsWs q = false := by
  rw [isQuoteChar] at h
  rcases Bool.or_eq_true_iff.mp h with h' | h'
  · have hq : q = '\'' := by simpa using h'
    subst hq
    decide
  · have hq : q = '"' := by simpa using h'
    subst hq
    decide

theorem scq_lastNonWs (l : List Char) (h : LastNonWs l) :
    LastNonWs (spaceColonQuote l) := by
  match l with
  | [] => exact h
  | [a] => rw [scq_one]; exact h
  | a :: d :: r =>
    by_cases hc : a = ':' ∧ isQuoteChar d = true
    · rw [scq_cons2_pos a d r hc.1 hc.2]
      cases r with
      | nil =>
        intro c hcl
        rw [scq_nil] at hcl
        have hd : d = c := by simpa using hcl
        rw [← hd]
        exact quote_nonws d hc.2
      | cons e t =>
        intro c hcl
        rw [getLast?_cons_of_ne_nil _ _ (by simp)] at hcl
        rw [getLast?_cons_of_ne_nil _ _ (by simp)] at hcl
        rw [getLast?_cons_of_ne_nil _ _ (scq_ne_nil _ (by simp))] at hcl
        have hlast : LastNonWs (e :: t) := by
          intro c2 hc2
          apply h c2
          rw [getLast?_cons_of_ne_nil _ _ (by simp),
            getLast?_cons_of_ne_nil _ _ (by simp)]
          exact hc2
        exact scq_lastNonWs (e :: t) hlast c hcl
    · rw [scq_cons2_neg a d r hc]
      intro c hcl
      rw [getLast?_cons_of_ne_nil _ _ (scq_ne_nil _ (by simp))] at hcl
      have hlast : LastNonWs (d :: r) := by
        intro c2 hc2
        apply h c2
        rw [getLast?_cons_of_ne_nil _ _ (by simp)]
        exact hc2
      exact scq_lastNonWs (d :: r) hlast c hcl


theorem scq_cons_decomp (d : Char) (r : List Char) :
    ∃ z, spaceColonQuote (d :: r) = d :: z := by
  cases r with
  | nil => exact ⟨[], scq_one d⟩
  | cons e t =>
    by_cases hc : d = ':' ∧ isQuoteChar e = true
    · exact ⟨' ' :: e :: spaceColonQuote t, scq_cons2_pos d e t hc.1 hc.2⟩
    · exact ⟨spaceColonQuote (e :: t), scq_cons2_neg d e t hc⟩

theorem dwbQ_one (a : Char) : delWsBefore isQuoteChar [a] = [a] := by
  by_cases hws : pyIsWs a
  · rw [delWsBefore_cons_ws_nil _ _ _ hws (by simp)]
    simp
  · rw [delWsBefore_cons_nonws _ _ _ (by simpa using hws)]
    rw [delWsBefore_nil]

theorem ws_not_quote (d : Char) (h : pyIsWs d = true) : isQuoteChar d = false := by
  by_contra hc
  simp only [Bool.not_eq_false] at hc
  rw [quote_nonws d hc] at h
  exact absurd h (by simp)

theorem scq_restore_aux : ∀ (n : ℕ) (l : List Char), l.length ≤ n →
    (l.Chain' fun a b => pyIsWs a = true → isQuoteChar b = false) →
    NoWsPair l →
    spaceColonQuote (delWsBefore isQuoteChar (spaceColonQuote l)) =
      spaceColonQuote l := by
  intro n
  induction n with
  | zero =>
    intro l hlen _ _
    have hnil : l = [] := List.length_eq_zero.mp (Nat.le_zero.mp hlen)
    subst hnil
    rw [scq_nil, delWsBefore_nil, scq_nil]
  | succ n ih =>
    intro l hlen hq hb
    match l with
    | [] => rw [scq_nil, delWsBefore_nil, scq_nil]
    | [a] => rw [scq_one, dwbQ_one, scq_one]
    | a :: d :: r =>
      have hq1 : pyIsWs a = true → isQuoteChar d = false := by
        rw [List.chain'_cons'] at hq
        exact fun hw => hq.1 d (by simp) hw
      have hqt : (d :: r).Chain' (fun a b => pyIsWs a = true → isQuoteChar b = false) :=
        List.Chain'.tail hq
      have hb' : (a :: d :: r).Chain' (fun a b => ¬(pyIsWs a = true ∧ pyIsWs b = true)) := hb
      have hbt : (d :: r).Chain' (fun a b => ¬(pyIsWs a = true ∧ pyIsWs b = true)) :=
        List.Chain'.tail hb'
      have hb1 : ¬(pyIsWs a = true ∧ pyIsWs d = true) := by
        rw [List.chain'_cons'] at hb'
        exact hb'.1 d (by simp)
      have hlen2 : (d :: r).length ≤ n := by
        simp only [List.length_cons] at hlen ⊢
        omega
      by_cases hcq : a = ':' ∧ isQuoteChar d = true
      · -- colon directly before quote: space inserted, deleted, re-inserted
        have hdnw : pyIsWs d = false := quote_nonws d hcq.2
        have hanw : pyIsWs a = false := by rw [hcq.1]; decide
        rw [scq_cons2_pos a d r hcq.1 hcq.2]
        rw [delWsBefore_cons_nonws _ _ _ hanw]
        rw [delWsBefore_cons_ws_del isQuoteChar ' ' (d :: spaceColonQuote r) d
          (spaceColonQuote r) (by decide)
          (by rw [List.dropWhile_cons, if_neg (by rw [hdnw]; simp)]) hcq.2]
        rw [delWsBefore_cons_nonws _ _ _ hdnw]
        rw [scq_cons2_pos a d _ hcq.1 hcq.2]
        rw [ih r (by simp only [List.length_cons] at hlen; omega)
          (List.Chain'.tail hqt) (List.Chain'.tail hbt)]
      · rw [scq_cons2_neg a d r hcq]
        obtain ⟨z, hz⟩ := scq_cons_decomp d r
        rw [hz]
        by_cases haw : pyIsWs a
        · -- leading whitespace: single space kept because next char is no quote
          have hdnw : pyIsWs d = false := by
            by_contra hcon
            simp only [Bool.not_eq_false] at hcon
            exact hb1 ⟨haw, hcon⟩
          have hdq : isQuoteChar d = false := hq1 haw
          rw [delWsBefore_cons_ws_keep isQuoteChar a (d :: z) d z haw
            (by rw [List.dropWhile_cons, if_neg (by rw [hdnw]; simp)]) hdq]
          rw [List.takeWhile_cons, if_neg (by rw [hdnw]; simp)]
          rw [delWsBefore_cons_nonws _ _ _ hdnw]
          have hih := ih (d :: r) hlen2 hqt hbt
          rw [hz, delWsBefore_cons_nonws _ _ _ hdnw] at hih
          have hane : ¬(a = ':' ∧ isQuoteChar d = true) := fun hcon => by
            rw [hcon.1] at haw
            exact absurd haw (by decide)
          calc spaceColonQuote ((a :: []) ++ (d :: delWsBefore isQuoteChar z))
              = spaceColonQuote (a :: d :: delWsBefore isQuoteChar z) := by simp
            _ = a :: spaceColonQuote (d :: delWsBefore isQuoteChar z) :=
                scq_cons2_neg a d _ hane
            _ = a :: (d :: z) := by rw [hih]
        · -- leading non-space character
          rw [delWsBefore_cons_nonws _ _ _ (by simpa using haw)]
          by_cases hdw : pyIsWs d
          · -- next char is whitespace
            cases r with
            | nil =>
              have hznil : z = [] := by
                rw [scq_one] at hz
                simpa using hz
              subst hznil
              rw [dwbQ_one]
              rw [scq_cons2_neg a d [] hcq, scq_one]
            | cons e t =>
              have henw : pyIsWs e = false := by
                rw [List.chain'_cons'] at hbt
                by_contra hcon
                simp only [Bool.not_eq_false] at hcon
                exact hbt.1 e (by simp) ⟨hdw, hcon⟩
              have heq : isQuoteChar e = false := by
                rw [List.chain'_cons'] at hqt
                exact hqt.1 e (by simp) hdw
              have hdne : d ≠ ':' := by
                intro hcon
                rw [hcon] at hdw
                exact absurd hdw (by decide)
              have hzeq : z = spaceColonQuote (e :: t) := by
                rw [scq_cons2_neg d e t (fun hcon => hdne hcon.1)] at hz
                exact (by simpa using hz : spaceColonQuote (e :: t) = z).symm
              obtain ⟨z2, hz2⟩ := scq_cons_decomp e t
              rw [hzeq, hz2]
              rw [delWsBefore_cons_ws_keep isQuoteChar d (e :: z2) e z2 hdw
                (by rw [List.dropWhile_cons, if_neg (by rw [henw]; simp)]) heq]
              rw [List.takeWhile_cons, if_neg (by rw [henw]; simp)]
              rw [delWsBefore_cons_nonws _ _ _ henw]
              have hih := ih (e :: t) (by simp only [List.length_cons] at hlen ⊢; omega)
                (List.Chain'.tail hqt) (List.Chain'.tail hbt)
              rw [hz2, delWsBefore_cons_nonws _ _ _ henw] at hih
              have hane2 : ¬(d = ':' ∧ isQuoteChar e = true) := fun hcon => hdne hcon.1
              have hdq2 : isQuoteChar d = false := ws_not_quote d hdw
              have hane1 : ¬(a = ':' ∧ isQuoteChar d = true) := fun hcon => by
                rw [hcon.2] at hdq2
                exact absurd hdq2 (by simp)
              calc spaceColonQuote (a :: (d :: []) ++ (e :: delWsBefore isQuoteChar z2))
                  = spaceColonQuote (a :: d :: e :: delWsBefore isQuoteChar z2) := by simp
                _ = a :: spaceColonQuote (d :: e :: delWsBefore isQuoteChar z2) :=
                    scq_cons2_neg a d _ hane1
                _ = a :: d :: spaceColonQuote (e :: delWsBefore isQuoteChar z2) := by
                    rw [scq_cons2_neg d e _ hane2]
                _ = a :: d :: (e :: z2) := by rw [hih]
              -- right-hand side already in this shape
          · -- both characters are non-space
            rw [delWsBefore_cons_nonws _ _ _ (by simpa using hdw)]
            have hih := ih (d :: r) hlen2 hqt hbt
            rw [hz, delWsBefore_cons_nonws _ _ _ (by simpa using hdw)] at hih
            rw [scq_cons2_neg a d _ hcq, hih]

theorem stop_nonws (c : Char) (h : isStopPunct c = true) : pyIsWs c = false := by
  rw [isStopPunct] at h
  simp only [Bool.or_eq_true, decide_eq_true_eq] at h
  rcases h with ((((h | h) | h) | h) | h) | h <;> (subst h; decide)

theorem open_nonws (c : Char) (h : isOpenBracket c = true) : pyIsWs c = false := by
  rw [isOpenBracket] at h
  simp only [Bool.or_eq_true, decide_eq_true_eq] at h
  rcases h with (h | h) | h <;> (subst h; decide)

theorem close_nonws (c : Char) (h : isCloseBracket c = true) : pyIsWs c = false := by
  rw [isCloseBracket] at h
  simp only [Bool.or_eq_true, decide_eq_true_eq] at h
  rcases h with (h | h) | h <;> (subst h; decide)

theorem quote_not_stop (c : Char) (h : isQuoteChar c = true) : isStopPunct c = false := by
  rw [isQuoteChar] at h
  simp only [Bool.or_eq_true, decide_eq_true_eq] at h
  rcases h with h | h <;> (subst h; decide)

theorem quote_not_close (c : Char) (h : isQuoteChar c = true) : isCloseBracket c = false := by
  rw [isQuoteChar] at h
  simp only [Bool.or_eq_true, decide_eq_true_eq] at h
  rcases h with h | h <;> (subst h; decide)

theorem ws_imp_not_stop (c : Char) (h : pyIsWs c = true) : isStopPunct c = false := by
  by_contra hc
  simp only [Bool.not_eq_false] at hc
  rw [stop_nonws c hc] at h
  exact absurd h (by simp)

theorem ws_imp_not_close (c : Char) (h : pyIsWs c = true) : isCloseBracket c = false := by
  by_contra hc
  simp only [Bool.not_eq_false] at hc
  rw [close_nonws c hc] at h
  exact absurd h (by simp)

theorem caq_nil : collapseAfterQuote [] = [] := by
  rw [collapseAfterQuote]

theorem caq_cons_hit (c e : Char) (t : List Char) (h1 : isQuoteChar c = true)
    (h2 : pyIsWs e = true) :
    collapseAfterQuote (c :: e :: t) =
      c :: ' ' :: collapseAfterQuote ((e :: t).dropWhile pyIsWs) := by
  rw [collapseAfterQuote]
  simp [h1, h2]

theorem caq_cons_miss (c : Char) (rest : List Char)
    (h : ¬(isQuoteChar c = true ∧ (∃ e t, rest = e :: t ∧ pyIsWs e = true))) :
    collapseAfterQuote (c :: rest) = c :: collapseAfterQuote rest := by
  rw [collapseAfterQuote]
  rw [if_neg]
  intro hcon
  rw [Bool.and_eq_true] at hcon
  apply h
  refine ⟨hcon.1, ?_⟩
  cases rest with
  | nil => simp at hcon
  | cons e t => exact ⟨e, t, rfl, by simpa using hcon.2⟩

theorem caq_id (l : List Char) (hA : WsSingle l) (hB : NoWsPair l) :
    collapseAfterQuote l = l := by
  induction l using collapseAfterQuote.induct with
  | case1 => exact caq_nil
  | case2 c rest hcond ih =>
    rw [Bool.and_eq_true] at hcond
    obtain ⟨hq, hcond2⟩ := hcond
    cases rest with
    | nil => simp at hcond2
    | cons e t =>
      have hwe : pyIsWs e = true := by simpa using hcond2
      have he : e = ' ' := hA e (by simp) hwe
      rw [caq_cons_hit c e t hq hwe]
      have hb' : (c :: e :: t).Chain' (fun a b => ¬(pyIsWs a = true ∧ pyIsWs b = true)) := hB
      have hdw : (e :: t).dropWhile pyIsWs = t := by
        rw [List.dropWhile_cons, if_pos (by rw [hwe])]
        apply dropWhile_eq_self_of_headNonWs
        intro c2 hc2
        cases t with
        | nil => simp at hc2
        | cons f t2 =>
          simp only [List.head?_cons, Option.some.injEq] at hc2
          subst hc2
          have h2 := List.Chain'.tail hb'
          simp only [List.tail_cons] at h2
          rw [List.chain'_cons'] at h2
          by_contra hcon
          simp only [Bool.not_eq_false] at hcon
          exact h2.1 f (by simp) ⟨hwe, hcon⟩
      rw [hdw] at ih ⊢
      rw [ih (fun c2 hc2 h2 => hA c2 (by simp [hc2]) h2)
        (List.Chain'.tail (List.Chain'.tail hb'))]
      rw [he]
  | case3 c rest hcond ih =>
    have hb' : (c :: rest).Chain' (fun a b => ¬(pyIsWs a = true ∧ pyIsWs b = true)) := hB
    rw [caq_cons_miss c rest (by
      intro hcon
      apply hcond
      obtain ⟨h1, e, t, rfl, h2⟩ := hcon
      rw [h1]
      simpa using h2)]
    rw [ih (fun c2 hc2 h2 => hA c2 (by simp [hc2]) h2) (List.Chain'.tail hb')]

/-- The four subs of `normalize_punctuation_spacing` that can change an
already space-normalized text, bundled for reasoning. -/
def punctKernel (l : List Char) : List Char :=
  spaceColonQuote (delWsBefore isQuoteChar
    (delWsBefore isCloseBracket (delWsAfter isOpenBracket
      (delWsBefore isStopPunct l))))

theorem nps_data_eq (s : String) :
    (normalize_punctuation_spacing s).data =
      stripWs (collapseWs (collapseAfterQuote (punctKernel (normalizeSpacingL s.data)))) := rfl

theorem wsNorm_delWsBefore (p : Char → Bool) (l : List Char) (h : WsNorm l) :
    WsNorm (delWsBefore p l) := by
  obtain ⟨hA, hB, hH, hL⟩ := h
  refine ⟨fun c hc hw => hA c (delWsBefore_sub p l c hc) hw, ?_,
    delWsBefore_headNonWs p l hH, delWsBefore_lastNonWs p l hL⟩
  rw [NoWsPair]
  exact delWsBefore_chain' p _ l (fun a b ha hb _ hcon => by
    rw [ha] at hcon
    exact absurd hcon.1 (by simp)) hB

theorem wsNorm_delWsAfter (p : Char → Bool) (l : List Char)
    (hp : ∀ b, p b = true → pyIsWs b = false) (h : WsNorm l) :
    WsNorm (delWsAfter p l) := by
  obtain ⟨hA, hB, hH, hL⟩ := h
  refine ⟨fun c hc hw => hA c (delWsAfter_sub p l c hc) hw, ?_, ?_,
    delWsAfter_lastNonWs p l hL⟩
  · rw [NoWsPair]
    exact delWsAfter_chain' p _ l (fun a b ha hb hcon => by
      rw [hb] at hcon
      exact absurd hcon.2 (by simp)) hB
  · intro c hc
    rw [delWsAfter_head] at hc
    exact hH c hc

theorem wsNorm_scq (l : List Char) (h : WsNorm l) : WsNorm (spaceColonQuote l) := by
  obtain ⟨hA, hB, hH, hL⟩ := h
  refine ⟨?_, ?_, ?_, scq_lastNonWs l hL⟩
  · intro c hc hw
    rcases scq_sub l c hc with h' | h'
    · exact hA c h' hw
    · exact h'
  · rw [NoWsPair]
    exact scq_chain' _ l (fun hcon => absurd hcon.1 (by decide))
      (fun q hq hcon => by rw [quote_nonws q hq] at hcon; exact absurd hcon.2 (by simp)) hB
  · intro c hc
    rw [scq_head] at hc
    exact hH c hc

theorem punctKernel_wsNorm (l : List Char) (h : WsNorm l) : WsNorm (punctKernel l) := by
  rw [punctKernel]
  exact wsNorm_scq _ (wsNorm_delWsBefore _ _ (wsNorm_delWsBefore _ _
    (wsNorm_delWsAfter _ _ open_nonws (wsNorm_delWsBefore _ _ h))))

theorem punctKernel_sub (l : List Char) :
    ∀ c ∈ punctKernel l, c ∈ l ∨ c = ' ' := by
  intro c hc
  rw [punctKernel] at hc
  rcases scq_sub _ c hc with h1 | h1
  · have h2 := delWsBefore_sub isQuoteChar _ c h1
    have h3 := delWsBefore_sub isCloseBracket _ c h2
    have h4 := delWsAfter_sub isOpenBracket _ c h3
    exact Or.inl (delWsBefore_sub isStopPunct _ c h4)
  · exact Or.inr h1

theorem nonws_imp_contra (a : Char) (ha : pyIsWs a = false) (hws : pyIsWs a = true) :
    False := by
  rw [ha] at hws
  exact absurd hws (by simp)

theorem punctKernel_noWsStop (l : List Char) :
    (punctKernel l).Chain' fun a b => pyIsWs a = true → isStopPunct b = false := by
  rw [punctKernel]
  apply scq_chain'
  · intro hcon
    exact absurd hcon (by decide)
  · intro q hq _
    exact quote_not_stop q hq
  apply delWsBefore_chain' _ _ _ (fun a b ha hb hq hws => absurd ((nonws_imp_contra a ha hws).elim) id)
  apply delWsBefore_chain' _ _ _ (fun a b ha hb hq hws => absurd ((nonws_imp_contra a ha hws).elim) id)
  apply delWsAfter_chain' _ _ _ (fun a b ha hb hws =>
    absurd ((nonws_imp_contra a (open_nonws a ha) hws).elim) id)
  exact delWsBefore_estab isStopPunct _ ws_imp_not_stop

theorem punctKernel_noOpenWs (l : List Char) :
    (punctKernel l).Chain' fun a b => isOpenBracket a = true → pyIsWs b = false := by
  rw [punctKernel]
  apply scq_chain'
  · intro hcon
    exact absurd hcon (by decide)
  · intro q hq hcon
    exact absurd hcon (by decide)
  refine delWsBefore_chain' _ _ _ (fun a b ha hb hq ho => hb) ?_
  refine delWsBefore_chain' _ _ _ (fun a b ha hb hq ho => hb) ?_
  exact delWsAfter_estab isOpenBracket _

theorem punctKernel_noWsClose (l : List Char) :
    (punctKernel l).Chain' fun a b => pyIsWs a = true → isCloseBracket b = false := by
  rw [punctKernel]
  apply scq_chain'
  · intro hcon
    exact absurd hcon (by decide)
  · intro q hq _
    exact quote_not_close q hq
  apply delWsBefore_chain' _ _ _ (fun a b ha hb hq hws => absurd ((nonws_imp_contra a ha hws).elim) id)
  exact delWsBefore_estab isCloseBracket _ ws_imp_not_close

theorem punctKernel_restore (l : List Char) (h : WsNorm l) :
    spaceColonQuote (delWsBefore isQuoteChar (punctKernel l)) = punctKernel l := by
  rw [punctKernel]
  apply scq_restore_aux (delWsBefore isQuoteChar
    (delWsBefore isCloseBracket (delWsAfter isOpenBracket
      (delWsBefore isStopPunct l)))).length _ le_rfl
  · exact delWsBefore_estab isQuoteChar _ ws_not_quote
  · have hwn : WsNorm (delWsBefore isQuoteChar
        (delWsBefore isCloseBracket (delWsAfter isOpenBracket
          (delWsBefore isStopPunct l)))) :=
      wsNorm_delWsBefore _ _ (wsNorm_delWsBefore _ _
        (wsNorm_delWsAfter _ _ open_nonws (wsNorm_delWsBefore _ _ h)))
    exact hwn.2.1

theorem nps_value (s : String) :
    (normalize_punctuation_spacing s).data = punctKernel (normalizeSpacingL s.data) := by
  rw [nps_data_eq]
  have hwn : WsNorm (punctKernel (normalizeSpacingL s.data)) :=
    punctKernel_wsNorm _ (wsNorm_normalizeSpacingL _)
  rw [caq_id _ hwn.1 hwn.2.1, collapseWs_id_of_wsNorm _ hwn, stripWs_id_of_wsNorm _ hwn]

theorem nps_fixchars (s : String) :
    ∀ c ∈ (normalize_punctuation_spacing s).data, charMapOne c = [c] := by
  intro c hc
  rw [nps_value] at hc
  rcases punctKernel_sub _ c hc with h | h
  · exact fixchars_normalizeSpacingL _ c h
  · subst h; decide

theorem nsL_id_of (l : List Char) (hfix : ∀ c ∈ l, charMapOne c = [c]) (h : WsNorm l) :
    normalizeSpacingL l = l := by
  rw [normalizeSpacingL, charMap_fix _ hfix, collapseWs_id_of_wsNorm _ h,
    stripWs_id_of_wsNorm _ h]

theorem normalize_punctuation_spacing_idem_aux (s : String) :
    normalize_punctuation_spacing (normalize_punctuation_spacing s) =
      normalize_punctuation_spacing s := by
  apply String.ext
  rw [nps_data_eq (normalize_punctuation_spacing s)]
  have hK : (normalize_punctuation_spacing s).data = punctKernel (normalizeSpacingL s.data) :=
    nps_value s
  have hwn0 : WsNorm (normalizeSpacingL s.data) := wsNorm_normalizeSpacingL _
  have hwnK : WsNorm ((normalize_punctuation_spacing s).data) := by
    rw [hK]
    exact punctKernel_wsNorm _ hwn0
  have hfixK : ∀ c ∈ (normalize_punctuation_spacing s).data, charMapOne c = [c] :=
    nps_fixchars s
  rw [nsL_id_of _ hfixK hwnK]
  have h1 : delWsBefore isStopPunct (normalize_punctuation_spacing s).data =
      (normalize_punctuation_spacing s).data := by
    apply delWsBefore_id
    rw [hK]
    exact punctKernel_noWsStop _
  have h2 : delWsAfter isOpenBracket (normalize_punctuation_spacing s).data =
      (normalize_punctuation_spacing s).data := by
    apply delWsAfter_id
    rw [hK]
    exact punctKernel_noOpenWs _
  have h3 : delWsBefore isCloseBracket (normalize_punctuation_spacing s).data =
      (normalize_punctuation_spacing s).data := by
    apply delWsBefore_id
    rw [hK]
    exact punctKernel_noWsClose _
  rw [punctKernel, h1, h2, h3]
  have h4 : spaceColonQuote (delWsBefore isQuoteChar
      (normalize_punctuation_spacing s).data) =
      (normalize_punctuation_spacing s).data := by
    rw [hK]
    exact punctKernel_restore _ hwn0
  rw [h4]
  rw [caq_id _ hwnK.1 hwnK.2.1, collapseWs_id_of_wsNorm _ hwnK,
    stripWs_id_of_wsNorm _ hwnK]

theorem normalize_spacing_idem_aux (s : String) :
    normalize_spacing (normalize_spacing s) = normalize_spacing s := by
  apply String.ext
  exact normalizeSpacingL_idem s.data

/-! ## Fuel-based evaluators

The scanners above are defined by well-founded recursion, which the kernel
does not reduce definitionally.  For evaluating them on concrete inputs each
gets a structurally recursive twin with a fuel argument (any fuel at least
the list length computes the same value), plus an equivalence lemma. -/

def collapseWsF : ℕ → List Char → List Char
  | _, [] => []
  | 0, l => l
  | f + 1, c :: rest =>
    if pyIsWs c then ' ' :: collapseWsF f (rest.dropWhile pyIsWs)
    else c :: collapseWsF f rest

theorem collapseWsF_eq : ∀ (f : ℕ) (l : List Char), l.length ≤ f →
    collapseWsF f l = collapseWs l := by
  intro f
  induction f with
  | zero =>
    intro l hl
    have : l = [] := List.length_eq_zero.mp (Nat.le_zero.mp hl)
    subst this
    rw [collapseWs_nil]
    rfl
  | succ f ih =>
    intro l hl
    cases l with
    | nil => rw [collapseWs_nil]; rfl
    | cons c rest =>
      simp only [List.length_cons] at hl
      by_cases hws : pyIsWs c
      · rw [collapseWsF, if_pos hws, collapseWs_cons_ws c rest hws,
          ih _ (le_trans (List.dropWhile_sublist _).length_le (by omega))]
      · rw [collapseWsF, if_neg hws,
          collapseWs_cons_nonws c rest (by simpa using hws), ih _ (by omega)]

theorem collapseWs_eval (l : List Char) : collapseWs l = collapseWsF l.length l :=
  (collapseWsF_eq l.length l le_rfl).symm

def delWsBeforeF (p : Char → Bool) : ℕ → List Char → List Char
  | _, [] => []
  | 0, l => l
  | f + 1, c :: rest =>
    if pyIsWs c then
      match rest.dropWhile pyIsWs with
      | [] => c :: rest.takeWhile pyIsWs
      | d :: t =>
        if p d then delWsBeforeF p f (d :: t)
        else (c :: rest.takeWhile pyIsWs) ++ delWsBeforeF p f (d :: t)
    else c :: delWsBeforeF p f rest

theorem delWsBeforeF_eq (p : Char → Bool) : ∀ (f : ℕ) (l : List Char), l.length ≤ f →
    delWsBeforeF p f l = delWsBefore p l := by
  intro f
  induction f with
  | zero =>
    intro l hl
    have : l = [] := List.length_eq_zero.mp (Nat.le_zero.mp hl)
    subst this
    rw [delWsBefore_nil]
    rfl
  | succ f ih =>
    intro l hl
    cases l with
    | nil => rw [delWsBefore_nil]; rfl
    | cons c rest =>
      simp only [List.length_cons] at hl
      by_cases hws : pyIsWs c
      · cases hdw : rest.dropWhile pyIsWs with
        | nil =>
          rw [delWsBefore_cons_ws_nil _ _ _ hws hdw]
          rw [delWsBeforeF, if_pos hws, hdw]
        | cons d t =>
          have hlen : (d :: t).length ≤ f := by
            rw [← hdw]
            exact le_trans (List.dropWhile_sublist _).length_le (by omega)
          by_cases hpd : p d
          · rw [delWsBefore_cons_ws_del _ _ _ _ _ hws hdw hpd]
            rw [delWsBeforeF, if_pos hws, hdw]
            simp only [hpd, if_true]
            exact ih _ hlen
          · rw [delWsBefore_cons_ws_keep _ _ _ _ _ hws hdw (by simpa using hpd)]
            rw [delWsBeforeF, if_pos hws, hdw]
            simp only [hpd, Bool.false_eq_true, if_false]
            rw [ih _ hlen]
      · rw [delWsBefore_cons_nonws _ _ _ (by simpa using hws)]
        rw [delWsBeforeF, if_neg hws, ih _ (by omega)]

theorem delWsBefore_eval (p : Char → Bool) (l : List Char) :
    delWsBefore p l = delWsBeforeF p l.length l :=
  (delWsBeforeF_eq p l.length l le_rfl).symm

def delWsAfterF (p : Char → Bool) : ℕ → List Char → List Char
  | _, [] => []
  | 0, l => l
  | f + 1, c :: rest =>
    if p c then c :: delWsAfterF p f (rest.dropWhile pyIsWs)
    else c :: delWsAfterF p f rest

theorem delWsAfterF_eq (p : Char → Bool) : ∀ (f : ℕ) (l : List Char), l.length ≤ f →
    delWsAfterF p f l = delWsAfter p l := by
  intro f
  induction f with
  | zero =>
    intro l hl
    have : l = [] := List.length_eq_zero.mp (Nat.le_zero.mp hl)
    subst this
    rw [delWsAfter_nil]
    rfl
  | succ f ih =>
    intro l hl
    cases l with
    | nil => rw [delWsAfter_nil]; rfl
    | cons c rest =>
      simp only [List.length_cons] at hl
      by_cases hpc : p c
      · rw [delWsAfter_cons_p _ _ _ hpc]
        rw [delWsAfterF, if_pos hpc,
          ih _ (le_trans (List.dropWhile_sublist _).length_le (by omega))]
      · rw [delWsAfter_cons_np _ _ _ (by simpa using hpc)]
        rw [delWsAfterF, if_neg hpc, ih _ (by omega)]

theorem delWsAfter_eval (p : Char → Bool) (l : List Char) :
    delWsAfter p l = delWsAfterF p l.length l :=
  (delWsAfterF_eq p l.length l le_rfl).symm

def collapseAfterQuoteF : ℕ → List Char → List Char
  | _, [] => []
  | 0, l => l
  | f + 1, c :: rest =>
    if isQuoteChar c && (match rest.head? with | some d => pyIsWs d | none => false) then
      c :: ' ' :: collapseAfterQuoteF f (rest.dropWhile pyIsWs)
    else c :: collapseAfterQuoteF f rest

theorem caq_cons_hit2 (c : Char) (rest : List Char) (h1 : isQuoteChar c = true)
    (h2 : (match rest.head? with | some d => pyIsWs d | none => false) = true) :
    collapseAfterQuote (c :: rest) =
      c :: ' ' :: collapseAfterQuote (rest.dropWhile pyIsWs) := by
  rw [collapseAfterQuote]
  simp [h1, h2]

theorem caq_cons_miss2 (c : Char) (rest : List Char)
    (h : (isQuoteChar c && (match rest.head? with | some d => pyIsWs d | none => false)) = false) :
    collapseAfterQuote (c :: rest) = c :: collapseAfterQuote rest := by
  rw [collapseAfterQuote]
  simp [h]

theorem collapseAfterQuoteF_eq : ∀ (f : ℕ) (l : List Char), l.length ≤ f →
    collapseAfterQuoteF f l = collapseAfterQuote l := by
  intro f
  induction f with
  | zero =>
    intro l hl
    have : l = [] := List.length_eq_zero.mp (Nat.le_zero.mp hl)
    subst this
    rw [caq_nil]
    rfl
  | succ f ih =>
    intro l hl
    cases l with
    | nil => rw [caq_nil]; rfl
    | cons c rest =>
      simp only [List.length_cons] at hl
      by_cases hcond : (isQuoteChar c &&
          (match rest.head? with | some d => pyIsWs d | none => false)) = true
      · rw [Bool.and_eq_true] at hcond
        rw [caq_cons_hit2 c rest hcond.1 hcond.2]
        rw [collapseAfterQuoteF, if_pos (Bool.and_eq_true .. ▸ hcond),
          ih _ (le_trans (List.dropWhile_sublist _).length_le (by omega))]
      · rw [caq_cons_miss2 c rest (by simpa using hcond)]
        rw [collapseAfterQuoteF, if_neg hcond, ih _ (by omega)]

theorem collapseAfterQuote_eval (l : List Char) :
    collapseAfterQuote l = collapseAfterQuoteF l.length l :=
  (collapseAfterQuoteF_eq l.length l le_rfl).symm

/-! ## Letter streams, tokenization and similarity
(`normalize_letters`, `split_tokens`, `build_stream`, `sequence_ratio`) -/

/-- The script function `normalize_letters`: drop every character outside the
letter class, then lower-case. -/
def normalize_letters (s : String) : String :=
  ⟨(s.data.filter isLetterChar).map pyLowerChar⟩

/-- The script function `word_norm`: same normalization on a single token
(the hyphen is dropped because it is outside `LETTER_CLASS`). -/
def word_norm (w : List Char) : List Char :=
  (w.filter isLetterChar).map pyLowerChar

/-- Maximal runs of word characters alternating with maximal runs of
non-word characters, as produced by `TOKEN_RE.findall`. -/
def tokenChunks : ℕ → List Char → List (List Char)
  | _, [] => []
  | 0, _ => []
  | f + 1, c :: rest =>
    (c :: rest.takeWhile (fun d => isWordChar d == isWordChar c)) ::
      tokenChunks f (rest.dropWhile (fun d => isWordChar d == isWordChar c))

/-- The script function `split_tokens` (tokens as character lists). -/
def split_tokens (l : List Char) : List (List Char) :=
  tokenChunks l.length l

/-- The script function `is_word_token`: full match of `[LETTER_CLASS-]+`. -/
def is_word_token (t : List Char) : Bool :=
  !t.isEmpty && t.all isWordChar

/-- Cumulative end offsets of normalized words in the letter stream
(`boundaries` in `build_stream`). -/
def cumEnds : List (List Char) → ℕ → List ℕ
  | [], _ => []
  | w :: ws, acc => (acc + w.length) :: cumEnds ws (acc + w.length)

/-- Result record of the script function `build_stream`. -/
structure StreamData where
  tokens : List (List Char)
  wordIdx : List ℕ
  words : List (List Char)
  boundaries : List ℕ
  stream : List Char
  boundarySet : List ℕ

/-- The script function `build_stream`. -/
def build_stream (l : List Char) : StreamData :=
  let tokens := split_tokens l
  let wpairs := tokens.enum.filter (fun p => is_word_token p.2)
  let words := wpairs.map (·.2)
  let norms := words.map word_norm
  { tokens := tokens
    wordIdx := wpairs.map (·.1)
    words := words
    boundaries := cumEnds norms 0
    stream := norms.flatten
    boundarySet := (cumEnds norms 0).dropLast }

/-- Length of the longest common prefix of two character lists. -/
def commonRunLen : List Char → List Char → ℕ
  | a :: as, b :: bs => if a = b then commonRunLen as bs + 1 else 0
  | _, _ => 0

/-- `difflib.SequenceMatcher.find_longest_match` with no junk: the longest
matching run, ties broken by the lowest first index and then the lowest
second index (with no junk the tail extension loops of the library cannot
fire, and its dynamic program returns exactly this argmax). -/
def findLongestMatch (a b : List Char) : ℕ × ℕ × ℕ :=
  (List.range a.length).foldl (fun best i =>
    (List.range b.length).foldl (fun best j =>
      let k := commonRunLen (a.drop i) (b.drop j)
      if best.2.2 < k then (i, j, k) else best) best) (0, 0, 0)

/-- `difflib.SequenceMatcher.get_matching_blocks` without the final
sentinel block and without joining adjacent blocks (both irrelevant here:
the script only reads the per-offset coverage and the total matched size,
which are invariant under adjacent-block joining). -/
def matchingBlocksF : ℕ → List Char → List Char → List (ℕ × ℕ × ℕ)
  | 0, _, _ => []
  | f + 1, a, b =>
    let m := findLongestMatch a b
    if m.2.2 = 0 then []
    else
      matchingBlocksF f (a.take m.1) (b.take m.2.1) ++
      [(m.1, m.2.1, m.2.2)] ++
      (matchingBlocksF f (a.drop (m.1 + m.2.2)) (b.drop (m.2.1 + m.2.2))).map
        (fun blk => (blk.1 + m.1 + m.2.2, blk.2.1 + m.2.1 + m.2.2, blk.2.2))

/-- Matching blocks with sufficient fuel. -/
def matchingBlocks (a b : List Char) : List (ℕ × ℕ × ℕ) :=
  matchingBlocksF (a.length + b.length + 1) a b

/-- The script function `sequence_ratio` (exact rational model of
`difflib`'s `2.0 * M / T`; the script returns `0.0` when either side is
empty). -/
def sequence_ratio (a b : String) : ℚ :=
  if a.data = [] ∨ b.data = [] then 0
  else
    mkRat (2 * ((matchingBlocks a.data b.data).map (fun blk => blk.2.2)).sum)
      (a.data.length + b.data.length)

/-! ## Boundary projection (`project_boundaries`) -/

/-- Python `str.isspace` on a token, restricted to the whitespace characters
this corpus model covers (the same class as `\s`). -/
def pyIsSpaceTok (t : List Char) : Bool :=
  !t.isEmpty && t.all pyIsWs

/-- `map_stream2_to_ref`: start from `[None] * len(stream2)` and write
`block.b + offset` at position `block.a + offset` for every offset of every
matching block. -/
def buildMap (blocks : List (ℕ × ℕ × ℕ)) (n : ℕ) : List (Option ℕ) :=
  blocks.foldl (fun m blk =>
    (List.range blk.2.2).foldl
      (fun m off => m.set (blk.1 + off) (some (blk.2.1 + off))) m)
    (List.replicate n none)

/-- `keep_space_after_word`: for gap `i`, look up the mapped reference
offset of the character just before the boundary (shifted by one), else of
the character just after it, and keep the gap unless that offset is a
reference word boundary; an unmappable gap is kept. -/
def keepList (boundaries : List ℕ) (nWords : ℕ) (m : List (Option ℕ))
    (refB : List ℕ) : List Bool :=
  (List.range (nWords - 1)).map (fun i =>
    let boundary := boundaries.getD i 0
    match (if 1 ≤ boundary then m.getD (boundary - 1) none else none) with
    | some r => decide ((r + 1) ∈ refB)
    | none =>
      match (if boundary < m.length then m.getD boundary none else none) with
      | some r => decide (r ∈ refB)
      | none => true)

/-- The inner `while` of the merge loop: extend `wj` right while the next
gap is marked as not kept. -/
def extendJF : ℕ → List Bool → ℕ → ℕ → ℕ
  | 0, _, _, wj => wj
  | f + 1, keep, nw, wj =>
    if wj < nw - 1 ∧ keep.getD wj true = false then extendJF f keep nw (wj + 1)
    else wj

/-- One iteration body plus tail of the `while wi < len(words2)` loop of
`project_boundaries`, with explicit fuel (the loop advances `wi` by at
least one each round, so `words.length` rounds always finish it). -/
def mergeLoopF : ℕ → List Bool → List ℕ → List (List Char) →
    List (List Char) → ℕ → List (List Char)
  | 0, _, _, _, out, _ => out
  | f + 1, keep, wIdx, words, out, wi =>
    if wi < words.length then
      let wj := extendJF words.length keep words.length wi
      let merged :=
        ((List.range' wi (wj - wi + 1)).map (fun t => words.getD t [])).flatten
      let out1 := out.set (wIdx.getD wi 0) merged
      let out2 := (List.range' (wi + 1) (wj - wi)).foldl
        (fun o t => o.set (wIdx.getD t 0) []) out1
      let out3 := (List.range' wi (wj - wi)).foldl (fun o k =>
        let left := wIdx.getD k 0
        let right := wIdx.getD (k + 1) 0
        (List.range' (left + 1) (right - (left + 1))).foldl (fun o2 ti =>
          if pyIsSpaceTok (o2.getD ti []) then o2.set ti [] else o2) o) out2
      mergeLoopF f keep wIdx words out3 (wj + 1)
    else out

/-- The script function `project_boundaries` (texts as character lists). -/
def project_boundaries (tb2_text ref_text : List Char) : List Char :=
  let sd2 := build_stream tb2_text
  let sdr := build_stream ref_text
  if sd2.stream = [] ∨ sdr.stream = [] ∨ sd2.words = [] then tb2_text
  else
    let blocks := matchingBlocks sd2.stream sdr.stream
    let m := buildMap blocks sd2.stream.length
    let keep := keepList sd2.boundaries sd2.words.length m sdr.boundarySet
    (mergeLoopF sd2.words.length keep sd2.wordIdx sd2.words sd2.tokens 0).flatten

/-! ## Reference selection (`choose_reference`) -/

/-- The script dataclass `RowRef` (verse number, spacing-normalized text,
letter-normalized text). -/
structure RowRef where
  verse : ℤ
  text : String
  normalized : String
deriving DecidableEq

/-- `dict.get` on a verse-keyed reference map, modelled as lookup in an
association list with distinct keys. -/
def rowLookup (rows : List (ℤ × RowRef)) (v : ℤ) : Option RowRef :=
  (rows.find? (fun p => p.1 = v)).map (·.2)

/-- Python `range(lo, hi + 1)` over integers. -/
def intRange (lo hi : ℤ) : List ℤ :=
  (List.range (hi + 1 - lo).toNat).map (fun k => lo + k)

/-- The script function `choose_reference`: trust the direct verse when its
ratio reaches `min_direct_ratio`, otherwise scan the neighbor window for a
strictly better ratio and accept it only at `min_neighbor_ratio`. -/
def choose_reference (tb2_norm : String) (ref_rows : List (ℤ × RowRef))
    (verse : ℤ) (min_direct_ratio min_neighbor_ratio : ℚ)
    (neighbor_window : ℤ) : Option RowRef × String × ℚ :=
  let direct_ref := rowLookup ref_rows verse
  let best_ratio : ℚ := match direct_ref with
    | some d => sequence_ratio tb2_norm d.normalized
    | none => 0
  if best_ratio ≥ min_direct_ratio ∧ direct_ref ≠ none then
    (direct_ref, "same", best_ratio)
  else
    let low := max 1 (verse - neighbor_window)
    let high := verse + neighbor_window
    let st := (intRange low high).foldl
      (fun (st : ℚ × Option RowRef × String) cv =>
        if cv = verse then st
        else match rowLookup ref_rows cv with
          | none => st
          | some cand =>
            let ratio := sequence_ratio tb2_norm cand.normalized
            if st.1 < ratio then (ratio, some cand, "neighbor") else st)
      (best_ratio, direct_ref, "same")
    match st.2.1 with
    | none => (none, "none", st.1)
    | some br =>
      if st.2.2 = "neighbor" ∧ st.1 ≥ min_neighbor_ratio then
        (some br, "neighbor", st.1)
      else (none, "none", st.1)

/-! ## Low-confidence tail trimming (`trim_low_confidence_tail`)

Python float constants `1.35`, `0.65`, `1.55` are modelled by the exact
rationals 27/20, 13/20, 31/20, and `int(x)` on the (nonnegative) products
by the integer floor; `floor (n * (p / q)) = floor (mkRat (n * p) q)` is
used so every value stays kernel-computable. -/

/-- The `sentence_ends` accumulation loop of `trim_low_confidence_tail`:
walk the text keeping a running letter count, and record
`(index + 1, letter_count)` at every `.`, `!` or `?`. -/
def sentenceEndsAux : List Char → ℕ → ℕ → List (ℕ × ℕ)
  | [], _, _ => []
  | c :: rest, idx, letters =>
    let letters2 := if isLetterChar c then letters + 1 else letters
    (if c = '.' ∨ c = '!' ∨ c = '?' then [(idx + 1, letters2)] else []) ++
      sentenceEndsAux rest (idx + 1) letters2

/-- The sentence-end list of a (stripped) source text. -/
def sentence_ends (source : List Char) : List (ℕ × ℕ) :=
  sentenceEndsAux source 0 0

/-- The `candidates` filter of `trim_low_confidence_tail`: keep sentence
ends whose letter count lies in `[int(ref*0.65), int(ref*1.55)]`. -/
def trimCandidates (ref_letters : ℕ) (ends : List (ℕ × ℕ)) : List (ℕ × ℕ) :=
  let lower := Rat.floor (mkRat (ref_letters * 13) 20)
  let upper := Rat.floor (mkRat (ref_letters * 31) 20)
  ends.filter (fun p => lower ≤ (p.2 : ℤ) ∧ (p.2 : ℤ) ≤ upper)

/-- Python `min(candidates, key=...)`: the first element attaining the
minimal key (strict-`<` fold keeps the earlier of equals). -/
def minByKey (f : ℕ × ℕ → ℕ) : List (ℕ × ℕ) → Option (ℕ × ℕ)
  | [] => none
  | x :: xs => some (xs.foldl (fun best y => if f y < f best then y else best) x)

/-- The script function `trim_low_confidence_tail` (text as characters,
`max_ratio` as an exact rational). -/
def trim_low_confidence_tail (text reference_text : List Char)
    (max_ratio : ℚ) : List Char :=
  let source := stripWs text
  if source = [] then source
  else
    let source_norm := (source.filter isLetterChar).map pyLowerChar
    let reference_norm := (reference_text.filter isLetterChar).map pyLowerChar
    if source_norm = [] ∨ reference_norm = [] then source
    else if (source_norm.length : ℤ) ≤
        Rat.floor (mkRat (reference_norm.length * max_ratio.num) max_ratio.den) then
      source
    else
      let ends := sentence_ends source
      if ends = [] then source
      else
        let candidates := trimCandidates reference_norm.length ends
        if candidates = [] then source
        else
          match minByKey
              (fun p => ((p.2 : ℤ) - (reference_norm.length : ℤ)).natAbs)
              candidates with
          | none => source
          | some best =>
            let trimmed := stripWs (source.take best.1)
            if trimmed = [] then source else trimmed

/-! ## Fallback scoring and merging
(`token_score`, `fallback_group_score`, `fallback_merge_words`,
`fallback_clean_text`)

Python float scores are modelled by exact real numbers with
`math.log10 x = Real.logb 10 x`; the `wordfreq` import fails in the
deployment modelled here, so `zipf_frequency is None` and its branch of
`token_score` is dead code. -/

/-- The set `COMMON_STANDALONE_SHORT` of the script. -/
def COMMON_STANDALONE_SHORT : List (List Char) :=
  ["di", "ke", "ku", "mu", "ya", "ia", "aku", "kau", "dan", "yang", "itu",
   "ini", "pun"].map String.data

/-- The set `DO_NOT_JOIN_TWO` of the script. -/
def DO_NOT_JOIN_TWO : List (List Char) :=
  ["di", "ke", "dari", "dan", "yang", "untuk", "pada", "dalam", "dengan",
   "oleh", "agar", "atau", "tetapi", "karena", "sebab"].map String.data

/-- `Counter.get`/`dict.get` with default `0` on an association-list
lexicon. -/
def lexGet (lexicon : List (List Char × ℕ)) (w : List Char) : ℕ :=
  ((lexicon.find? (fun p => p.1 = w)).map (·.2)).getD 0

/-- The script function `token_score`. -/
noncomputable def token_score (token : List Char)
    (lexicon : List (List Char × ℕ)) : ℝ :=
  let lowered := token.map pyLowerChar
  if lowered = [] then -10
  else
    let freq := lexGet lexicon lowered
    if 0 < freq then 6 + Real.logb 10 (freq + 1) * 1.8
    else if lowered.length ≤ 2 ∧ lowered ∉ COMMON_STANDALONE_SHORT then -6
    else if lowered.length = 3 ∧ lowered ∉ COMMON_STANDALONE_SHORT then -3.5
    else -2.5

/-- The script function `fallback_group_score`. -/
noncomputable def fallback_group_score (tokens : List (List Char))
    (lexicon : List (List Char × ℕ)) : ℝ :=
  if tokens.length = 1 then token_score (tokens.headD []) lexicon
  else if tokens.length = 2 ∧ (tokens.headD []).map pyLowerChar ∈ DO_NOT_JOIN_TWO ∧
      lexGet lexicon (tokens.flatten.map pyLowerChar) = 0 then -9999
  else
    let merged := tokens.flatten
    let merged_score := token_score merged lexicon
    let split_score := (tokens.map (fun t => token_score t lexicon)).sum
    if merged_score + 0.8 * ((tokens.length : ℝ) - 1) < split_score - 0.2 then
      -9999
    else if merged_score < 0.5 then -9999
    else merged_score + 0.8 * ((tokens.length : ℝ) - 1)

/-- The dynamic program of `fallback_merge_words`, indexed from the end:
`dpGF fuel d` is `(best_score[n - d], best_len[n - d])` where `n` is the
word count (the loop runs `i` from `n - 1` down to `0`; entry `d = 0` is
the base `best_score[n] = 0.0`, and the untouched initial values are
`-10000.0` and `1`). -/
noncomputable def dpGF (words : List (List Char))
    (lexicon : List (List Char × ℕ)) (max_group : ℕ) : ℕ → ℕ → ℝ × ℕ
  | _, 0 => (0, 1)
  | 0, _ + 1 => (-10000, 1)
  | f + 1, d + 1 =>
    let n := words.length
    let i := n - (d + 1)
    (List.range' 1 (min max_group (d + 1))).foldl (fun best k =>
      let score := fallback_group_score ((words.drop i).take k) lexicon
      if score ≤ -9990 then best
      else
        let total := score + (dpGF words lexicon max_group f (d + 1 - k)).1
        if best.1 < total then (total, k) else best)
      (-10000, 1)

/-- `best_score[i]` of `fallback_merge_words`. -/
noncomputable def best_score (words : List (List Char))
    (lexicon : List (List Char × ℕ)) (max_group i : ℕ) : ℝ :=
  (dpGF words lexicon max_group (words.length - i) (words.length - i)).1

/-- `best_len[i]` of `fallback_merge_words`. -/
noncomputable def best_len (words : List (List Char))
    (lexicon : List (List Char × ℕ)) (max_group i : ℕ) : ℕ :=
  (dpGF words lexicon max_group (words.length - i) (words.length - i)).2

/-- The reconstruction loop of `fallback_merge_words`: starting at `i`,
emit the group `words[i : i + best_len[i]]` joined, then continue at
`i + best_len[i]` (each step advances, so `words.length` fuel suffices). -/
noncomputable def dpChunksF (words : List (List Char))
    (lexicon : List (List Char × ℕ)) (max_group : ℕ) :
    ℕ → ℕ → List (List Char)
  | 0, _ => []
  | f + 1, i =>
    if i < words.length then
      let k := best_len words lexicon max_group i
      ((words.drop i).take k).flatten ::
        dpChunksF words lexicon max_group f (i + k)
    else []

/-- The script function `fallback_merge_words` (`" ".join` of the chosen
groups; `max_group` is the `max_group=5` default at every call site). -/
noncomputable def fallback_merge_words (words : List (List Char))
    (lexicon : List (List Char × ℕ)) (max_group : ℕ) : List Char :=
  if words.length ≤ 1 then (words.intersperse [' ']).flatten
  else ((dpChunksF words lexicon max_group words.length 0).intersperse
    [' ']).flatten

/-- The `(?:\s+[LETTER_CLASS-]+)+` tail of `WORD_RUN_RE`: greedily collect
whitespace-separated word runs, returning them and the unconsumed
remainder (the whitespace before a failed continuation is not consumed). -/
def wordGroupsF : ℕ → List Char → List (List Char) × List Char
  | 0, l => ([], l)
  | f + 1, l =>
    if (l.takeWhile pyIsWs).isEmpty then ([], l)
    else
      match hr : l.dropWhile pyIsWs with
      | [] => ([], l)
      | c :: _ =>
        if isWordChar c then
          let r := l.dropWhile pyIsWs
          let res := wordGroupsF f (r.dropWhile isWordChar)
          (r.takeWhile isWordChar :: res.1, res.2)
        else ([], l)

/-- The `WORD_RUN_RE.sub` scanner of `fallback_clean_text`: at a word
character, read a maximal word run; if at least one further
whitespace-separated run follows, replace the whole match by
`fallback_merge_words` of its runs, else copy and continue. -/
noncomputable def fallbackScanF (lexicon : List (List Char × ℕ)) :
    ℕ → List Char → List Char
  | 0, l => l
  | _ + 1, [] => []
  | f + 1, c :: rest =>
    if isWordChar c then
      let w1 := c :: rest.takeWhile isWordChar
      let r1 := rest.dropWhile isWordChar
      let gs := wordGroupsF r1.length r1
      match gs.1 with
      | [] => w1 ++ fallbackScanF lexicon f r1
      | g :: gtl =>
        fallback_merge_words (w1 :: g :: gtl) lexicon 5 ++
          fallbackScanF lexicon f gs.2
    else c :: fallbackScanF lexicon f rest

/-- The script function `fallback_clean_text`. -/
noncomputable def fallback_clean_text (text : List Char)
    (lexicon : List (List Char × ℕ)) : List Char :=
  fallbackScanF lexicon text.length text

/-! ## Static phrase fixes, suffix joining, hyphen restoration
(`apply_static_safe_phrase_fixes`, `apply_suffix_join`,
`restore_hyphen_forms`)

Every `STATIC_SAFE_PHRASE_FIXES` pattern has the uniform shape
`\bw1\s+w2(\s+w3(\s+w4)?)?\b` with `re.IGNORECASE` and lowercase ASCII
word parts, so the table is stored as word lists and matched by one
generic scanner.  The `\b` conditions are tracked by a flag carrying
whether the previous character of the original text is a `\w` character
(`re.sub` evaluates boundaries against the original text, and every
pattern starts and ends with a letter). -/

/-- Case-insensitive literal prefix match (pattern given lowercase):
returns the remainder on success. -/
def stripPrefixCI : List Char → List Char → Option (List Char)
  | [], l => some l
  | _ :: _, [] => none
  | p :: ps, c :: cs => if pyLowerChar c = p then stripPrefixCI ps cs else none

/-- Match `w1\s+w2\s+...\s+wn\b` at the head of the text (the leading `\b`
is checked by the caller): each pattern word case-insensitively, separated
by nonempty whitespace, with no `\w` character following the last word.
Returns the remainder after the match. -/
def matchPhraseWords : List (List Char) → List Char → Option (List Char)
  | [], l =>
    match l with
    | [] => some []
    | c :: _ => if isPyWordChar c then none else some l
  | w :: ws, l =>
    match stripPrefixCI w l with
    | none => none
    | some r =>
      match ws with
      | [] =>
        match r with
        | [] => some []
        | c :: _ => if isPyWordChar c then none else some r
      | _ :: _ =>
        if (r.takeWhile pyIsWs).isEmpty then none
        else matchPhraseWords ws (r.dropWhile pyIsWs)

/-- `pattern.sub(replacement, ·)` for one phrase pattern: scan left to
right, attempting a match only at `\b` positions, and continue after each
replacement (matched text ends in a letter, so the boundary flag becomes
true). -/
def phraseSubF (pat : List (List Char)) (rep : List Char) :
    ℕ → Bool → List Char → List Char
  | 0, _, l => l
  | _ + 1, _, [] => []
  | f + 1, prevW, c :: rest =>
    if prevW = false then
      match matchPhraseWords pat (c :: rest) with
      | some rem => rep ++ phraseSubF pat rep f true rem
      | none => c :: phraseSubF pat rep f (isPyWordChar c) rest
    else c :: phraseSubF pat rep f (isPyWordChar c) rest

/-- The table `STATIC_SAFE_PHRASE_FIXES` (patterns as their word lists). -/
def STATIC_SAFE_PHRASE_FIXES : List (List (List Char) × List Char) := [
  (["kemu", "di", "an"].map String.data, "kemudian".data),
  (["ya", "hu", "di"].map String.data, "yahudi".data),
  (["ber", "di", "ri"].map String.data, "berdiri".data),
  (["memberi", "tahu", "kan"].map String.data, "memberitahukan".data),
  (["per", "buat", "an"].map String.data, "perbuatan".data),
  (["peng", "lihat", "an"].map String.data, "penglihatan".data),
  (["ke", "raja", "an"].map String.data, "kerajaan".data),
  (["ke", "tetap", "an"].map String.data, "ketetapan".data),
  (["me", "laku", "kan"].map String.data, "melakukan".data),
  (["ke", "kuasa", "an"].map String.data, "kekuasaan".data),
  (["per", "kata", "an"].map String.data, "perkataan".data),
  (["ke", "mulia", "an"].map String.data, "kemuliaan".data),
  (["ke", "kuat", "an"].map String.data, "kekuatan".data),
  (["per", "api", "an"].map String.data, "perapian".data),
  (["ke", "turun", "an"].map String.data, "keturunan".data),
  (["di", "beri", "kan"].map String.data, "diberikan".data),
  (["di", "laku", "kan"].map String.data, "dilakukan".data),
  (["ke", "ada", "an"].map String.data, "keadaan".data),
  (["ke", "gelap", "an"].map String.data, "kegelapan".data),
  (["me", "si", "as"].map String.data, "mesias".data),
  (["ke", "benar", "an"].map String.data, "kebenaran".data),
  (["me", "lepas", "kan"].map String.data, "melepaskan".data),
  (["me", "me", "gang"].map String.data, "memegang".data),
  (["se", "per", "tiga"].map String.data, "sepertiga".data),
  (["ke", "raja", "annya"].map String.data, "kerajaannya".data),
  (["ke", "pada", "nya"].map String.data, "kepadanya".data),
  (["ke", "pada"].map String.data, "kepada".data),
  (["di", "ri"].map String.data, "diri".data),
  (["me", "lihat"].map String.data, "melihat".data),
  (["ke", "dua"].map String.data, "kedua".data),
  (["bah", "kan"].map String.data, "bahkan".data),
  (["per", "buat"].map String.data, "perbuat".data),
  (["laku", "kan"].map String.data, "lakukan".data),
  (["demi", "kian"].map String.data, "demikian".data),
  (["demi", "kianlah"].map String.data, "demikianlah".data),
  (["ke", "padaku"].map String.data, "kepadaku".data),
  (["ke", "padamu"].map String.data, "kepadamu".data),
  (["ke", "padanya"].map String.data, "kepadanya".data),
  (["si", "apa"].map String.data, "siapa".data),
  (["ke", "empat"].map String.data, "keempat".data),
  (["di", "beri"].map String.data, "diberi".data),
  (["per", "nah"].map String.data, "pernah".data),
  (["me", "lawan"].map String.data, "melawan".data),
  (["ke", "tiga"].map String.data, "ketiga".data),
  (["beri", "kan"].map String.data, "berikan".data),
  (["mendengar", "kan"].map String.data, "mendengarkan".data),
  (["pa", "da"].map String.data, "pada".data),
  (["ha", "ri"].map String.data, "hari".data),
  (["ja", "di"].map String.data, "jadi".data),
  (["pada", "nya"].map String.data, "padanya".data),
  (["pengajar", "an"].map String.data, "pengajaran".data),
  (["api", "an"].map String.data, "apian".data),
  (["di", "rinya"].map String.data, "dirinya".data),
  (["ter", "tulis"].map String.data, "tertulis".data),
  (["di", "bawa"].map String.data, "dibawa".data),
  (["kata", "kan"].map String.data, "katakan".data),
  (["nyata", "kan"].map String.data, "nyatakan".data),
  (["buat", "an"].map String.data, "buatan".data),
  (["ter", "jadi"].map String.data, "terjadi".data),
  (["pemerintah", "an"].map String.data, "pemerintahan".data),
  (["sem", "bah"].map String.data, "sembah".data),
  (["sem", "bah", "an"].map String.data, "sembahan".data),
  (["per", "sem", "bah", "kan"].map String.data, "persembahkan".data),
  (["per", "sem", "bah", "an"].map String.data, "persembahan".data),
  (["men", "diri", "kan"].map String.data, "mendirikan".data),
  (["ka", "re", "na"].map String.data, "karena".data),
  (["sau", "da", "ra"].map String.data, "saudara".data),
  (["di", "taruh"].map String.data, "ditaruh".data),
  (["me", "lahir", "kan"].map String.data, "melahirkan".data),
  (["ke", "dengar", "an"].map String.data, "kedengaran".data),
  (["ke", "pedih", "an"].map String.data, "kepedihan".data),
  (["me", "minta"].map String.data, "meminta".data),
  (["di", "tumpas"].map String.data, "ditumpas".data)
]

/-- One pass of `apply_static_safe_phrase_fixes`: every pattern applied in
table order. -/
def applyFixesOnce (text : List Char) : List Char :=
  STATIC_SAFE_PHRASE_FIXES.foldl
    (fun t pr => phraseSubF pr.1 pr.2 t.length false t) text

/-- The script function `apply_static_safe_phrase_fixes`: up to four
passes, stopping early at a fixpoint. -/
def apply_static_safe_phrase_fixes (text : List Char) : List Char :=
  let p1 := applyFixesOnce text
  if p1 = text then p1
  else
    let p2 := applyFixesOnce p1
    if p2 = p1 then p2
    else
      let p3 := applyFixesOnce p2
      if p3 = p2 then p3 else applyFixesOnce p3

/-- `sorted(SUFFIX_TOKENS)`: the alternation order of the enclitic
pattern of `apply_suffix_join`. -/
def SUFFIX_ALTS : List (List Char) :=
  ["kah", "ku", "lah", "mu", "nya", "pun"].map String.data

/-- Try the suffix alternatives in order at the head of the text: each
must match case-insensitively and be followed by a non-`\w` character.
Returns the matched original-case text and the remainder. -/
def trySuffixAlts : List (List Char) → List Char → Option (List Char × List Char)
  | [], _ => none
  | s :: ss, l =>
    match stripPrefixCI s l with
    | some r =>
      let ok := match r with
        | [] => true
        | c :: _ => !isPyWordChar c
      if ok then some (l.take s.length, r) else trySuffixAlts ss l
    | none => trySuffixAlts ss l

/-- One substitution pass of `apply_suffix_join`:
`\b([LETTER_CLASS]+)\s+(kah|ku|lah|mu|nya|pun)\b` replaced by `\1\2`
(group 2 keeps its original case). -/
def suffixJoinOnceF : ℕ → Bool → List Char → List Char
  | 0, _, l => l
  | _ + 1, _, [] => []
  | f + 1, prevW, c :: rest =>
    if prevW = false ∧ isLetterChar c then
      let w1 := c :: rest.takeWhile isLetterChar
      let r1 := rest.dropWhile isLetterChar
      if (r1.takeWhile pyIsWs).isEmpty then
        w1 ++ suffixJoinOnceF f true r1
      else
        match trySuffixAlts SUFFIX_ALTS (r1.dropWhile pyIsWs) with
        | some sr => (w1 ++ sr.1) ++ suffixJoinOnceF f true sr.2
        | none => w1 ++ suffixJoinOnceF f true r1
    else c :: suffixJoinOnceF f (isPyWordChar c) rest

/-- One `pattern.sub` application inside `apply_suffix_join`. -/
def suffixJoinOnce (text : List Char) : List Char :=
  suffixJoinOnceF text.length false text

/-- The script function `apply_suffix_join`: at most three substitution
passes, stopping early at a fixpoint. -/
def apply_suffix_join (text : List Char) : List Char :=
  let c1 := suffixJoinOnce text
  if c1 = text then c1
  else
    let c2 := suffixJoinOnce c1
    if c2 = c1 then c2 else suffixJoinOnce c2

/-- `dict.get` on the hyphen-form lookup. -/
def lookGet (lookup : List (List Char × List Char)) (w : List Char) :
    Option (List Char) :=
  (lookup.find? (fun p => p.1 = w)).map (·.2)

/-- The `re.sub(\b[LETTER_CLASS]{5,}\b, repl, ·)` scanner of
`restore_hyphen_forms`: a maximal letter run of length at least five with
word boundaries on both sides is replaced by its hyphenated lexicon form
(first letter re-capitalized if the token started uppercase); anything
else is copied. -/
def hyphenScanF (lookup : List (List Char × List Char)) :
    ℕ → Bool → List Char → List Char
  | 0, _, l => l
  | _ + 1, _, [] => []
  | f + 1, prevW, c :: rest =>
    if prevW = false ∧ isLetterChar c then
      let run := c :: rest.takeWhile isLetterChar
      let after := rest.dropWhile isLetterChar
      let okEnd := match after with
        | [] => true
        | d :: _ => !isPyWordChar d
      if 5 ≤ run.length ∧ okEnd = true then
        (match lookGet lookup (run.map pyLowerChar) with
         | none => run
         | some hyphen =>
           if hyphen = [] then run
           else if pyIsUpperChar c then
             match hyphen with
             | [] => []
             | h :: htl => pyUpperChar h :: htl
           else hyphen) ++ hyphenScanF lookup f true after
      else run ++ hyphenScanF lookup f true after
    else c :: hyphenScanF lookup f (isPyWordChar c) rest

/-- The script function `restore_hyphen_forms`. -/
def restore_hyphen_forms (text : List Char)
    (hyphen_lookup : List (List Char × List Char)) : List Char :=
  hyphenScanF hyphen_lookup text.length false text
/-! ## Cross-reference noise removal (`remove_cross_reference_noise`)

`REFERENCE_TOKEN_RE.findall` is modelled by a deterministic tokenizer:
each alternative of the pattern, tried in order, is deterministic on the
texts it can match (each `\d{1,3}` is followed in the pattern by a
non-digit, so the greedy quantifier either succeeds with the whole digit
run of length at most three, or — after a colon or dash — takes the first
three digits of a longer run). -/

/-- Alternative `\d{1,3}:\d{1,3}(?:-\d{1,3}(?::\d{1,3})?)?` of
`REFERENCE_TOKEN_RE` as a prefix matcher: returns the matched token and
the remainder. -/
def tryRef (l : List Char) : Option (List Char × List Char) :=
  let d1 := l.takeWhile Char.isDigit
  let r1 := l.dropWhile Char.isDigit
  if d1.isEmpty ∨ 3 < d1.length then none
  else match r1 with
    | ':' :: r2 =>
      let d2 := r2.takeWhile Char.isDigit
      let r3 := r2.dropWhile Char.isDigit
      if d2.isEmpty then none
      else
        let t2 := d1 ++ ':' :: d2.take 3
        let rem2 := d2.drop 3 ++ r3
        match rem2 with
        | '-' :: r4 =>
          let d3 := r4.takeWhile Char.isDigit
          let r5 := r4.dropWhile Char.isDigit
          if d3.isEmpty then some (t2, rem2)
          else
            let t3 := t2 ++ '-' :: d3.take 3
            let rem3 := d3.drop 3 ++ r5
            match rem3 with
            | ':' :: r6 =>
              let d4 := r6.takeWhile Char.isDigit
              let r7 := r6.dropWhile Char.isDigit
              if d4.isEmpty then some (t3, rem3)
              else some (t3 ++ ':' :: d4.take 3, d4.drop 3 ++ r7)
            | _ => some (t3, rem3)
        | _ => some (t2, rem2)
    | _ => none

/-- Alternative `\d{1,3}-\d{1,3}` of `REFERENCE_TOKEN_RE` as a prefix
matcher. -/
def tryRange (l : List Char) : Option (List Char × List Char) :=
  let d1 := l.takeWhile Char.isDigit
  let r1 := l.dropWhile Char.isDigit
  if d1.isEmpty ∨ 3 < d1.length then none
  else match r1 with
    | '-' :: r2 =>
      let d2 := r2.takeWhile Char.isDigit
      let r3 := r2.dropWhile Char.isDigit
      if d2.isEmpty then none
      else some (d1 ++ '-' :: d2.take 3, d2.drop 3 ++ r3)
    | _ => none

/-- Alternative `(?:[1-3]?)[LETTER_CLASS]+\.?` of `REFERENCE_TOKEN_RE` as
a prefix matcher (the optional digit participates only when letters
follow it). -/
def tryBookPrefix (l : List Char) : Option (List Char × List Char) :=
  match l with
  | [] => none
  | c :: rest =>
    if c = '1' ∨ c = '2' ∨ c = '3' then
      let run := rest.takeWhile isLetterChar
      if run.isEmpty then none
      else
        let r2 := rest.dropWhile isLetterChar
        match r2 with
        | '.' :: r3 => some (c :: run ++ ['.'], r3)
        | _ => some (c :: run, r2)
    else if isLetterChar c then
      let run := c :: rest.takeWhile isLetterChar
      let r2 := rest.dropWhile isLetterChar
      match r2 with
      | '.' :: r3 => some (run ++ ['.'], r3)
      | _ => some (run, r2)
    else none

/-- One token of `REFERENCE_TOKEN_RE.findall`: whitespace run, citation
ref, verse range, book-like token, digit run, or a single character. -/
def refTokenOne (l : List Char) : List Char × List Char :=
  match l with
  | [] => ([], [])
  | c :: rest =>
    if pyIsWs c then (c :: rest.takeWhile pyIsWs, rest.dropWhile pyIsWs)
    else match tryRef l with
    | some p => p
    | none => match tryRange l with
      | some p => p
      | none => match tryBookPrefix l with
        | some p => p
        | none =>
          let ds := l.takeWhile Char.isDigit
          if !ds.isEmpty then (ds, l.dropWhile Char.isDigit)
          else ([c], rest)

/-- `REFERENCE_TOKEN_RE.findall`. -/
def refTokensF : ℕ → List Char → List (List Char)
  | 0, _ => []
  | _ + 1, [] => []
  | f + 1, c :: rest =>
    let p := refTokenOne (c :: rest)
    p.1 :: refTokensF f p.2

/-- `CITATION_REF_RE.fullmatch` (the prefix matcher consuming the whole
token). -/
def isCitationRef (t : List Char) : Bool :=
  match tryRef t with
  | some p => p.2.isEmpty
  | none => false

/-- `CITATION_CONT_RE.fullmatch`: `\d{1,3}(?:-\d{1,3})?`. -/
def isCitationCont (t : List Char) : Bool :=
  let d1 := t.takeWhile Char.isDigit
  let r1 := t.dropWhile Char.isDigit
  !d1.isEmpty && d1.length ≤ 3 &&
    (r1.isEmpty ||
      match r1 with
      | '-' :: r2 => !r2.isEmpty && r2.all Char.isDigit && r2.length ≤ 3
      | _ => false)

/-- `CITATION_BOOK_TOKEN_RE.fullmatch`: `(?:[1-3]?)[LETTER_CLASS]+\.?`. -/
def isBookTokenShape (t : List Char) : Bool :=
  match t with
  | [] => false
  | c :: rest =>
    let core := if c = '1' ∨ c = '2' ∨ c = '3' then rest else c :: rest
    let run := core.takeWhile isLetterChar
    let r2 := core.dropWhile isLetterChar
    !run.isEmpty && (r2.isEmpty || r2 = ['.'])

/-- The set `REFERENCE_BOOK_ABBRS` (matched case-sensitively). -/
def REFERENCE_BOOK_ABBRS : List (List Char) :=
  ["Kej", "Kel", "Im", "Bil", "Ul", "Yos", "Hak",
   "Rut", "1Sam", "2Sam", "1Raj", "2Raj", "1Taw", "2Taw",
   "Ezr", "Neh", "Est", "Ayb", "Mzm", "Ams", "Pkh",
   "Kid", "Yes", "Yer", "Rat", "Yeh", "Dan", "Hos",
   "Yl", "Am", "Ob", "Yun", "Mi", "Nah", "Hab",
   "Zef", "Hag", "Za", "Mal", "Mat", "Mrk", "Luk",
   "Yoh", "Kis", "Rm", "1Kor", "2Kor", "Gal", "Ef",
   "Flp", "Kol", "1Tes", "2Tes", "1Tim", "2Tim", "Tit",
   "Flm", "Ibr", "Yak", "1Ptr", "2Ptr", "1Yoh", "2Yoh",
   "3Yoh", "Yud", "Why", "Tob", "Ydt", "Keb", "Sir",
   "Bar", "1Mak", "2Mak"].map String.data

/-- Python `token.rstrip(".")`. -/
def rstripDots (t : List Char) : List Char :=
  (t.reverse.dropWhile (fun c => c = '.')).reverse

/-- The script function `is_reference_book_token`. -/
def is_reference_book_token (t : List Char) : Bool :=
  isBookTokenShape t && rstripDots t ∈ REFERENCE_BOOK_ABBRS

/-- The `separators` set of `remove_cross_reference_noise` (as one-char
tokens). -/
def refSeparators : List (List Char) :=
  [",", ";", ":", ".", "!", "?", "(", ")", "[", "]", "\"", "'", "/", "-"].map
    String.data

/-- Counter state of the inner scanning loop of
`remove_cross_reference_noise`. -/
structure RefScan where
  refc : ℕ
  bookc : ℕ
  contc : ℕ
  sepc : ℕ
  nonspace : ℕ
  prev : String
deriving DecidableEq

/-- The inner `while j < len(tokens)` loop: consume a maximal run of
space/citation/book/separator/continuation tokens, counting each kind
(a continuation token is consumed only after a separator, reference, book
or continuation). Returns the number of consumed tokens and the final
counters. -/
def refSpanF : ℕ → List (List Char) → RefScan → ℕ × RefScan
  | 0, _, st => (0, st)
  | _ + 1, [], st => (0, st)
  | f + 1, t :: rest, st =>
    if pyIsSpaceTok t then
      let r := refSpanF f rest st
      (r.1 + 1, r.2)
    else if isCitationRef t then
      let r := refSpanF f rest
        { st with refc := st.refc + 1, nonspace := st.nonspace + 1, prev := "ref" }
      (r.1 + 1, r.2)
    else if is_reference_book_token t then
      let r := refSpanF f rest
        { st with bookc := st.bookc + 1, nonspace := st.nonspace + 1, prev := "book" }
      (r.1 + 1, r.2)
    else if t ∈ refSeparators then
      let r := refSpanF f rest
        { st with sepc := st.sepc + 1, nonspace := st.nonspace + 1, prev := "sep" }
      (r.1 + 1, r.2)
    else if isCitationCont t then
      if st.prev ∈ (["sep", "ref", "book", "cont"] : List String) then
        let r := refSpanF f rest
          { st with contc := st.contc + 1, nonspace := st.nonspace + 1, prev := "cont" }
        (r.1 + 1, r.2)
      else (0, st)
    else (0, st)

/-- The `looks_like_reference` test. -/
def looksLikeReference (st : RefScan) : Bool :=
  (2 ≤ st.refc && (1 ≤ st.bookc || 1 ≤ st.contc)) ||
  (1 ≤ st.bookc && 1 ≤ st.refc && 1 ≤ st.sepc && 5 ≤ st.nonspace) ||
  3 ≤ st.refc

/-- The outer `while i < len(tokens)` loop: at a citation-like token,
scan a span; if it looks like a reference, drop the whole span, else keep
this token and retry from the next one. -/
def crnOuterF : ℕ → List (List Char) → List (List Char)
  | 0, ts => ts
  | _ + 1, [] => []
  | f + 1, t :: rest =>
    if pyIsSpaceTok t then t :: crnOuterF f rest
    else if isCitationRef t || is_reference_book_token t || isCitationCont t then
      let r := refSpanF (t :: rest).length (t :: rest) ⟨0, 0, 0, 0, 0, ""⟩
      if looksLikeReference r.2 then crnOuterF f ((t :: rest).drop r.1)
      else t :: crnOuterF f rest
    else t :: crnOuterF f rest

/-- `[1-3]?[LETTER_CLASS]+\.?\s+` inside `REFERENCE_PARENS_RE`: an
optional book abbreviation followed by whitespace. -/
def tryBookWs (l : List Char) : Option (List Char) :=
  match tryBookPrefix l with
  | some p =>
    if (p.2.takeWhile pyIsWs).isEmpty then none
    else some (p.2.dropWhile pyIsWs)
  | none => none

/-- One `(book)? ref` item of `REFERENCE_PARENS_RE` (the book part is
dropped when no citation follows it). -/
def tryRefItem (l : List Char) : Option (List Char) :=
  match tryBookWs l with
  | some r =>
    match tryRef r with
    | some p => some p.2
    | none => (tryRef l).map (·.2)
  | none => (tryRef l).map (·.2)

/-- The `(?:\s*[,;]\s*(book)?ref)*\s*\)` tail of `REFERENCE_PARENS_RE`. -/
def parensTailF : ℕ → List Char → Option (List Char)
  | 0, _ => none
  | f + 1, l =>
    match l.dropWhile pyIsWs with
    | ')' :: r => some r
    | c :: r =>
      if c = ',' ∨ c = ';' then
        match tryRefItem (r.dropWhile pyIsWs) with
        | some rem => parensTailF f rem
        | none => none
      else none
    | [] => none

/-- A whole `REFERENCE_PARENS_RE` match starting at an opening
parenthesis: returns the remainder after the closing parenthesis. -/
def tryParensGroup (l : List Char) : Option (List Char) :=
  match l with
  | '(' :: r =>
    match tryRefItem (r.dropWhile pyIsWs) with
    | some rem => parensTailF l.length rem
    | none => none
  | _ => none

/-- `REFERENCE_PARENS_RE.sub("", ·)`. -/
def parensScanF : ℕ → List Char → List Char
  | 0, l => l
  | _ + 1, [] => []
  | f + 1, c :: rest =>
    if c = '(' then
      match tryParensGroup (c :: rest) with
      | some rem => parensScanF f rem
      | none => c :: parensScanF f rest
    else c :: parensScanF f rest

/-- The `[1-3]?[LETTER_CLASS]{2,24}\.?` tail of `MALFORMED_HEAD_REF_RE`;
the boolean reports whether the match ended in a word character (for the
boundary flag of the scanner). -/
def tryMalformedLetters (l : List Char) : Option (Bool × List Char) :=
  match l with
  | [] => none
  | c :: rest =>
    if c = '1' ∨ c = '2' ∨ c = '3' then
      let run := rest.takeWhile isLetterChar
      if run.length < 2 then none
      else
        let rem := run.drop (min 24 run.length) ++ rest.dropWhile isLetterChar
        match rem with
        | '.' :: r2 => some (false, r2)
        | _ => some (true, rem)
    else if isLetterChar c then
      let run := c :: rest.takeWhile isLetterChar
      if run.length < 2 then none
      else
        let rem := run.drop (min 24 run.length) ++ rest.dropWhile isLetterChar
        match rem with
        | '.' :: r2 => some (false, r2)
        | _ => some (true, rem)
    else none

/-- A whole `MALFORMED_HEAD_REF_RE` match
(`\b\d{1,3}:\d{1,3}:\s*[1-3]?[LETTER_CLASS]{2,24}\.?`) as a prefix
matcher (the leading `\b` is checked by the scanner). -/
def tryMalformedHead (l : List Char) : Option (Bool × List Char) :=
  let d1 := l.takeWhile Char.isDigit
  let r1 := l.dropWhile Char.isDigit
  if d1.isEmpty ∨ 3 < d1.length then none
  else match r1 with
    | ':' :: r2 =>
      let d2 := r2.takeWhile Char.isDigit
      let r3 := r2.dropWhile Char.isDigit
      if d2.isEmpty ∨ 3 < d2.length then none
      else match r3 with
        | ':' :: r4 => tryMalformedLetters (r4.dropWhile pyIsWs)
        | _ => none
    | _ => none

/-- `MALFORMED_HEAD_REF_RE.sub("", ·)`. -/
def malformedScanF : ℕ → Bool → List Char → List Char
  | 0, _, l => l
  | _ + 1, _, [] => []
  | f + 1, prevW, c :: rest =>
    if prevW = false ∧ Char.isDigit c then
      match tryMalformedHead (c :: rest) with
      | some p => malformedScanF f p.1 p.2
      | none => c :: malformedScanF f (isPyWordChar c) rest
    else c :: malformedScanF f (isPyWordChar c) rest

/-- `re.sub(r"\s{2,}", " ", ·)`: whitespace runs of length at least two
become one space; a single whitespace character is kept as is. -/
def collapseWs2F : ℕ → List Char → List Char
  | 0, l => l
  | _ + 1, [] => []
  | f + 1, c :: rest =>
    if pyIsWs c then
      if (rest.takeWhile pyIsWs).isEmpty then c :: collapseWs2F f rest
      else ' ' :: collapseWs2F f (rest.dropWhile pyIsWs)
    else c :: collapseWs2F f rest

/-- `re.sub(r"\s*-\s*([,.;:!?])", r"\1", ·)`. -/
def dashPunctF : ℕ → List Char → List Char
  | 0, l => l
  | _ + 1, [] => []
  | f + 1, c :: rest =>
    match (c :: rest).dropWhile pyIsWs with
    | '-' :: r2 =>
      match r2.dropWhile pyIsWs with
      | p :: r4 =>
        if isStopPunct p then p :: dashPunctF f r4
        else c :: dashPunctF f rest
      | [] => c :: dashPunctF f rest
    | _ => c :: dashPunctF f rest

/-- Python `str.strip(" ;,")`. -/
def stripSet (l : List Char) : List Char :=
  let p := fun c => c = ' ' || c = ';' || c = ','
  ((l.dropWhile p).reverse.dropWhile p).reverse

/-- The script function `remove_cross_reference_noise`. -/
def remove_cross_reference_noise (text : List Char) : List Char :=
  let tokens := refTokensF text.length text
  if tokens = [] then text
  else
    let kept := (crnOuterF tokens.length tokens).flatten
    let c1 := parensScanF kept.length kept
    let c2 := malformedScanF c1.length false c1
    let c3 := stripWs (collapseWs2F c2.length c2)
    let c4 := delWsBeforeF isStopPunct c3.length c3
    let c5 := delWsAfterF isOpenBracket c4.length c4
    let c6 := delWsBeforeF isCloseBracket c5.length c5
    stripSet (dashPunctF c6.length c6)


/-- `normalize_spacing` through the fuel evaluator (kernel-computable;
equal to `normalize_spacing` by `normalize_spacingC_eq`). -/
def normalize_spacingC (s : String) : String :=
  ⟨stripWs (collapseWsF (charMap s.data).length (charMap s.data))⟩

theorem normalize_spacingC_eq (s : String) :
    normalize_spacingC s = normalize_spacing s := by
  simp only [normalize_spacingC, normalize_spacing, normalizeSpacingL,
    collapseWs_eval]

/-- `normalize_punctuation_spacing` through the fuel evaluators
(kernel-computable; equal to `normalize_punctuation_spacing` by
`npsC_eq`). -/
def npsC (s : String) : String :=
  let l0 := (normalize_spacingC s).data
  let l1 := delWsBeforeF isStopPunct l0.length l0
  let l2 := delWsAfterF isOpenBracket l1.length l1
  let l3 := delWsBeforeF isCloseBracket l2.length l2
  let l4 := delWsBeforeF isQuoteChar l3.length l3
  let l5 := spaceColonQuote l4
  let l6 := collapseAfterQuoteF l5.length l5
  ⟨stripWs (collapseWsF l6.length l6)⟩

theorem npsC_eq (s : String) : npsC s = normalize_punctuation_spacing s := by
  simp only [npsC, normalize_punctuation_spacing, normalize_spacingC_eq,
    ← collapseWs_eval, ← delWsBefore_eval, ← delWsAfter_eval,
    ← collapseAfterQuote_eval]

/-! ## TB1 lexicon and row index (`build_tb1_lexicon`, `index_tb1_rows`) -/

/-- A CSV row of the input/output schema. -/
structure Row where
  book_name : String
  grouping : String
  order_index : String
  chapter : String
  verse : String
  text : String
  pericope : String
deriving DecidableEq

/-- `Counter[w] += 1` on an insertion-ordered association list. -/
def counterBump (c : List (List Char × ℕ)) (w : List Char) :
    List (List Char × ℕ) :=
  if c.any (fun p => p.1 = w) then
    c.map (fun p => if p.1 = w then (p.1, p.2 + 1) else p)
  else c ++ [(w, 1)]

/-- `WORD_TOKEN_RE.findall`: the maximal `[LETTER_CLASS-]+` runs. -/
def wordTokens (text : List Char) : List (List Char) :=
  (split_tokens text).filter is_word_token

/-- Python `str.split("-")`. -/
def splitOnHyphenF : ℕ → List Char → List (List Char)
  | 0, l => [l]
  | f + 1, l =>
    let pre := l.takeWhile (fun c => !(c = '-'))
    match l.dropWhile (fun c => !(c = '-')) with
    | [] => [pre]
    | _ :: rest => pre :: splitOnHyphenF f rest

/-- Python `str.split("-")` with sufficient fuel. -/
def splitOnHyphen (w : List Char) : List (List Char) :=
  splitOnHyphenF w.length w

/-- `VALID_HYPHEN_WORD_RE.fullmatch`:
`[LETTER_CLASS]+(?:-[LETTER_CLASS]+)+`, i.e. at least two dash-separated
parts, all nonempty and all letters. -/
def isValidHyphenWord (w : List Char) : Bool :=
  let parts := splitOnHyphen w
  2 ≤ parts.length && parts.all (fun p => !p.isEmpty && p.all isLetterChar)

/-- `token.replace("-", "")`. -/
def joinedOf (w : List Char) : List Char :=
  w.filter (fun c => !(c = '-'))

/-- The `hyphen_lookup` construction: group hyphen forms by their joined
spelling (keys in first-appearance order) and keep, per key, the earliest
form of maximal count (Python's stable descending sort then `options[0]`). -/
def hyphenLookupOf (hforms : List (List Char × ℕ)) :
    List (List Char × List Char) :=
  let keys := hforms.foldl
    (fun ks p => let j := joinedOf p.1; if j ∈ ks then ks else ks ++ [j]) []
  keys.map (fun j =>
    let opts := hforms.filter (fun p => joinedOf p.1 = j)
    (j, (opts.foldl (fun best o => if best.2 < o.2 then o else best)
      (opts.headD ([], 0))).1))

/-- The hyphen-form admission test of `build_tb1_lexicon` (beyond the
shape: no enclitic among the later parts, no part shorter than three). -/
def admitHyphenForm (lowered : List Char) : Bool :=
  isValidHyphenWord lowered &&
    !(splitOnHyphen lowered).tail.any (· ∈ SUFFIX_ALTS) &&
    !(splitOnHyphen lowered).any (fun p => p.length < 3)

/-- The per-text accumulation step of `build_tb1_lexicon`. -/
def lexiconStep (acc : List (List Char × ℕ) × List (List Char × ℕ))
    (text : List Char) : List (List Char × ℕ) × List (List Char × ℕ) :=
  (wordTokens text).foldl (fun acc tok =>
    let lowered := tok.map pyLowerChar
    (counterBump acc.1 lowered,
     if admitHyphenForm lowered then counterBump acc.2 lowered else acc.2))
    acc

/-- The script function `build_tb1_lexicon`. -/
def build_tb1_lexicon (rows : List Row) :
    List (List Char × ℕ) × List (List Char × List Char) :=
  let acc := rows.foldl
    (fun acc row => lexiconStep (lexiconStep acc row.text.data)
      row.pericope.data)
    ([], [])
  (acc.1, hyphenLookupOf acc.2)

/-- `dict[verse] = ref` with overwrite on an insertion-ordered
association list. -/
def dictInsertRef (m : List (ℤ × RowRef)) (k : ℤ) (v : RowRef) :
    List (ℤ × RowRef) :=
  if m.any (fun p => p.1 = k) then
    m.map (fun p => if p.1 = k then (k, v) else p)
  else m ++ [(k, v)]

/-- `tb1_index.get((book, chapter), {})`. -/
def idxGet (idx : List ((String × String) × List (ℤ × RowRef)))
    (k : String × String) : List (ℤ × RowRef) :=
  ((idx.find? (fun p => p.1 = k)).map (·.2)).getD []

/-- `defaultdict(dict)` insertion into the two-level index. -/
def idxInsert (idx : List ((String × String) × List (ℤ × RowRef)))
    (k : String × String) (verse : ℤ) (ref : RowRef) :
    List ((String × String) × List (ℤ × RowRef)) :=
  if idx.any (fun p => p.1 = k) then
    idx.map (fun p => if p.1 = k then (p.1, dictInsertRef p.2 verse ref) else p)
  else idx ++ [(k, dictInsertRef [] verse ref)]

/-- Numeric value of a digit string. -/
def digitsVal (ds : List Char) : ℤ :=
  ds.foldl (fun a c => a * 10 + ((c.toNat : ℤ) - 48)) 0

/-- Python `int(s)` on an already-stripped string: optional sign then
digits (failure returns `none`, modelling the `ValueError` branch). -/
def parseIntOpt (s : List Char) : Option ℤ :=
  match s with
  | [] => none
  | '-' :: ds =>
    if !ds.isEmpty && ds.all Char.isDigit then some (-(digitsVal ds)) else none
  | '+' :: ds =>
    if !ds.isEmpty && ds.all Char.isDigit then some (digitsVal ds) else none
  | ds => if ds.all Char.isDigit then some (digitsVal ds) else none

/-- The script function `index_tb1_rows`. -/
def index_tb1_rows (rows : List Row) :
    List ((String × String) × List (ℤ × RowRef)) :=
  rows.foldl (fun idx row =>
    let book : String := ⟨stripWs row.book_name.data⟩
    let chapter : String := ⟨stripWs row.chapter.data⟩
    let verse_raw := stripWs row.verse.data
    let text := normalize_spacingC row.text
    if book.data = [] ∨ chapter.data = [] ∨ verse_raw = [] then idx
    else match parseIntOpt verse_raw with
      | none => idx
      | some v =>
        idxInsert idx (book, chapter) v ⟨v, text, normalize_letters text⟩) []

/-! ## The per-row pipeline and the engine (`main`, lines 808–897)

The engine is the loop body of `main` restricted to its data flow: the
per-row computation of the cleaned `text` and `pericope` fields and the
`output_rows` collection (statistics, previews and CSV I/O have no effect
on the rows and are not modelled). -/

/-- The alignment attempt of the loop body (lines 835–851): returns the
aligned text, aligned pericope, `method` and `confidence`. -/
def alignStage (chapter_index : List (ℤ × RowRef)) (verse_num : Option ℤ)
    (mdr mnr : ℚ) (window : ℤ) (source_text source_pericope : List Char) :
    List Char × List Char × String × ℚ :=
  match verse_num with
  | some v =>
    if chapter_index ≠ [] then
      let res := choose_reference (normalize_letters ⟨source_text⟩)
        chapter_index v mdr mnr window
      match res.1 with
      | some ref =>
        (project_boundaries source_text ref.text.data,
         if source_pericope ≠ [] then
           project_boundaries source_pericope ref.text.data
         else source_pericope,
         if res.2.1 = "same" then "alignment_same" else "alignment_neighbor",
         res.2.2)
      | none => (source_text, source_pericope, "fallback", res.2.2)
    else (source_text, source_pericope, "fallback", 0)
  | none => (source_text, source_pericope, "fallback", 0)

/-- The fallback branch of the loop body (lines 853–861): on method
`fallback`, re-clean text and pericope with the lexicon merger, and trim
the low-confidence tail against a direct reference when the confidence is
below the neighbor threshold. -/
noncomputable def fallbackStage (lexicon : List (List Char × ℕ))
    (direct_ref : Option RowRef) (mnr : ℚ)
    (source_text source_pericope : List Char)
    (st : List Char × List Char × String × ℚ) : List Char × List Char :=
  if st.2.2.1 = "fallback" then
    let at1 := fallback_clean_text source_text lexicon
    let ap1 := if source_pericope ≠ [] then
        fallback_clean_text source_pericope lexicon
      else st.2.1
    let at2 := if st.2.2.2 < mnr then
        match direct_ref with
        | some d => trim_low_confidence_tail at1 d.text.data (mkRat 27 20)
        | none => at1
      else at1
    (at2, ap1)
  else (st.1, st.2.1)

/-- The final text normalizations (lines 879–886), including the
unconditional trim against the direct reference when one exists. -/
def finalTextStage (hlookup : List (List Char × List Char))
    (direct_ref : Option RowRef) (t : List Char) : List Char :=
  let t1 := apply_static_safe_phrase_fixes t
  let t2 := apply_suffix_join t1
  let t3 := restore_hyphen_forms t2 hlookup
  let t4 := remove_cross_reference_noise t3
  let t5 := (npsC ⟨t4⟩).data
  match direct_ref with
  | some d =>
    (npsC ⟨trim_low_confidence_tail t5 d.text.data (mkRat 27 20)⟩).data
  | none => t5

/-- The final pericope normalizations (lines 888–893). -/
def finalPericopeStage (hlookup : List (List Char × List Char))
    (p : List Char) : List Char :=
  (npsC
    ⟨remove_cross_reference_noise
      (restore_hyphen_forms (apply_suffix_join
        (apply_static_safe_phrase_fixes p)) hlookup)⟩).data

/-- The loop body of `main` for one row: the output row keeps every field
except `text` and `pericope`. -/
noncomputable def processRow
    (idx : List ((String × String) × List (ℤ × RowRef)))
    (lexicon : List (List Char × ℕ))
    (hlookup : List (List Char × List Char))
    (mdr mnr : ℚ) (window : ℤ) (row : Row) : Row :=
  let source_text := (normalize_spacingC row.text).data
  let source_pericope := (normalize_spacingC row.pericope).data
  let book : String := ⟨stripWs row.book_name.data⟩
  let chapter : String := ⟨stripWs row.chapter.data⟩
  let chapter_index := idxGet idx (book, chapter)
  let verse_num := parseIntOpt (stripWs row.verse.data)
  let direct_ref := match verse_num with
    | some v => rowLookup chapter_index v
    | none => none
  let st := alignStage chapter_index verse_num mdr mnr window
    source_text source_pericope
  let fb := fallbackStage lexicon direct_ref mnr source_text source_pericope st
  let tfin := finalTextStage hlookup direct_ref fb.1
  let pfin := if fb.2 ≠ [] then finalPericopeStage hlookup fb.2 else fb.2
  { row with text := ⟨tfin⟩, pericope := ⟨pfin⟩ }

/-- The engine: `output_rows` of `main` as a function of the two input
row collections and the similarity settings. -/
noncomputable def engine (tb2_rows tb1_rows : List Row) (mdr mnr : ℚ)
    (window : ℤ) : List Row :=
  let idx := index_tb1_rows tb1_rows
  let lexp := build_tb1_lexicon tb1_rows
  tb2_rows.map (processRow idx lexp.1 lexp.2 mdr mnr window)

/-- The spec's reading of the final normalizations: identical to
`finalTextStage` except that no low-confidence tail trimming happens
there (the spec reserves trimming for low-confidence fallback rows, which
`fallbackStage` already performs). -/
def finalTextStageSpec (hlookup : List (List Char × List Char))
    (t : List Char) : List Char :=
  let t1 := apply_static_safe_phrase_fixes t
  let t2 := apply_suffix_join t1
  let t3 := restore_hyphen_forms t2 hlookup
  let t4 := remove_cross_reference_noise t3
  (npsC ⟨t4⟩).data

/-- The per-row pipeline as the spec describes it: like `processRow`, but
with the spec's trim-free final normalization. -/
noncomputable def processRowSpec
    (idx : List ((String × String) × List (ℤ × RowRef)))
    (lexicon : List (List Char × ℕ))
    (hlookup : List (List Char × List Char))
    (mdr mnr : ℚ) (window : ℤ) (row : Row) : Row :=
  let source_text := (normalize_spacingC row.text).data
  let source_pericope := (normalize_spacingC row.pericope).data
  let book : String := ⟨stripWs row.book_name.data⟩
  let chapter : String := ⟨stripWs row.chapter.data⟩
  let chapter_index := idxGet idx (book, chapter)
  let verse_num := parseIntOpt (stripWs row.verse.data)
  let direct_ref := match verse_num with
    | some v => rowLookup chapter_index v
    | none => none
  let st := alignStage chapter_index verse_num mdr mnr window
    source_text source_pericope
  let fb := fallbackStage lexicon direct_ref mnr source_text source_pericope st
  let tfin := finalTextStageSpec hlookup fb.1
  let pfin := if fb.2 ≠ [] then finalPericopeStage hlookup fb.2 else fb.2
  { row with text := ⟨tfin⟩, pericope := ⟨pfin⟩ }

/-! ## Claim C7 -/

/-- C7: if the reference at the exact verse exists and its ratio reaches
`min_direct_ratio` (including exact equality), `choose_reference` returns
that reference with mode `same` and that ratio, for every `ref_rows`
containing it — hence independently of any neighbor entry. -/
theorem claim_C7 (tb2 : String) (rows : List (ℤ × RowRef)) (verse : ℤ)
    (mdr mnr : ℚ) (window : ℤ) (d : RowRef)
    (hl : rowLookup rows verse = some d)
    (hr : mdr ≤ sequence_ratio tb2 d.normalized) :
    choose_reference tb2 rows verse mdr mnr window =
      (some d, "same", sequence_ratio tb2 d.normalized) := by
  unfold choose_reference
  rw [hl]
  rw [if_pos]
  exact ⟨hr, by simp⟩

set_option maxRecDepth 40000 in
/-- Witness for C7 at the boundary ratio: the direct verse 3 matches with
ratio exactly `4/5 = min_direct_ratio` and is returned with mode `same`
even though the neighbor verse 4 would match better. -/
theorem claim_C7_witness :
    rowLookup [((3 : ℤ), (⟨3, "x", "ab"⟩ : RowRef)), (4, ⟨4, "y", "aab"⟩)] 3 =
      some ⟨3, "x", "ab"⟩ ∧
    mkRat 4 5 ≤ sequence_ratio "aab" "ab" ∧
    choose_reference "aab" [((3 : ℤ), ⟨3, "x", "ab"⟩), (4, ⟨4, "y", "aab"⟩)] 3
        (mkRat 4 5) (mkRat 4 5) 6 =
      (some ⟨3, "x", "ab"⟩, "same", sequence_ratio "aab" "ab") :=
  ⟨by decide, by decide,
    claim_C7 "aab" [((3 : ℤ), ⟨3, "x", "ab"⟩), (4, ⟨4, "y", "aab"⟩)] 3
      (mkRat 4 5) (mkRat 4 5) 6 ⟨3, "x", "ab"⟩ (by decide) (by decide)⟩

/-! ## Claim C9 -/

/-- A text without sentence-ending punctuation yields no sentence ends. -/
theorem sentenceEndsAux_nil (l : List Char)
    (h : ∀ c ∈ l, c ≠ '.' ∧ c ≠ '!' ∧ c ≠ '?') :
    ∀ i k, sentenceEndsAux l i k = [] := by
  induction l with
  | nil => intro i k; rfl
  | cons c rest ih =>
    intro i k
    have hc := h c (by simp)
    simp only [sentenceEndsAux]
    rw [if_neg (by tauto)]
    simpa using ih (fun d hd => h d (by simp [hd])) (i + 1)
      (if isLetterChar c then k + 1 else k)

/-- C9 (amended): when the stripped text has no sentence-ending mark, or
no sentence end lies in the plausible band, `trim_low_confidence_tail`
skips trimming and returns the stripped input (rather than the input
itself: leading and trailing whitespace is always removed first). -/
theorem claim_C9 (text ref : List Char) (mr : ℚ)
    (h : (∀ c ∈ stripWs text, c ≠ '.' ∧ c ≠ '!' ∧ c ≠ '?') ∨
      trimCandidates ((ref.filter isLetterChar).map pyLowerChar).length
        (sentence_ends (stripWs text)) = []) :
    trim_low_confidence_tail text ref mr = stripWs text := by
  simp only [trim_low_confidence_tail]
  split_ifs with h1 h2 h3 h4 h5
  · rfl
  · rfl
  · rfl
  · rfl
  · rfl
  · exfalso
    rcases h with h | h
    · exact h4 (by unfold sentence_ends; exact sentenceEndsAux_nil _ h 0 0)
    · exact h5 h

set_option maxRecDepth 10000 in
/-- Counterexample to C9 as stated: `" a"` contains no sentence-ending
mark, yet `trim_low_confidence_tail` returns `"a"`, not its input
unchanged — the input is always stripped first. -/
theorem claim_C9_counterexample :
    (∀ c ∈ [' ', 'a'], c ≠ '.' ∧ c ≠ '!' ∧ c ≠ '?') ∧
    trim_low_confidence_tail [' ', 'a'] ['x'] (mkRat 27 20) = ['a'] ∧
    [' ', 'a'] ≠ ['a'] :=
  ⟨by decide, by decide, by decide⟩

set_option maxRecDepth 10000 in
/-- Witness for C9: a sentence-end-free text is returned stripped. -/
theorem claim_C9_witness :
    (∀ c ∈ stripWs ('a' :: 'b' :: ' ' :: 'c' :: 'd' :: ' ' :: []),
      c ≠ '.' ∧ c ≠ '!' ∧ c ≠ '?') ∧
    trim_low_confidence_tail ('a' :: 'b' :: ' ' :: 'c' :: 'd' :: ' ' :: [])
        ['q'] (mkRat 27 20) =
      stripWs ('a' :: 'b' :: ' ' :: 'c' :: 'd' :: ' ' :: []) :=
  ⟨by decide,
    claim_C9 ('a' :: 'b' :: ' ' :: 'c' :: 'd' :: ' ' :: []) ['q'] (mkRat 27 20)
      (Or.inl (by decide))⟩

/-! ## Claim C10 -/

/-- `processRow` only rewrites the `text` and `pericope` fields. -/
theorem processRow_frame (idx : List ((String × String) × List (ℤ × RowRef)))
    (lexicon : List (List Char × ℕ)) (hlookup : List (List Char × List Char))
    (mdr mnr : ℚ) (window : ℤ) (row : Row) :
    (processRow idx lexicon hlookup mdr mnr window row).book_name =
        row.book_name ∧
    (processRow idx lexicon hlookup mdr mnr window row).grouping =
        row.grouping ∧
    (processRow idx lexicon hlookup mdr mnr window row).order_index =
        row.order_index ∧
    (processRow idx lexicon hlookup mdr mnr window row).chapter =
        row.chapter ∧
    (processRow idx lexicon hlookup mdr mnr window row).verse = row.verse := by
  simp [processRow]

/-- C10: the engine emits exactly one output row per input row, in input
order, and every field other than `text` and `pericope` is copied from
the corresponding input row. -/
theorem claim_C10 (tb2 tb1 : List Row) (mdr mnr : ℚ) (window : ℤ) :
    (engine tb2 tb1 mdr mnr window).length = tb2.length ∧
    ∀ i : ℕ,
      ((engine tb2 tb1 mdr mnr window).getD i
          ⟨"", "", "", "", "", "", ""⟩).book_name =
        (tb2.getD i ⟨"", "", "", "", "", "", ""⟩).book_name ∧
      ((engine tb2 tb1 mdr mnr window).getD i
          ⟨"", "", "", "", "", "", ""⟩).grouping =
        (tb2.getD i ⟨"", "", "", "", "", "", ""⟩).grouping ∧
      ((engine tb2 tb1 mdr mnr window).getD i
          ⟨"", "", "", "", "", "", ""⟩).order_index =
        (tb2.getD i ⟨"", "", "", "", "", "", ""⟩).order_index ∧
      ((engine tb2 tb1 mdr mnr window).getD i
          ⟨"", "", "", "", "", "", ""⟩).chapter =
        (tb2.getD i ⟨"", "", "", "", "", "", ""⟩).chapter ∧
      ((engine tb2 tb1 mdr mnr window).getD i
          ⟨"", "", "", "", "", "", ""⟩).verse =
        (tb2.getD i ⟨"", "", "", "", "", "", ""⟩).verse := by
  constructor
  · simp [engine]
  · intro i
    simp only [engine]
    by_cases h : i < tb2.length
    · have hmap : (tb2.map (processRow (index_tb1_rows tb1)
          (build_tb1_lexicon tb1).1 (build_tb1_lexicon tb1).2 mdr mnr
          window)).getD i ⟨"", "", "", "", "", "", ""⟩ =
          processRow (index_tb1_rows tb1) (build_tb1_lexicon tb1).1
            (build_tb1_lexicon tb1).2 mdr mnr window
            (tb2.getD i ⟨"", "", "", "", "", "", ""⟩) := by
        rw [List.getD_eq_getElem?_getD, List.getD_eq_getElem?_getD,
          List.getElem?_map]
        rw [List.getElem?_eq_getElem h]
        rfl
      rw [hmap]
      exact processRow_frame _ _ _ _ _ _ _
    · rw [List.getD_eq_getElem?_getD, List.getD_eq_getElem?_getD,
        List.getElem?_map,
        List.getElem?_eq_none (show tb2.length ≤ i by omega)]
      exact ⟨rfl, rfl, rfl, rfl, rfl⟩

/-! ## Claim C2 -/

/-- C2 (amended): a two-token group whose first token (lowercased) is a
never-merge function word is rejected with the sentinel score precisely
when the joined lowercased form is absent from the lexicon. -/
theorem claim_C2 (tokens : List (List Char)) (lexicon : List (List Char × ℕ))
    (h2 : tokens.length = 2)
    (hfirst : (tokens.headD []).map pyLowerChar ∈ DO_NOT_JOIN_TWO)
    (habsent : lexGet lexicon (tokens.flatten.map pyLowerChar) = 0) :
    fallback_group_score tokens lexicon = -9999 := by
  unfold fallback_group_score
  rw [if_neg (by omega), if_pos ⟨h2, hfirst, habsent⟩]

set_option maxRecDepth 4000 in
/-- Witness for C2: `["di", "ke"]` with an empty lexicon is rejected. -/
theorem claim_C2_witness :
    (["di".data, "ke".data].length = 2 ∧
      (["di".data, "ke".data].headD []).map pyLowerChar ∈ DO_NOT_JOIN_TWO ∧
      lexGet [] (["di".data, "ke".data].flatten.map pyLowerChar) = 0) ∧
    fallback_group_score ["di".data, "ke".data] [] = -9999 :=
  ⟨⟨by decide, by decide, by decide⟩,
    claim_C2 ["di".data, "ke".data] [] (by decide) (by decide) (by decide)⟩

set_option maxRecDepth 4000 in
/-- Counterexample to C2 as stated: the two-token group `["di", "a"]`
has a never-merge first token, but its joined form `dia` is in the
lexicon, so the scorer does not return the sentinel (it scores the merge
positively). -/
theorem claim_C2_counterexample :
    ["di".data, "a".data].length = 2 ∧
    (["di".data, "a".data].headD []).map pyLowerChar ∈ DO_NOT_JOIN_TWO ∧
    fallback_group_score ["di".data, "a".data] [("dia".data, 5)] ≠ -9999 := by
  refine ⟨by decide, by decide, ?_⟩
  have hL : 0 < Real.logb 10 6 := Real.logb_pos (by norm_num) (by norm_num)
  have hm : token_score (["di".data, "a".data]).flatten [("dia".data, 5)] =
      6 + Real.logb 10 6 * 1.8 := by
    unfold token_score
    rw [if_neg (by decide)]
    rw [show lexGet [("dia".data, 5)]
      ((["di".data, "a".data]).flatten.map pyLowerChar) = 5 from by decide]
    rw [if_pos (by norm_num)]
    norm_num
  have hdi : token_score "di".data [("dia".data, 5)] = -2.5 := by
    unfold token_score
    rw [if_neg (by decide)]
    rw [show lexGet [("dia".data, 5)] ("di".data.map pyLowerChar) = 0 from by
      decide]
    rw [if_neg (by norm_num), if_neg (by decide), if_neg (by decide)]
  have ha : token_score "a".data [("dia".data, 5)] = -6 := by
    unfold token_score
    rw [if_neg (by decide)]
    rw [show lexGet [("dia".data, 5)] ("a".data.map pyLowerChar) = 0 from by
      decide]
    rw [if_neg (by norm_num), if_pos (by decide)]
  unfold fallback_group_score
  rw [if_neg (by decide), if_neg (by decide)]
  simp only [List.map_cons, List.map_nil, List.sum_cons, List.sum_nil, hm, hdi, ha]
  rw [if_neg (by nlinarith), if_neg (by nlinarith)]
  nlinarith

/-! ## Claim C6 -/

/-- C6: both spacing normalizers are idempotent. -/
theorem claim_C6 (x : String) :
    normalize_spacing (normalize_spacing x) = normalize_spacing x ∧
    normalize_punctuation_spacing (normalize_punctuation_spacing x) =
      normalize_punctuation_spacing x :=
  ⟨normalize_spacing_idem_aux x, normalize_punctuation_spacing_idem_aux x⟩

/-! ## Claim C1 -/

/-- On a non-`fallback` method, `fallbackStage` passes the aligned pair
through. -/
theorem fallbackStage_skip (lexicon : List (List Char × ℕ))
    (dref : Option RowRef) (mnr : ℚ) (src per : List Char)
    (st : List Char × List Char × String × ℚ) (h : st.2.2.1 ≠ "fallback") :
    fallbackStage lexicon dref mnr src per st = (st.1, st.2.1) := by
  unfold fallbackStage
  rw [if_neg h]

/-- With no direct reference the two final normalizations agree. -/
theorem finalTextStage_none (hlookup : List (List Char × List Char))
    (t : List Char) :
    finalTextStage hlookup none t = finalTextStageSpec hlookup t := rfl

/-- C1 (amended): the final tail trimming runs exactly when the direct
verse reference exists; in particular a row with no direct reference is
processed identically by the real pipeline and by the spec's trim-free
pipeline. (As stated the claim is false: the final trim at lines 884–886
runs for every row with a direct reference, including trusted
`alignment_same` rows — see the counterexample.) -/
theorem claim_C1 (idx : List ((String × String) × List (ℤ × RowRef)))
    (lexicon : List (List Char × ℕ)) (hlookup : List (List Char × List Char))
    (mdr mnr : ℚ) (window : ℤ) (row : Row)
    (h : (match parseIntOpt (stripWs row.verse.data) with
      | some v => rowLookup
          (idxGet idx (⟨stripWs row.book_name.data⟩,
            ⟨stripWs row.chapter.data⟩)) v
      | none => none) = (none : Option RowRef)) :
    processRow idx lexicon hlookup mdr mnr window row =
      processRowSpec idx lexicon hlookup mdr mnr window row := by
  simp only [processRow, processRowSpec]
  rw [h, finalTextStage_none]

set_option maxRecDepth 400000 in
/-- Counterexample to C1 as stated: this row is cleaned via a trusted
same-verse reference (mode `same`, ratio `5/6`, at or above the `82/100`
threshold), yet the pipeline still invokes tail trimming on it — its
output drops the tail `qq` that the spec's trim-free pipeline keeps. -/
theorem claim_C1_counterexample :
    (choose_reference
        (normalize_letters ⟨(normalize_spacingC "abcde fghij. qq qq").data⟩)
        (idxGet (index_tb1_rows
            [⟨"Kej", "g", "1", "1", "1", "abcde fghij.", ""⟩]) ("Kej", "1"))
        1 (mkRat 82 100) (mkRat 82 100) 6).2.1 = "same" ∧
    mkRat 82 100 ≤
      (choose_reference
        (normalize_letters ⟨(normalize_spacingC "abcde fghij. qq qq").data⟩)
        (idxGet (index_tb1_rows
            [⟨"Kej", "g", "1", "1", "1", "abcde fghij.", ""⟩]) ("Kej", "1"))
        1 (mkRat 82 100) (mkRat 82 100) 6).2.2 ∧
    processRow
        (index_tb1_rows [⟨"Kej", "g", "1", "1", "1", "abcde fghij.", ""⟩])
        (build_tb1_lexicon [⟨"Kej", "g", "1", "1", "1", "abcde fghij.", ""⟩]).1
        (build_tb1_lexicon [⟨"Kej", "g", "1", "1", "1", "abcde fghij.", ""⟩]).2
        (mkRat 82 100) (mkRat 82 100) 6
        ⟨"Kej", "g", "1", "1", "1", "abcde fghij. qq qq", ""⟩ ≠
      processRowSpec
        (index_tb1_rows [⟨"Kej", "g", "1", "1", "1", "abcde fghij.", ""⟩])
        (build_tb1_lexicon [⟨"Kej", "g", "1", "1", "1", "abcde fghij.", ""⟩]).1
        (build_tb1_lexicon [⟨"Kej", "g", "1", "1", "1", "abcde fghij.", ""⟩]).2
        (mkRat 82 100) (mkRat 82 100) 6
        ⟨"Kej", "g", "1", "1", "1", "abcde fghij. qq qq", ""⟩ := by
  refine ⟨by decide, by decide, ?_⟩
  have hpr : processRow
      (index_tb1_rows [⟨"Kej", "g", "1", "1", "1", "abcde fghij.", ""⟩])
      (build_tb1_lexicon [⟨"Kej", "g", "1", "1", "1", "abcde fghij.", ""⟩]).1
      (build_tb1_lexicon [⟨"Kej", "g", "1", "1", "1", "abcde fghij.", ""⟩]).2
      (mkRat 82 100) (mkRat 82 100) 6
      ⟨"Kej", "g", "1", "1", "1", "abcde fghij. qq qq", ""⟩ =
      ⟨"Kej", "g", "1", "1", "1", "abcde fghijqq.", ""⟩ := by
    simp only [processRow]
    rw [fallbackStage_skip _ _ _ _ _ _ (by decide)]
    decide
  have hps : processRowSpec
      (index_tb1_rows [⟨"Kej", "g", "1", "1", "1", "abcde fghij.", ""⟩])
      (build_tb1_lexicon [⟨"Kej", "g", "1", "1", "1", "abcde fghij.", ""⟩]).1
      (build_tb1_lexicon [⟨"Kej", "g", "1", "1", "1", "abcde fghij.", ""⟩]).2
      (mkRat 82 100) (mkRat 82 100) 6
      ⟨"Kej", "g", "1", "1", "1", "abcde fghij. qq qq", ""⟩ =
      ⟨"Kej", "g", "1", "1", "1", "abcde fghijqq. qq", ""⟩ := by
    simp only [processRowSpec]
    rw [fallbackStage_skip _ _ _ _ _ _ (by decide)]
    decide
  rw [hpr, hps]
  decide

set_option maxRecDepth 40000 in
/-- Witness for C1: a row whose verse is absent from the reference index
has no direct reference, and the pipeline equals the trim-free spec
pipeline on it. -/
theorem claim_C1_witness :
    (match parseIntOpt (stripWs ("9" : String).data) with
      | some v => rowLookup
          (idxGet (index_tb1_rows
              [⟨"Kej", "g", "1", "1", "1", "abcde fghij.", ""⟩])
            (⟨stripWs ("Kej" : String).data⟩, ⟨stripWs ("1" : String).data⟩)) v
      | none => none) = (none : Option RowRef) ∧
    processRow
        (index_tb1_rows [⟨"Kej", "g", "1", "1", "1", "abcde fghij.", ""⟩])
        (build_tb1_lexicon [⟨"Kej", "g", "1", "1", "1", "abcde fghij.", ""⟩]).1
        (build_tb1_lexicon [⟨"Kej", "g", "1", "1", "1", "abcde fghij.", ""⟩]).2
        (mkRat 82 100) (mkRat 82 100) 6
        ⟨"Kej", "g", "1", "1", "9", "xy zz", ""⟩ =
      processRowSpec
        (index_tb1_rows [⟨"Kej", "g", "1", "1", "1", "abcde fghij.", ""⟩])
        (build_tb1_lexicon [⟨"Kej", "g", "1", "1", "1", "abcde fghij.", ""⟩]).1
        (build_tb1_lexicon [⟨"Kej", "g", "1", "1", "1", "abcde fghij.", ""⟩]).2
        (mkRat 82 100) (mkRat 82 100) 6
        ⟨"Kej", "g", "1", "1", "9", "xy zz", ""⟩ :=
  ⟨by decide,
    claim_C1 (index_tb1_rows [⟨"Kej", "g", "1", "1", "1", "abcde fghij.", ""⟩])
      (build_tb1_lexicon [⟨"Kej", "g", "1", "1", "1", "abcde fghij.", ""⟩]).1
      (build_tb1_lexicon [⟨"Kej", "g", "1", "1", "1", "abcde fghij.", ""⟩]).2
      (mkRat 82 100) (mkRat 82 100) 6
      ⟨"Kej", "g", "1", "1", "9", "xy zz", ""⟩ (by decide)⟩

/-! ## Claim C8: helper lemmas -/

/-- Letters of `LETTER_CLASS` are not whitespace. -/
theorem letter_nonws (c : Char) (h : isLetterChar c = true) : pyIsWs c = false := by
  rw [isLetterChar] at h
  simp only [Bool.or_eq_true, Bool.and_eq_true, decide_eq_true_eq] at h
  have hn : ((((65 ≤ c.toNat ∧ c.toNat ≤ 90) ∨
      (97 ≤ c.toNat ∧ c.toNat ≤ 122)) ∨
      (192 ≤ c.toNat ∧ c.toNat ≤ 214)) ∨
      (216 ≤ c.toNat ∧ c.toNat ≤ 246)) ∨
      (248 ≤ c.toNat ∧ c.toNat ≤ 255) := h
  rw [Bool.eq_false_iff]
  intro hws
  rw [pyIsWs] at hws
  simp only [Bool.or_eq_true, Bool.and_eq_true, decide_eq_true_eq] at hws
  have hw : (9 ≤ c.toNat ∧ c.toNat ≤ 13) ∨ (28 ≤ c.toNat ∧ c.toNat ≤ 32) ∨
      c.toNat = 133 ∨ c.toNat = 160 ∨ c.toNat = 5760 ∨
      (8192 ≤ c.toNat ∧ c.toNat ≤ 8202) ∨ c.toNat = 8232 ∨ c.toNat = 8233 ∨
      c.toNat = 8239 ∨ c.toNat = 8287 ∨ c.toNat = 12288 := by
    rcases hws with ((((((((((h | h) | h) | h) | h) | h) | h) | h) | h) | h) | h)
    · exact Or.inl h
    · exact Or.inr (Or.inl h)
    · exact Or.inr (Or.inr (Or.inl (congrArg UInt32.toNat h)))
    · exact Or.inr (Or.inr (Or.inr (Or.inl (congrArg UInt32.toNat h))))
    · exact Or.inr (Or.inr (Or.inr (Or.inr (Or.inl
        (congrArg UInt32.toNat h)))))
    · exact Or.inr (Or.inr (Or.inr (Or.inr (Or.inr (Or.inl h)))))
    · exact Or.inr (Or.inr (Or.inr (Or.inr (Or.inr (Or.inr (Or.inl
        (congrArg UInt32.toNat h)))))))
    · exact Or.inr (Or.inr (Or.inr (Or.inr (Or.inr (Or.inr (Or.inr (Or.inl
        (congrArg UInt32.toNat h))))))))
    · exact Or.inr (Or.inr (Or.inr (Or.inr (Or.inr (Or.inr (Or.inr (Or.inr
        (Or.inl (congrArg UInt32.toNat h)))))))))
    · exact Or.inr (Or.inr (Or.inr (Or.inr (Or.inr (Or.inr (Or.inr (Or.inr
        (Or.inr (Or.inl (congrArg UInt32.toNat h))))))))))
    · exact Or.inr (Or.inr (Or.inr (Or.inr (Or.inr (Or.inr (Or.inr (Or.inr
        (Or.inr (Or.inr (congrArg UInt32.toNat h))))))))))
  omega

/-- Word-token characters are not whitespace. -/
theorem word_nonws (c : Char) (h : isWordChar c = true) : pyIsWs c = false := by
  rw [isWordChar] at h
  simp only [Bool.or_eq_true, decide_eq_true_eq] at h
  rcases h with h | h
  · exact letter_nonws c h
  · subst h; decide

/-- A fold preserves any invariant preserved by each step. -/
theorem foldl_preserve {α β : Type} (P : α → Prop) (f : α → β → α)
    (l : List β) (init : α) (hinit : P init)
    (hstep : ∀ a b, b ∈ l → P a → P (f a b)) : P (l.foldl f init) := by
  induction l generalizing init with
  | nil => exact hinit
  | cons x xs ih =>
    exact ih (f init x) (hstep init x (by simp) hinit)
      (fun a b hb ha => hstep a b (by simp [hb]) ha)

/-- Every `best_len` entry of the dynamic program is at least one. -/
theorem dpGF_len_pos (words : List (List Char))
    (lexicon : List (List Char × ℕ)) (mg : ℕ) :
    ∀ f d, 1 ≤ (dpGF words lexicon mg f d).2 := by
  intro f d
  match f, d with
  | _, 0 => simp [dpGF]
  | 0, _ + 1 => simp [dpGF]
  | f + 1, d + 1 =>
    apply foldl_preserve (fun p : ℝ × ℕ => 1 ≤ p.2)
    · simp
    · intro a b hb ha
      dsimp only
      split_ifs with h1 h2
      · exact ha
      · have := List.mem_range'.mp hb
        omega
      · exact ha

/-- With enough fuel, the chosen groups concatenate back to the suffix
they cover: the reconstruction loop loses no character. -/
theorem dpChunksF_flatten (words : List (List Char))
    (lexicon : List (List Char × ℕ)) (mg : ℕ) :
    ∀ f i, words.length - i ≤ f →
      (dpChunksF words lexicon mg f i).flatten = (words.drop i).flatten := by
  intro f
  induction f with
  | zero =>
    intro i h
    have : words.length ≤ i := by omega
    simp [dpChunksF, List.drop_eq_nil_of_le this]
  | succ f ih =>
    intro i h
    simp only [dpChunksF]
    by_cases hi : i < words.length
    · rw [if_pos hi]
      have hk := dpGF_len_pos words lexicon mg (words.length - i)
        (words.length - i)
      simp only [List.flatten_cons]
      rw [ih (i + best_len words lexicon mg i) (by
        unfold best_len; omega)]
      have hdd : words.drop (i + best_len words lexicon mg i) =
          (words.drop i).drop (best_len words lexicon mg i) := by
        rw [List.drop_drop]
      rw [hdd, ← List.flatten_append, List.take_append_drop]
    · rw [if_neg hi]
      have : words.length ≤ i := by omega
      simp [List.drop_eq_nil_of_le this]

/-- Characters of the chosen groups come from the input words. -/
theorem dpChunksF_chars (words : List (List Char))
    (lexicon : List (List Char × ℕ)) (mg : ℕ)
    (hw : ∀ w ∈ words, ∀ c ∈ w, pyIsWs c = false) :
    ∀ f i, ∀ ch ∈ dpChunksF words lexicon mg f i, ∀ c ∈ ch,
      pyIsWs c = false := by
  intro f
  induction f with
  | zero => intro i ch hch; simp [dpChunksF] at hch
  | succ f ih =>
    intro i ch hch c hc
    simp only [dpChunksF] at hch
    by_cases hi : i < words.length
    · rw [if_pos hi] at hch
      rcases List.mem_cons.mp hch with rfl | hmem
      · rcases List.mem_flatten.mp hc with ⟨w, hwmem, hcw⟩
        exact hw w (List.mem_of_mem_drop (List.mem_of_mem_take hwmem)) c hcw
      · exact ih _ ch hmem c hc
    · rw [if_neg hi] at hch
      simp at hch

/-- Removing whitespace from a space-joined list of whitespace-free
chunks yields their plain concatenation. -/
theorem intersperse_filter (chunks : List (List Char))
    (h : ∀ ch ∈ chunks, ∀ c ∈ ch, pyIsWs c = false) :
    ((chunks.intersperse [' ']).flatten).filter (fun c => !pyIsWs c) =
      chunks.flatten := by
  induction chunks with
  | nil => rfl
  | cons ch tl ih =>
    cases tl with
    | nil =>
      simp only [List.intersperse_single, List.flatten_cons,
        List.flatten_nil, List.append_nil]
      exact List.filter_eq_self.mpr (fun c hc => by
        simp [h ch (by simp) c hc])
    | cons ch2 tl2 =>
      rw [List.intersperse_cons_cons]
      simp only [List.flatten_cons]
      rw [List.filter_append, List.filter_append]
      rw [List.filter_eq_self.mpr (fun c hc => by
        simp [h ch (by simp) c hc])]
      have hws : ([' '] : List Char).filter (fun c => !pyIsWs c) = [] := by
        decide
      rw [hws]
      rw [ih (fun g hg c hc => h g (List.mem_cons_of_mem ch hg) c hc)]
      simp [List.flatten_cons]

/-- Every run collected by the `WORD_RUN_RE` tail matcher consists of
word characters. -/
theorem wordGroupsF_words : ∀ (f : ℕ) (l : List Char),
    ∀ g ∈ (wordGroupsF f l).1, ∀ c ∈ g, isWordChar c = true := by
  intro f
  induction f with
  | zero => intro l g hg; simp [wordGroupsF] at hg
  | succ f ih =>
    intro l g hg c hc
    simp only [wordGroupsF] at hg
    split_ifs at hg with h1
    · simp at hg
    · revert hg
      split
      · intro hg; simp at hg
      · next c0 rest0 heq =>
        split_ifs with h2
        · intro hg
          rcases List.mem_cons.mp hg with rfl | hmem
          · exact List.mem_takeWhile_imp hc
          · exact ih _ g hmem c hc
        · intro hg; simp at hg

/-- Dropping whitespace from a text splits as the collected word runs
plus the whitespace-filtered remainder. -/
theorem wordGroupsF_filter : ∀ (f : ℕ) (l : List Char),
    l.filter (fun c => !pyIsWs c) =
      ((wordGroupsF f l).1).flatten ++
        ((wordGroupsF f l).2.filter (fun c => !pyIsWs c)) := by
  intro f
  induction f with
  | zero => intro l; rfl
  | succ f ih =>
    intro l
    simp only [wordGroupsF]
    split_ifs with h1
    · rfl
    · split
      · rfl
      · next c0 rest0 heq =>
        split_ifs with h2
        · have hws : (l.takeWhile pyIsWs).filter (fun c => !pyIsWs c) = [] := by
            rw [List.filter_eq_nil_iff]
            intro a ha
            simp [List.mem_takeWhile_imp ha]
          have hw : ((l.dropWhile pyIsWs).takeWhile isWordChar).filter
              (fun c => !pyIsWs c) =
              (l.dropWhile pyIsWs).takeWhile isWordChar := by
            rw [List.filter_eq_self]
            intro a ha
            simp [word_nonws a (List.mem_takeWhile_imp ha)]
          conv_lhs => rw [← List.takeWhile_append_dropWhile (p := pyIsWs)
            (l := l)]
          rw [List.filter_append, hws, List.nil_append]
          conv_lhs => rw [← List.takeWhile_append_dropWhile (p := isWordChar)
            (l := l.dropWhile pyIsWs)]
          rw [List.filter_append, hw]
          rw [ih ((l.dropWhile pyIsWs).dropWhile isWordChar)]
          simp [List.append_assoc]
        · rfl

/-- Whitespace removal turns the merger's output into the concatenation
of its input tokens (for whitespace-free tokens). -/
theorem fmw_despace (words : List (List Char))
    (lexicon : List (List Char × ℕ))
    (hw : ∀ w ∈ words, ∀ c ∈ w, pyIsWs c = false) :
    (fallback_merge_words words lexicon 5).filter (fun c => !pyIsWs c) =
      words.flatten := by
  unfold fallback_merge_words
  split_ifs with h
  · exact intersperse_filter words hw
  · rw [intersperse_filter _ (dpChunksF_chars words lexicon 5 hw
      words.length 0)]
    rw [dpChunksF_flatten words lexicon 5 words.length 0 (by omega)]
    simp

/-- The `WORD_RUN_RE` substitution of `fallback_clean_text` preserves the
non-whitespace character sequence. -/
theorem fct_filter (lexicon : List (List Char × ℕ)) : ∀ (f : ℕ) (l : List Char),
    (fallbackScanF lexicon f l).filter (fun c => !pyIsWs c) =
      l.filter (fun c => !pyIsWs c) := by
  intro f
  induction f with
  | zero => intro l; rfl
  | succ f ih =>
    intro l
    match l with
    | [] => rfl
    | c :: rest =>
      simp only [fallbackScanF]
      by_cases hc : isWordChar c
      · rw [if_pos hc]
        have hdec : c :: rest =
            (c :: rest.takeWhile isWordChar) ++ rest.dropWhile isWordChar := by
          rw [List.cons_append, List.takeWhile_append_dropWhile]
        have hw1 : ∀ a ∈ c :: rest.takeWhile isWordChar, isWordChar a = true := by
          intro a ha
          rcases List.mem_cons.mp ha with rfl | hmem
          · exact hc
          · exact List.mem_takeWhile_imp hmem
        cases hgs : (wordGroupsF (rest.dropWhile isWordChar).length
            (rest.dropWhile isWordChar)).1 with
        | nil =>
          rw [List.filter_append, ih]
          conv_rhs => rw [hdec]
          rw [List.filter_append]
        | cons g gtl =>
          rw [List.filter_append, ih]
          rw [fmw_despace ((c :: rest.takeWhile isWordChar) :: g :: gtl)
            lexicon (by
            intro w hwmem a ha
            rcases List.mem_cons.mp hwmem with rfl | hmem
            · exact word_nonws a (hw1 a ha)
            · exact word_nonws a (wordGroupsF_words _ _ w (by
                rw [hgs]; exact hmem) a ha))]
          conv_rhs => rw [hdec]
          rw [List.filter_append]
          rw [show (c :: rest.takeWhile isWordChar).filter
              (fun c => !pyIsWs c) = c :: rest.takeWhile isWordChar from
            List.filter_eq_self.mpr (fun a ha => by
              simp [word_nonws a (hw1 a ha)])]
          rw [wordGroupsF_filter (rest.dropWhile isWordChar).length
            (rest.dropWhile isWordChar), hgs]
          simp [List.append_assoc]
      · rw [if_neg hc]
        by_cases hws : pyIsWs c
        · simp only [List.filter_cons, hws]
          simpa using ih rest
        · simp only [List.filter_cons]
          rw [show (!pyIsWs c) = true from by simp [hws]]
          simpa using ih rest

/-- C8: (a) the string produced by `fallback_merge_words` on
whitespace-free tokens equals, after removing whitespace, the
concatenation of its tokens in order; (b) `fallback_clean_text` keeps the
non-whitespace character sequence of its input unchanged. -/
theorem claim_C8 (words : List (List Char)) (lexicon : List (List Char × ℕ))
    (text : List Char)
    (hw : ∀ w ∈ words, ∀ c ∈ w, pyIsWs c = false) :
    (fallback_merge_words words lexicon 5).filter (fun c => !pyIsWs c) =
      words.flatten ∧
    (fallback_clean_text text lexicon).filter (fun c => !pyIsWs c) =
      text.filter (fun c => !pyIsWs c) :=
  ⟨fmw_despace words lexicon hw, fct_filter lexicon text.length text⟩

set_option maxRecDepth 4000 in
/-- Witness for C8 on concrete tokens and text. -/
theorem claim_C8_witness :
    (∀ w ∈ [['k', 'a'], ['s', 'i', 'h']], ∀ c ∈ w, pyIsWs c = false) ∧
    (fallback_merge_words [['k', 'a'], ['s', 'i', 'h']] [(['k', 'a', 's', 'i', 'h'], 3)]
        5).filter (fun c => !pyIsWs c) =
      [['k', 'a'], ['s', 'i', 'h']].flatten ∧
    (fallback_clean_text ['k', 'a', ' ', 's', 'i', 'h', '.']
        [(['k', 'a', 's', 'i', 'h'], 3)]).filter (fun c => !pyIsWs c) =
      ['k', 'a', ' ', 's', 'i', 'h', '.'].filter (fun c => !pyIsWs c) :=
  ⟨by decide,
    claim_C8 [['k', 'a'], ['s', 'i', 'h']] [(['k', 'a', 's', 'i', 'h'], 3)]
      ['k', 'a', ' ', 's', 'i', 'h', '.'] (by decide)⟩

/-! ## Claim C5: helper lemmas -/

/-- Tokenization loses no character: the chunks concatenate back to the
input. -/
theorem tokenChunks_flatten : ∀ (f : ℕ) (l : List Char), l.length ≤ f →
    (tokenChunks f l).flatten = l := by
  intro f
  induction f with
  | zero =>
    intro l h
    cases l with
    | nil => rfl
    | cons c rest => simp at h
  | succ f ih =>
    intro l h
    cases l with
    | nil => rfl
    | cons c rest =>
      simp only [tokenChunks, List.flatten_cons]
      rw [ih _ (by
        have := (List.dropWhile_sublist (l := rest)
          (p := fun d => isWordChar d == isWordChar c)).length_le
        simp only [List.length_cons] at h
        omega)]
      rw [List.cons_append, List.takeWhile_append_dropWhile]

/-- Characters of split tokens come from the input. -/
theorem split_tokens_chars (l : List Char) (t : List Char)
    (ht : t ∈ split_tokens l) : ∀ c ∈ t, c ∈ l := by
  intro c hc
  have : c ∈ (tokenChunks l.length l).flatten :=
    List.mem_flatten.mpr ⟨t, ht, hc⟩
  rwa [tokenChunks_flatten l.length l le_rfl] at this

/-- A `getD` lookup in a list of lists is the default or a member. -/
theorem getD_mem_or_nil (l : List (List Char)) (i : ℕ) :
    l.getD i [] = [] ∨ l.getD i [] ∈ l := by
  by_cases h : i < l.length
  · right
    rw [List.getD_eq_getElem l [] h]
    exact List.getElem_mem h
  · left
    exact List.getD_eq_default l [] (by omega)

/-- The merge loop introduces no character outside the input words and
the running token list. -/
theorem mergeLoopF_chars (S : Char → Prop) (keep : List Bool)
    (wIdx : List ℕ) (words : List (List Char))
    (hwords : ∀ w ∈ words, ∀ c ∈ w, S c) :
    ∀ (f : ℕ) (out : List (List Char)) (wi : ℕ),
      (∀ t ∈ out, ∀ c ∈ t, S c) →
      ∀ t ∈ mergeLoopF f keep wIdx words out wi, ∀ c ∈ t, S c := by
  intro f
  induction f with
  | zero => intro out wi hout; exact hout
  | succ f ih =>
    intro out wi hout
    simp only [mergeLoopF]
    split_ifs with hi
    · apply ih
      -- invariant through out1, out2, out3
      have hmerged : ∀ c ∈ ((List.range' wi
          (extendJF words.length keep words.length wi - wi + 1)).map
            (fun t => words.getD t [])).flatten, S c := by
        intro c hc
        rcases List.mem_flatten.mp hc with ⟨w, hw, hcw⟩
        rcases List.mem_map.mp hw with ⟨j, _, rfl⟩
        rcases getD_mem_or_nil words j with hnil | hmem
        · rw [hnil] at hcw; simp at hcw
        · exact hwords _ hmem c hcw
      have h1 : ∀ t ∈ out.set (wIdx.getD wi 0)
          (((List.range' wi
            (extendJF words.length keep words.length wi - wi + 1)).map
              (fun t => words.getD t [])).flatten), ∀ c ∈ t, S c := by
        intro t ht c hc
        rcases List.mem_or_eq_of_mem_set ht with hmem | rfl
        · exact hout t hmem c hc
        · exact hmerged c hc
      have h2 : ∀ t ∈ (List.range' (wi + 1)
          (extendJF words.length keep words.length wi - wi)).foldl
            (fun o t => o.set (wIdx.getD t 0) [])
            (out.set (wIdx.getD wi 0)
              (((List.range' wi
                (extendJF words.length keep words.length wi - wi + 1)).map
                  (fun t => words.getD t [])).flatten)),
          ∀ c ∈ t, S c := by
        apply foldl_preserve (fun o => ∀ t ∈ o, ∀ c ∈ t, S c)
        · exact h1
        · intro o j _ ho t ht c hc
          rcases List.mem_or_eq_of_mem_set ht with hmem | rfl
          · exact ho t hmem c hc
          · simp at hc
      apply foldl_preserve (fun o => ∀ t ∈ o, ∀ c ∈ t, S c)
      · exact h2
      · intro o k _ ho
        apply foldl_preserve (fun o => ∀ t ∈ o, ∀ c ∈ t, S c)
        · exact ho
        · intro o2 ti _ ho2
          split_ifs
          · intro t ht c hc
            rcases List.mem_or_eq_of_mem_set ht with hmem | rfl
            · exact ho2 t hmem c hc
            · simp at hc
          · exact ho2
    · exact hout

/-- C5: the output of `project_boundaries` contains only characters of
the corrupted input text. -/
theorem claim_C5 (a b : List Char) :
    ∀ c ∈ project_boundaries a b, c ∈ a := by
  intro c hc
  simp only [project_boundaries] at hc
  split_ifs at hc with h
  · exact hc
  · rcases List.mem_flatten.mp hc with ⟨t, ht, hct⟩
    have hwords : ∀ w ∈ (build_stream a).words, ∀ c ∈ w, c ∈ a := by
      intro w hw c hcw
      simp only [build_stream] at hw
      rcases List.mem_map.mp hw with ⟨p, hp, rfl⟩
      have hp2 := List.mem_of_mem_filter hp
      have := List.snd_mem_of_mem_enum hp2
      exact split_tokens_chars a p.2 this c hcw
    have htoks : ∀ t ∈ (build_stream a).tokens, ∀ c ∈ t, c ∈ a := by
      intro t ht c hct
      simp only [build_stream] at ht
      exact split_tokens_chars a t ht c hct
    exact mergeLoopF_chars (fun c => c ∈ a) _ _ _ hwords _ _ 0 htoks t ht c hct

set_option maxRecDepth 10000 in
/-- Witness for C5 at a concrete merged output character. -/
theorem claim_C5_witness :
    'a' ∈ project_boundaries ['a', ' ', 'b'] ['a', 'b'] ∧
    'a' ∈ ['a', ' ', 'b'] :=
  ⟨by decide, claim_C5 ['a', ' ', 'b'] ['a', 'b'] 'a' (by decide)⟩

/-! ## Claim C4: helper lemmas -/

/-- Setting an entry to its current value changes nothing. -/
theorem set_getElem_eq (l : List (List Char)) (i : ℕ) (x : List Char)
    (h : l[i]? = some x) : l.set i x = l := by
  induction l generalizing i with
  | nil => simp at h
  | cons a tl ih =>
    cases i with
    | zero => simp at h; simp [List.set, h]
    | succ j => simp at h; simp [List.set, ih j h]

/-- `getD` on a `replicate` is the replicated value or the (equal)
default. -/
theorem replicate_getD {α : Type} (n i : ℕ) (x : α) :
    (List.replicate n x).getD i x = x := by
  by_cases h : i < n
  · rw [List.getD_eq_getElem _ _ (by simpa using h)]
    simp
  · exact List.getD_eq_default _ _ (by simpa using h)

/-- Character lists with no common member have no common prefix run. -/
theorem commonRunLen_zero (a b : List Char) (h : ∀ c ∈ a, c ∉ b) :
    commonRunLen a b = 0 := by
  cases a with
  | nil => rfl
  | cons x as =>
    cases b with
    | nil => rfl
    | cons y bs =>
      simp only [commonRunLen]
      rw [if_neg]
      intro hxy
      subst hxy
      exact h x (by simp) (by simp)

/-- When every pairwise run is empty, the longest match is the zero
triple. -/
theorem findLongestMatch_zero (a b : List Char)
    (h : ∀ c ∈ a, c ∉ b) : findLongestMatch a b = (0, 0, 0) := by
  unfold findLongestMatch
  apply foldl_preserve (fun best : ℕ × ℕ × ℕ => best = (0, 0, 0))
  · rfl
  · intro best i _ hb
    apply foldl_preserve (fun best : ℕ × ℕ × ℕ => best = (0, 0, 0))
    · exact hb
    · intro best2 j _ hb2
      dsimp only
      rw [commonRunLen_zero _ _ (fun c hc hcb =>
        h c (List.mem_of_mem_drop hc) (List.mem_of_mem_drop hcb))]
      simpa using hb2

/-- Disjoint streams produce no matching block. -/
theorem matchingBlocks_nil (a b : List Char) (h : ∀ c ∈ a, c ∉ b) :
    matchingBlocks a b = [] := by
  unfold matchingBlocks matchingBlocksF
  rw [findLongestMatch_zero a b h]
  simp

/-- The map built from no blocks is everywhere undefined. -/
theorem buildMap_nil (n i : ℕ) :
    (buildMap [] n).getD i none = none := by
  unfold buildMap
  simp only [List.foldl_nil]
  exact replicate_getD n i none

/-- A gap whose neighborhood is unmapped is kept. -/
theorem keepList_unmappable (boundaries : List ℕ) (nWords : ℕ)
    (m : List (Option ℕ)) (refB : List ℕ) (i : ℕ) (hi : i < nWords - 1)
    (h1 : (if 1 ≤ boundaries.getD i 0 then
      m.getD (boundaries.getD i 0 - 1) none else none) = none)
    (h2 : (if boundaries.getD i 0 < m.length then
      m.getD (boundaries.getD i 0) none else none) = none) :
    (keepList boundaries nWords m refB).getD i false = true := by
  unfold keepList
  rw [List.getD_eq_getElem _ _ (by simpa using hi)]
  rw [List.getElem_map]
  simp only [List.getElem_range]
  rw [h1, h2]

/-- With an everywhere-undefined map, every gap is kept. -/
theorem keepList_all_true (boundaries : List ℕ) (nWords n : ℕ)
    (refB : List ℕ) :
    keepList boundaries nWords (List.replicate n none) refB =
      List.replicate (nWords - 1) true := by
  unfold keepList
  rw [List.eq_replicate_iff]
  refine ⟨by simp, ?_⟩
  intro x hx
  rcases List.mem_map.mp hx with ⟨i, _, rfl⟩
  simp only [replicate_getD, ite_self]

/-- With all gaps kept, the inner extension loop stops immediately. -/
theorem extendJF_id (k : ℕ) (nw : ℕ) :
    ∀ f wj, extendJF f (List.replicate k true) nw wj = wj := by
  intro f wj
  cases f with
  | zero => rfl
  | succ f =>
    simp only [extendJF]
    rw [if_neg]
    intro hcl
    have := hcl.2
    rw [replicate_getD] at this
    simp at this

/-- With all gaps kept, the merge loop rewrites every word slot with its
own word and changes nothing. -/
theorem mergeLoopF_id (tokens words : List (List Char)) (wIdx : List ℕ)
    (k : ℕ)
    (hrel : ∀ i, i < words.length →
      tokens[wIdx.getD i 0]? = some (words.getD i [])) :
    ∀ (f : ℕ) (wi : ℕ),
      mergeLoopF f (List.replicate k true) wIdx words tokens wi = tokens := by
  intro f
  induction f with
  | zero => intro wi; rfl
  | succ f ih =>
    intro wi
    simp only [mergeLoopF]
    split_ifs with hi
    · rw [extendJF_id]
      simp only [Nat.sub_self, List.range'_zero, List.range'_one,
        Nat.zero_add, List.map_cons, List.map_nil, List.flatten_cons,
        List.flatten_nil, List.append_nil, List.foldl_nil]
      rw [set_getElem_eq _ _ _ (hrel wi hi)]
      exact ih (wi + 1)
    · rfl

/-- Every word of the stream record sits at its recorded token index. -/
theorem build_stream_rel (a : List Char) :
    ∀ i, i < (build_stream a).words.length →
      (build_stream a).tokens[(build_stream a).wordIdx.getD i 0]? =
        some ((build_stream a).words.getD i []) := by
  intro i hi
  simp only [build_stream] at hi ⊢
  have hi' : i < ((split_tokens a).enum.filter
      (fun p => is_word_token p.2)).length := by
    simpa using hi
  rw [List.getD_eq_getElem _ _ (by simpa using hi'), List.getElem_map]
  rw [List.getD_eq_getElem _ _ (by simpa using hi'), List.getElem_map]
  exact List.mem_enum_iff_getElem?.mp
    (List.mem_of_mem_filter (List.getElem_mem hi'))

/-- Every stream character is the lowercase form of a letter of the
text. -/
theorem build_stream_chars (a : List Char) :
    ∀ x ∈ (build_stream a).stream,
      ∃ c ∈ a, isLetterChar c = true ∧ x = pyLowerChar c := by
  intro x hx
  simp only [build_stream] at hx
  rcases List.mem_flatten.mp hx with ⟨nw, hnw, hxn⟩
  rcases List.mem_map.mp hnw with ⟨w, hw, rfl⟩
  unfold word_norm at hxn
  rcases List.mem_map.mp hxn with ⟨c, hcf, rfl⟩
  have hc := List.mem_filter.mp hcf
  refine ⟨c, ?_, hc.2, rfl⟩
  rcases List.mem_map.mp hw with ⟨p, hp, rfl⟩
  exact split_tokens_chars a p.2
    (List.snd_mem_of_mem_enum (List.mem_of_mem_filter hp)) c hc.1

/-- A reference sharing no letters with the corrupted text leaves it
unchanged. -/
theorem project_boundaries_id (a b : List Char)
    (hdisj : ∀ c ∈ a, ∀ d ∈ b, isLetterChar c = true →
      isLetterChar d = true → pyLowerChar c ≠ pyLowerChar d) :
    project_boundaries a b = a := by
  simp only [project_boundaries]
  split_ifs with h
  · rfl
  · have hstr : ∀ x ∈ (build_stream a).stream,
        x ∉ (build_stream b).stream := by
      intro x hxa hxb
      rcases build_stream_chars a x hxa with ⟨c, hca, hcl, rfl⟩
      rcases build_stream_chars b _ hxb with ⟨d, hdb, hdl, heq⟩
      exact hdisj c hca d hdb hcl hdl heq
    rw [matchingBlocks_nil _ _ hstr]
    rw [show buildMap [] (build_stream a).stream.length =
        List.replicate (build_stream a).stream.length none from by
      unfold buildMap; simp]
    rw [keepList_all_true]
    rw [mergeLoopF_id _ _ _ _ (build_stream_rel a)]
    simp only [build_stream]
    exact tokenChunks_flatten _ _ le_rfl

/-- C4: (a) a gap whose boundary maps to no reference offset (neither the
character before it nor the one after it lies in a matching block) is
kept; (b) a reference text sharing no letters with the corrupted text
leaves `project_boundaries` an identity. -/
theorem claim_C4 :
    (∀ (boundaries : List ℕ) (nWords : ℕ) (m : List (Option ℕ))
        (refB : List ℕ) (i : ℕ), i < nWords - 1 →
      (if 1 ≤ boundaries.getD i 0 then
        m.getD (boundaries.getD i 0 - 1) none else none) = none →
      (if boundaries.getD i 0 < m.length then
        m.getD (boundaries.getD i 0) none else none) = none →
      (keepList boundaries nWords m refB).getD i false = true) ∧
    ∀ (a b : List Char),
      (∀ c ∈ a, ∀ d ∈ b, isLetterChar c = true → isLetterChar d = true →
        pyLowerChar c ≠ pyLowerChar d) →
      project_boundaries a b = a :=
  ⟨fun boundaries nWords m refB i hi h1 h2 =>
      keepList_unmappable boundaries nWords m refB i hi h1 h2,
    fun a b h => project_boundaries_id a b h⟩

set_option maxRecDepth 10000 in
/-- Witness for C4: an unmapped gap defaults to keep, and a letter-free
overlap leaves the text unchanged. -/
theorem claim_C4_witness :
    ((0 : ℕ) < 2 - 1 ∧
      (if 1 ≤ ([5] : List ℕ).getD 0 0 then
        (List.replicate 6 (none : Option ℕ)).getD
          (([5] : List ℕ).getD 0 0 - 1) none else none) = none ∧
      (if ([5] : List ℕ).getD 0 0 <
          (List.replicate 6 (none : Option ℕ)).length then
        (List.replicate 6 (none : Option ℕ)).getD
          (([5] : List ℕ).getD 0 0) none else none) = none ∧
      (keepList [5] 2 (List.replicate 6 none) []).getD 0 false = true) ∧
    (∀ c ∈ ['a', ' ', 'b'], ∀ d ∈ ['x', 'y'], isLetterChar c = true →
      isLetterChar d = true → pyLowerChar c ≠ pyLowerChar d) ∧
    project_boundaries ['a', ' ', 'b'] ['x', 'y'] = ['a', ' ', 'b'] :=
  ⟨⟨by decide, by decide, by decide,
      claim_C4.1 [5] 2 (List.replicate 6 none) [] 0 (by decide) (by decide)
        (by decide)⟩,
    by decide,
    claim_C4.2 ['a', ' ', 'b'] ['x', 'y'] (by decide)⟩

/-! ## Claim C3: the dynamic program as a partition optimizer

A partition of the word run is a plan: the list of its group lengths,
left to right. `planScore` is the total of the groups' scores,
`validPlan` the coverage and length-cap condition of the loops of
`fallback_merge_words`, and `planOK` says no multi-token group of the
plan is rejected by the `score <= -9990` skip (single-token groups score
at least `-10` and can never be rejected). -/

/-- Total score of a plan starting at word index `i`. -/
noncomputable def planScore (words : List (List Char))
    (lexicon : List (List Char × ℕ)) : List ℕ → ℕ → ℝ
  | [], _ => 0
  | k :: ks, i =>
    fallback_group_score ((words.drop i).take k) lexicon +
      planScore words lexicon ks (i + k)

/-- A plan of group lengths in `[1, mg]` covering positions `i` to `n`
exactly. -/
def validPlan (mg n : ℕ) : List ℕ → ℕ → Prop
  | [], i => i = n
  | k :: ks, i => 1 ≤ k ∧ k ≤ mg ∧ i + k ≤ n ∧ validPlan mg n ks (i + k)

/-- No multi-token group of the plan is rejected by the scorer. -/
noncomputable def planOK (words : List (List Char))
    (lexicon : List (List Char × ℕ)) : List ℕ → ℕ → Prop
  | [], _ => True
  | k :: ks, i =>
    (2 ≤ k → (-9990 : ℝ) <
      fallback_group_score ((words.drop i).take k) lexicon) ∧
    planOK words lexicon ks (i + k)

/-- The group lengths the DP reconstruction loop follows. -/
noncomputable def dpPlanF (words : List (List Char))
    (lexicon : List (List Char × ℕ)) (mg : ℕ) : ℕ → ℕ → List ℕ
  | 0, _ => []
  | f + 1, i =>
    if i < words.length then
      best_len words lexicon mg i ::
        dpPlanF words lexicon mg f (i + best_len words lexicon mg i)
    else []

/-- The joined groups a plan denotes. -/
def chunksOfPlan (words : List (List Char)) : List ℕ → ℕ → List (List Char)
  | [], _ => []
  | k :: ks, i =>
    ((words.drop i).take k).flatten :: chunksOfPlan words ks (i + k)

/-- The reconstruction loop emits exactly the chunks of its plan. -/
theorem dpChunksF_eq_plan (words : List (List Char))
    (lexicon : List (List Char × ℕ)) (mg : ℕ) :
    ∀ f i, dpChunksF words lexicon mg f i =
      chunksOfPlan words (dpPlanF words lexicon mg f i) i := by
  intro f
  induction f with
  | zero => intro i; rfl
  | succ f ih =>
    intro i
    simp only [dpChunksF, dpPlanF]
    split_ifs with hi
    · simp only [chunksOfPlan, ih]
    · rfl

/-- Every token score is at least `-10`. -/
theorem token_score_ge (t : List Char) (lexicon : List (List Char × ℕ)) :
    (-10 : ℝ) ≤ token_score t lexicon := by
  simp only [token_score]
  split_ifs with h1 h2 h3 h4
  · norm_num
  · have hlog : 0 ≤ Real.logb 10
        ((lexGet lexicon (t.map pyLowerChar) : ℝ) + 1) :=
      Real.logb_nonneg (by norm_num) (by
        have hc : (0 : ℝ) ≤ (lexGet lexicon (t.map pyLowerChar) : ℝ) :=
          Nat.cast_nonneg _
        linarith)
    nlinarith
  · norm_num
  · norm_num
  · norm_num

/-- A singleton group scores exactly its token. -/
theorem fgs_single (w : List Char) (lexicon : List (List Char × ℕ)) :
    fallback_group_score [w] lexicon = token_score w lexicon := by
  unfold fallback_group_score
  rw [if_pos (by simp)]
  rfl

/-- Any length-one group scores at least `-10`, so the skip never fires
on it. -/
theorem fgs_len1_ge (l : List (List Char)) (lexicon : List (List Char × ℕ))
    (h : l.length = 1) : (-10 : ℝ) ≤ fallback_group_score l lexicon := by
  match l, h with
  | [w], _ => rw [fgs_single]; exact token_score_ge w lexicon

/-- The inner loop of the DP as an explicit fold (the equation of
`dpGF` at successor fuel and distance). -/
theorem dpGF_succ (words : List (List Char)) (lexicon : List (List Char × ℕ))
    (mg f d : ℕ) :
    dpGF words lexicon mg (f + 1) (d + 1) =
      (List.range' 1 (min mg (d + 1))).foldl (fun best k =>
        let score := fallback_group_score
          ((words.drop (words.length - (d + 1))).take k) lexicon
        if score ≤ -9990 then best
        else
          let total := score + (dpGF words lexicon mg f (d + 1 - k)).1
          if best.1 < total then (total, k) else best) (-10000, 1) := rfl

/-- Monotone folds only raise their first component. -/
theorem foldl_fst_le {β : Type} (g : ℝ × ℕ → β → ℝ × ℕ)
    (hmono : ∀ a b, a.1 ≤ (g a b).1) :
    ∀ (l : List β) (init : ℝ × ℕ), init.1 ≤ (l.foldl g init).1 := by
  intro l
  induction l with
  | nil => intro init; exact le_refl _
  | cons x xs ih =>
    intro init
    exact le_trans (hmono init x) (ih (g init x))

/-- A monotone fold dominates any bound one of its steps establishes. -/
theorem foldl_ge_elem {β : Type} (g : ℝ × ℕ → β → ℝ × ℕ)
    (hmono : ∀ a b, a.1 ≤ (g a b).1) (X : ℝ) (b : β)
    (hX : ∀ a, X ≤ (g a b).1) :
    ∀ (l : List β) (init : ℝ × ℕ), b ∈ l → X ≤ (l.foldl g init).1 := by
  intro l
  induction l with
  | nil => intro init hb; simp at hb
  | cons x xs ih =>
    intro init hb
    rcases List.mem_cons.mp hb with rfl | hmem
    · exact le_trans (hX init) (foldl_fst_le g hmono xs (g init b))
    · exact ih (g init x) hmem

/-- Each step of the DP fold only raises the running best score. -/
theorem dp_step_mono (words : List (List Char))
    (lexicon : List (List Char × ℕ)) (mg f d : ℕ) :
    ∀ (a : ℝ × ℕ) (k : ℕ), a.1 ≤ ((fun (best : ℝ × ℕ) k =>
      let score := fallback_group_score
        ((words.drop (words.length - (d + 1))).take k) lexicon
      if score ≤ -9990 then best
      else
        let total := score + (dpGF words lexicon mg f (d + 1 - k)).1
        if best.1 < total then (total, k) else best) a k).1 := by
  intro a k
  dsimp only
  split_ifs with h1 h2
  · exact le_refl _
  · exact le_of_lt h2
  · exact le_refl _

/-- The DP entry does not depend on surplus fuel. -/
theorem dpGF_fuel (words : List (List Char)) (lexicon : List (List Char × ℕ))
    (mg : ℕ) : ∀ d f, d ≤ f →
      dpGF words lexicon mg f d = dpGF words lexicon mg d d := by
  intro d
  induction d using Nat.strong_induction_on with
  | _ d ih =>
    intro f hf
    match d, f with
    | 0, f => cases f <;> rfl
    | d + 1, 0 => omega
    | d + 1, f + 1 =>
      rw [dpGF_succ, dpGF_succ]
      apply List.foldl_ext
      intro a k hk
      have hk1 : 1 ≤ k ∧ k ≤ min mg (d + 1) := by
        obtain ⟨j, hj, rfl⟩ := List.mem_range'.mp hk
        omega
      dsimp only
      rw [ih (d + 1 - k) (by omega) f (by omega),
        ih (d + 1 - k) (by omega) d (by omega)]

/-- Upper bound: the DP value at `i` dominates the score of every valid,
non-rejected plan from `i`. -/
theorem best_score_ub (words : List (List Char))
    (lexicon : List (List Char × ℕ)) (mg : ℕ) :
    ∀ (plan : List ℕ) (i : ℕ), validPlan mg words.length plan i →
      planOK words lexicon plan i →
      planScore words lexicon plan i ≤ best_score words lexicon mg i := by
  intro plan
  induction plan with
  | nil =>
    intro i hv _
    have hi : i = words.length := hv
    subst hi
    unfold best_score
    rw [Nat.sub_self]
    simp [dpGF, planScore]
  | cons k ks ih =>
    intro i hv hok
    obtain ⟨hk1, hkmg, hkn, hvrest⟩ := hv
    obtain ⟨hokk, hokrest⟩ := hok
    have hin : i < words.length := by omega
    have hd : words.length - i = (words.length - i - 1) + 1 := by omega
    unfold best_score
    rw [hd, dpGF_succ]
    simp only [show words.length - (words.length - i - 1 + 1) = i from by
      omega]
    simp only [planScore]
    have hscore : ¬ (fallback_group_score ((words.drop i).take k) lexicon ≤
        -9990) := by
      rcases Nat.lt_or_ge k 2 with hk2 | hk2
      · have hk1' : k = 1 := by omega
        subst hk1'
        have hlen : ((words.drop i).take 1).length = 1 := by
          simp [List.length_take, List.length_drop]
          omega
        have := fgs_len1_ge _ lexicon hlen
        intro hle
        linarith
      · intro hle
        linarith [hokk hk2]
    apply foldl_ge_elem _ ?hmono _ k ?hX _ _ ?hmem
    case hmono =>
      intro a b
      dsimp only
      split_ifs with h1 h2
      · exact le_refl _
      · exact le_of_lt h2
      · exact le_refl _
    case hX =>
      intro a
      dsimp only
      rw [if_neg hscore]
      have htot : fallback_group_score ((words.drop i).take k) lexicon +
          planScore words lexicon ks (i + k) ≤
          fallback_group_score ((words.drop i).take k) lexicon +
          (dpGF words lexicon mg (words.length - i - 1)
            (words.length - i - 1 + 1 - k)).1 := by
        have hfu : dpGF words lexicon mg (words.length - i - 1)
            (words.length - i - 1 + 1 - k) =
            dpGF words lexicon mg (words.length - (i + k))
              (words.length - (i + k)) := by
          rw [show words.length - i - 1 + 1 - k = words.length - (i + k)
            from by omega]
          exact dpGF_fuel words lexicon mg _ _ (by omega)
        rw [hfu]
        have := ih (i + k) hvrest hokrest
        unfold best_score at this
        linarith
      split_ifs with h2
      · exact htot
      · push_neg at h2
        linarith
    case hmem =>
      refine List.mem_range'.mpr ⟨k - 1, by omega, by omega⟩

/-- The all-singletons plan is valid. -/
theorem validPlan_singles (mg n : ℕ) (hmg : 1 ≤ mg) :
    ∀ m i, i + m = n → validPlan mg n (List.replicate m 1) i := by
  intro m
  induction m with
  | zero => intro i h; simpa [validPlan] using h
  | succ m ih =>
    intro i h
    exact ⟨le_refl 1, hmg, by omega, ih (i + 1) (by omega)⟩

/-- The all-singletons plan is never rejected. -/
theorem planOK_singles (words : List (List Char))
    (lexicon : List (List Char × ℕ)) :
    ∀ m i, planOK words lexicon (List.replicate m 1) i := by
  intro m
  induction m with
  | zero => intro i; trivial
  | succ m ih =>
    intro i
    exact ⟨fun h => absurd h (by norm_num), ih (i + 1)⟩

/-- The all-singletons plan scores at least `-10` per word. -/
theorem planScore_singles_ge (words : List (List Char))
    (lexicon : List (List Char × ℕ)) :
    ∀ m i, i + m ≤ words.length →
      (-10 : ℝ) * m ≤ planScore words lexicon (List.replicate m 1) i := by
  intro m
  induction m with
  | zero => intro i _; simp [planScore]
  | succ m ih =>
    intro i h
    simp only [List.replicate_succ, planScore]
    have hlen : ((words.drop i).take 1).length = 1 := by
      simp [List.length_take, List.length_drop]
      omega
    have h1 := fgs_len1_ge _ lexicon hlen
    have h2 := ih (i + 1) (by omega)
    push_cast
    nlinarith

/-- For at most 999 words the `-10000.0` initialization never masks a
real value: every DP entry strictly exceeds it. -/
theorem best_score_noclip (words : List (List Char))
    (lexicon : List (List Char × ℕ)) (mg : ℕ) (hmg : 1 ≤ mg)
    (hn : words.length ≤ 999) :
    ∀ i ≤ words.length,
      (-10000 : ℝ) < best_score words lexicon mg i := by
  intro i hi
  have hv := validPlan_singles mg words.length hmg (words.length - i) i
    (by omega)
  have hok := planOK_singles words lexicon (words.length - i) i
  have hub := best_score_ub words lexicon mg _ i hv hok
  have hlb := planScore_singles_ge words lexicon (words.length - i) i
    (by omega)
  have hsmall : ((words.length - i : ℕ) : ℝ) ≤ 999 := by
    exact_mod_cast Nat.le_trans (by omega) hn
  nlinarith

/-- Lower bound: when no entry is clipped, the DP plan is valid, never
rejected, and attains the DP value. -/
theorem dp_plan_achieves (words : List (List Char))
    (lexicon : List (List Char × ℕ)) (mg : ℕ)
    (hnoclip : ∀ i ≤ words.length,
      (-10000 : ℝ) < best_score words lexicon mg i) :
    ∀ d, d ≤ words.length → ∀ f, d ≤ f →
      validPlan mg words.length
        (dpPlanF words lexicon mg f (words.length - d))
        (words.length - d) ∧
      planOK words lexicon
        (dpPlanF words lexicon mg f (words.length - d))
        (words.length - d) ∧
      planScore words lexicon
        (dpPlanF words lexicon mg f (words.length - d))
        (words.length - d) =
        best_score words lexicon mg (words.length - d) := by
  intro d
  induction d using Nat.strong_induction_on with
  | _ d ih =>
    intro hdn f hdf
    cases d with
    | zero =>
      have hplan : dpPlanF words lexicon mg f (words.length - 0) = [] := by
        cases f with
        | zero => rfl
        | succ f' => simp [dpPlanF]
      rw [hplan]
      refine ⟨by simp [validPlan], trivial, ?_⟩
      unfold best_score
      rw [Nat.sub_zero, Nat.sub_self]
      simp [dpGF, planScore]
    | succ d' =>
      have hin : words.length - (d' + 1) < words.length := by omega
      have hsel : dpGF words lexicon mg (d' + 1) (d' + 1) = (-10000, 1) ∨
          ∃ k, (1 ≤ k ∧ k ≤ min mg (d' + 1)) ∧
            ¬(fallback_group_score
              ((words.drop (words.length - (d' + 1))).take k) lexicon ≤
                -9990) ∧
            dpGF words lexicon mg (d' + 1) (d' + 1) =
              (fallback_group_score
                ((words.drop (words.length - (d' + 1))).take k) lexicon +
                (dpGF words lexicon mg d' (d' + 1 - k)).1, k) := by
        rw [dpGF_succ]
        apply foldl_preserve (fun r : ℝ × ℕ => r = (-10000, 1) ∨
          ∃ k, (1 ≤ k ∧ k ≤ min mg (d' + 1)) ∧
            ¬(fallback_group_score
              ((words.drop (words.length - (d' + 1))).take k) lexicon ≤
                -9990) ∧
            r = (fallback_group_score
              ((words.drop (words.length - (d' + 1))).take k) lexicon +
              (dpGF words lexicon mg d' (d' + 1 - k)).1, k))
        · left; rfl
        · intro a b hb ha
          dsimp only
          split_ifs with h1 h2
          · exact ha
          · right
            obtain ⟨j, hj, rfl⟩ := List.mem_range'.mp hb
            exact ⟨1 + 1 * j, ⟨by omega, by omega⟩, h1, rfl⟩
          · exact ha
      have hnz := hnoclip (words.length - (d' + 1)) (by omega)
      unfold best_score at hnz
      rw [show words.length - (words.length - (d' + 1)) = d' + 1 from by
        omega] at hnz
      rcases hsel with hinit | ⟨k, ⟨hk1, hkm⟩, hnskip, heq⟩
      · rw [hinit] at hnz
        norm_num at hnz
      · have hfu : dpGF words lexicon mg d' (d' + 1 - k) =
            dpGF words lexicon mg (d' + 1 - k) (d' + 1 - k) :=
          dpGF_fuel words lexicon mg _ _ (by omega)
        have hik : words.length - (d' + 1) + k =
            words.length - (d' + 1 - k) := by omega
        cases f with
        | zero => omega
        | succ f' =>
          have hbl : best_len words lexicon mg (words.length - (d' + 1)) =
              k := by
            unfold best_len
            rw [show words.length - (words.length - (d' + 1)) = d' + 1 from
              by omega, heq]
          have hplan : dpPlanF words lexicon mg (f' + 1)
              (words.length - (d' + 1)) =
              k :: dpPlanF words lexicon mg f'
                (words.length - (d' + 1) + k) := by
            simp only [dpPlanF]
            rw [if_pos hin, hbl]
          obtain ⟨ihv, ihok, ihs⟩ := ih (d' + 1 - k) (by omega) (by omega)
            f' (by omega)
          rw [hplan]
          refine ⟨⟨hk1, by omega, by omega, ?_⟩,
            ⟨fun _ => lt_of_not_le hnskip, ?_⟩, ?_⟩
          · rw [hik]
            exact ihv
          · rw [hik]
            exact ihok
          · simp only [planScore]
            rw [hik, ihs]
            unfold best_score
            rw [show words.length - (words.length - (d' + 1)) = d' + 1 from
              by omega, heq]
            rw [show words.length - (words.length - (d' + 1 - k)) =
              d' + 1 - k from by omega]
            rw [hfu]

/-- C3 (amended): for word runs of at most 999 tokens the partition the
DP follows scores at least as well as every valid partition whose
multi-token groups the scorer does not reject, and (for runs of at least
two words) `fallback_merge_words` returns exactly that partition's
space-joined groups.  (As stated, for arbitrary lengths, the claim is
false: the `-10000.0` initialization clips real totals from about 4000
words on — see the counterexample.) -/
theorem claim_C3 (words : List (List Char)) (lexicon : List (List Char × ℕ))
    (plan : List ℕ) (hn : words.length ≤ 999)
    (hvalid : validPlan 5 words.length plan 0)
    (hok : planOK words lexicon plan 0) :
    planScore words lexicon plan 0 ≤
      planScore words lexicon (dpPlanF words lexicon 5 words.length 0) 0 ∧
    (2 ≤ words.length →
      fallback_merge_words words lexicon 5 =
        ((chunksOfPlan words
          (dpPlanF words lexicon 5 words.length 0) 0).intersperse
            [' ']).flatten) := by
  have hnoclip := best_score_noclip words lexicon 5 (by norm_num) hn
  have hach := dp_plan_achieves words lexicon 5 hnoclip words.length le_rfl
    words.length le_rfl
  rw [Nat.sub_self] at hach
  constructor
  · rw [hach.2.2]
    exact best_score_ub words lexicon 5 plan 0 hvalid hok
  · intro h2
    unfold fallback_merge_words
    rw [if_neg (by omega)]
    rw [dpChunksF_eq_plan]

/-- Witness for C3 on a two-word run against the singleton plan. -/
theorem claim_C3_witness :
    ([['a'], ['b']] : List (List Char)).length ≤ 999 ∧
    validPlan 5 ([['a'], ['b']] : List (List Char)).length [1, 1] 0 ∧
    planOK [['a'], ['b']] [] [1, 1] 0 ∧
    (planScore [['a'], ['b']] [] [1, 1] 0 ≤
      planScore [['a'], ['b']] []
        (dpPlanF [['a'], ['b']] [] 5
          ([['a'], ['b']] : List (List Char)).length 0) 0 ∧
      (2 ≤ ([['a'], ['b']] : List (List Char)).length →
        fallback_merge_words [['a'], ['b']] [] 5 =
          ((chunksOfPlan [['a'], ['b']]
            (dpPlanF [['a'], ['b']] [] 5
              ([['a'], ['b']] : List (List Char)).length 0) 0).intersperse
                [' ']).flatten)) :=
  ⟨by norm_num,
    ⟨le_refl 1, by norm_num, by norm_num,
      ⟨le_refl 1, by norm_num, by norm_num, rfl⟩⟩,
    ⟨fun h => absurd h (by norm_num),
      ⟨fun h => absurd h (by norm_num), trivial⟩⟩,
    claim_C3 [['a'], ['b']] [] [1, 1] (by norm_num)
      ⟨le_refl 1, by norm_num, by norm_num,
        ⟨le_refl 1, by norm_num, by norm_num, rfl⟩⟩
      ⟨fun h => absurd h (by norm_num),
        ⟨fun h => absurd h (by norm_num), trivial⟩⟩⟩

/-! ### The C3 counterexample

For the word run `qq zzzz zzzz ... zzzz` (4001 copies of `zzzz`) and the
lexicon `{qq: 99, qqzzzz: 9}`, every `zzzz`-only suffix admits only
singleton groups, so its DP value is `-2.5` per word until the
`-10000.0` initialization clips it at distance 4000 from the end.  The
clipped tail makes the head choose the all-singletons partition
(`9.6 - 2.5·4001 = -9992.9`) over merging the first two words
(`8.6 - 2.5·4000 = -9991.4`), which is a valid, never-rejected partition
with a strictly larger total. -/

/-- The head token `qq` of the counterexample. -/
def qqTok : List Char := ['q', 'q']

/-- The filler token `zzzz` of the counterexample. -/
def zTok : List Char := ['z', 'z', 'z', 'z']

/-- The counterexample word run. -/
def wordsC3 : List (List Char) := qqTok :: List.replicate 4001 zTok

/-- The counterexample lexicon. -/
def lexC3 : List (List Char × ℕ) := [(qqTok, 99), (qqTok ++ zTok, 9)]

theorem wordsC3_length : wordsC3.length = 4002 := by
  rw [wordsC3, List.length_cons, List.length_replicate]

/-- Concatenating copies of a constant run is one long constant run. -/
theorem flat_rep (c : Char) (m : ℕ) :
    ∀ n, (List.replicate n (List.replicate m c)).flatten =
      List.replicate (n * m) c := by
  intro n
  induction n with
  | zero => simp
  | succ k ih =>
    simp only [List.replicate_succ, List.flatten_cons, ih]
    rw [← List.replicate_add]
    ring_nf

theorem wordsC3_drop (i : ℕ) (h1 : 1 ≤ i) (h2 : i ≤ 4002) :
    wordsC3.drop i = List.replicate (4002 - i) zTok := by
  obtain ⟨j, rfl⟩ : ∃ j, i = j + 1 := ⟨i - 1, by omega⟩
  show (qqTok :: List.replicate 4001 zTok).drop (j + 1) = _
  rw [List.drop_succ_cons, List.drop_replicate]
  congr 1
  omega

/-- A fold whose steps are all the identity is the identity. -/
theorem foldl_id {α β : Type} (g : α → β → α) (l : List β)
    (h : ∀ a b, b ∈ l → g a b = a) : ∀ a, l.foldl g a = a := by
  induction l with
  | nil => intro a; rfl
  | cons x xs ih =>
    intro a
    rw [List.foldl_cons, h a x (by simp)]
    exact ih (fun a b hb => h a b (by simp [hb])) a

theorem logb_ten_hundred : Real.logb 10 100 = 2 := by
  rw [show (100 : ℝ) = 10 ^ (2 : ℕ) by norm_num, Real.logb_pow,
    show Real.logb 10 10 = 1 from Real.logb_self_eq_one (by norm_num)]
  norm_num

theorem ts_qq : token_score qqTok lexC3 = 9.6 := by
  simp only [token_score]
  rw [show qqTok.map pyLowerChar = qqTok from by decide]
  rw [if_neg (by decide : ¬(qqTok = []))]
  rw [show lexGet lexC3 qqTok = 99 from by decide]
  rw [if_pos (by norm_num : (0 : ℕ) < 99)]
  rw [show ((99 : ℕ) : ℝ) + 1 = 100 by norm_num]
  rw [logb_ten_hundred]
  norm_num

theorem ts_zTok : token_score zTok lexC3 = -2.5 := by
  simp only [token_score]
  rw [show zTok.map pyLowerChar = zTok from by decide]
  rw [if_neg (by decide : ¬(zTok = []))]
  rw [show lexGet lexC3 zTok = 0 from by decide]
  rw [if_neg (by norm_num : ¬((0 : ℕ) < 0))]
  rw [if_neg (by decide), if_neg (by decide)]

theorem ts_zrun (m : ℕ) (hm : 4 ≤ m) :
    token_score (List.replicate m 'z') lexC3 = -2.5 := by
  simp only [token_score]
  rw [List.map_replicate, show pyLowerChar 'z' = 'z' from by decide]
  have hne : ¬(List.replicate m 'z' = []) := by
    intro h
    have := congrArg List.length h
    simp at this
    omega
  rw [if_neg hne]
  have hget : lexGet lexC3 (List.replicate m 'z') = 0 := by
    have hfind : lexC3.find? (fun p => p.1 = List.replicate m 'z') = none := by
      rw [List.find?_eq_none]
      intro p hp
      simp only [lexC3, List.mem_cons, List.not_mem_nil, or_false] at hp
      rcases hp with rfl | rfl
      · simp only [decide_eq_true_eq]
        intro h
        have := congrArg List.length h
        simp [qqTok] at this
        omega
      · simp only [decide_eq_true_eq]
        intro h
        have hq : 'q' ∈ List.replicate m 'z' := by
          rw [← h]
          simp [qqTok, zTok]
        simp [List.mem_replicate] at hq
    unfold lexGet
    rw [hfind]
    rfl
  rw [hget]
  rw [if_neg (by norm_num : ¬((0 : ℕ) < 0))]
  rw [if_neg (by rintro ⟨hle, -⟩; rw [List.length_replicate] at hle; omega)]
  rw [if_neg (by rintro ⟨heq, -⟩; rw [List.length_replicate] at heq; omega)]

theorem ts_qqz (j : ℕ) (hj : 8 ≤ j) :
    token_score (qqTok ++ List.replicate j 'z') lexC3 = -2.5 := by
  simp only [token_score]
  rw [List.map_append, show qqTok.map pyLowerChar = qqTok from by decide,
    List.map_replicate, show pyLowerChar 'z' = 'z' from by decide]
  rw [if_neg (by simp [qqTok])]
  have hget : lexGet lexC3 (qqTok ++ List.replicate j 'z') = 0 := by
    have hfind : lexC3.find?
        (fun p => p.1 = qqTok ++ List.replicate j 'z') = none := by
      rw [List.find?_eq_none]
      intro p hp
      simp only [lexC3, List.mem_cons, List.not_mem_nil, or_false] at hp
      rcases hp with rfl | rfl
      · simp only [decide_eq_true_eq]
        intro h
        have := congrArg List.length h
        simp [qqTok] at this
        omega
      · simp only [decide_eq_true_eq]
        intro h
        have := congrArg List.length h
        simp [qqTok, zTok] at this
        omega
    unfold lexGet
    rw [hfind]
    rfl
  rw [hget]
  rw [if_neg (by norm_num : ¬((0 : ℕ) < 0))]
  rw [if_neg (by rintro ⟨hle, -⟩; simp [qqTok] at hle; omega)]
  rw [if_neg (by rintro ⟨heq, -⟩; simp [qqTok] at heq; omega)]

theorem fgs_qq_single : fallback_group_score [qqTok] lexC3 = 9.6 := by
  rw [fgs_single]
  exact ts_qq

theorem fgs_z_single : fallback_group_score [zTok] lexC3 = -2.5 := by
  rw [fgs_single]
  exact ts_zTok

theorem fgs_zrep (k : ℕ) (hk : 2 ≤ k) :
    fallback_group_score (List.replicate k zTok) lexC3 = -9999 := by
  simp only [fallback_group_score]
  rw [if_neg (by rw [List.length_replicate]; omega)]
  rw [if_neg ?hc2]
  case hc2 =>
    rintro ⟨h2, hdnj, -⟩
    rw [List.length_replicate] at h2
    subst h2
    revert hdnj
    decide
  rw [show (List.replicate k zTok).flatten = List.replicate (k * 4) 'z' from by
    rw [show zTok = List.replicate 4 'z' from rfl]
    exact flat_rep 'z' 4 k]
  rw [ts_zrun (k * 4) (by omega)]
  split_ifs with hg1 hg2
  · rfl
  · rfl
  · exact absurd (by norm_num : (-2.5 : ℝ) < 0.5) hg2

theorem fgs_pair : fallback_group_score [qqTok, zTok] lexC3 = 8.6 := by
  simp only [fallback_group_score]
  rw [if_neg (by decide : ¬([qqTok, zTok].length = 1))]
  rw [if_neg (by decide)]
  rw [show ([qqTok, zTok] : List (List Char)).flatten = qqTok ++ zTok from rfl]
  have hm : token_score (qqTok ++ zTok) lexC3 = 6 + Real.logb 10 10 * 1.8 := by
    simp only [token_score]
    rw [show (qqTok ++ zTok).map pyLowerChar = qqTok ++ zTok from by decide]
    rw [if_neg (by decide)]
    rw [show lexGet lexC3 (qqTok ++ zTok) = 9 from by decide]
    rw [if_pos (by norm_num : (0 : ℕ) < 9)]
    rw [show ((9 : ℕ) : ℝ) + 1 = 10 by norm_num]
  rw [hm, show Real.logb 10 10 = 1 from Real.logb_self_eq_one (by norm_num)]
  simp only [List.map_cons, List.map_nil, List.sum_cons, List.sum_nil]
  simp only [ts_qq, ts_zTok]
  rw [if_neg (by norm_num), if_neg (by norm_num)]
  norm_num

theorem fgs_qqz (j : ℕ) (h2 : 2 ≤ j) (h4 : j ≤ 4) :
    fallback_group_score (qqTok :: List.replicate j zTok) lexC3 = -9999 := by
  simp only [fallback_group_score]
  rw [if_neg (by simp; omega)]
  rw [if_neg ?hc2b]
  case hc2b =>
    rintro ⟨hl2, -, -⟩
    simp at hl2
    omega
  rw [show (qqTok :: List.replicate j zTok).flatten =
      qqTok ++ List.replicate (j * 4) 'z' from by
    rw [List.flatten_cons, show zTok = List.replicate 4 'z' from rfl,
      flat_rep 'z' 4 j]]
  rw [ts_qqz (j * 4) (by omega)]
  split_ifs with hg1 hg2
  · rfl
  · rfl
  · exact absurd (by norm_num : (-2.5 : ℝ) < 0.5) hg2

theorem wordsC3_dropd (d : ℕ) (h : d ≤ 4000) :
    wordsC3.drop (wordsC3.length - (d + 1)) = List.replicate (d + 1) zTok := by
  rw [wordsC3_length, wordsC3_drop (4002 - (d + 1)) (by omega) (by omega)]
  congr 1
  omega

/-- A fold over `range' 1 m` all of whose steps past the first are the
identity collapses to its first step. -/
theorem foldl_step1 {g : ℝ × ℕ → ℕ → ℝ × ℕ} {m : ℕ} (hm : 1 ≤ m)
    (hrest : ∀ a k, k ∈ List.range' 2 (m - 1) → g a k = a) (init : ℝ × ℕ) :
    (List.range' 1 m).foldl g init = g init 1 := by
  obtain ⟨j, rfl⟩ : ∃ j, m = j + 1 := ⟨m - 1, by omega⟩
  rw [List.range'_succ, List.foldl_cons]
  exact foldl_id g _ (by simpa using hrest) (g init 1)

/-- On the counterexample run, every DP entry at distance `d ≤ 3999`
from the end is `-2.5` per remaining word, reached by singletons. -/
theorem dpC3_val : ∀ d, d ≤ 3999 →
    dpGF wordsC3 lexC3 5 d d = (-2.5 * (d : ℝ), 1) := by
  intro d
  induction d with
  | zero =>
    intro _
    refine Prod.ext_iff.mpr ⟨?_, rfl⟩
    show (0 : ℝ) = -2.5 * ((0 : ℕ) : ℝ)
    norm_num
  | succ d ih =>
    intro h
    rw [dpGF_succ]
    simp only [wordsC3_dropd d (by omega)]
    refine (foldl_step1 (m := min 5 (d + 1)) (by omega) ?hrest _).trans ?hmain
    case hrest =>
      intro a k hk
      obtain ⟨c, hc, rfl⟩ := List.mem_range'.mp hk
      try dsimp only
      simp only [show (List.replicate (d + 1) zTok).take (2 + 1 * c) =
          List.replicate (2 + 1 * c) zTok from by
        rw [List.take_replicate]
        congr 1
        omega]
      simp only [fgs_zrep (2 + 1 * c) (by omega)]
      rw [if_pos (by norm_num : (-9999 : ℝ) ≤ -9990)]
    case hmain =>
      try dsimp only
      simp only [show (List.replicate (d + 1) zTok).take 1 = [zTok] from by
        rw [List.take_replicate, show min 1 (d + 1) = 1 from by omega]
        rfl]
      simp only [fgs_z_single]
      rw [if_neg (by norm_num : ¬((-2.5 : ℝ) ≤ -9990))]
      simp only [Nat.add_sub_cancel]
      simp only [ih (by omega)]
      try dsimp only
      have hd : (d : ℝ) ≤ 3998 := by
        exact_mod_cast (by omega : d ≤ 3998)
      rw [if_pos (show (-10000 : ℝ) < -2.5 + -2.5 * (d : ℝ) from by linarith)]
      refine Prod.ext_iff.mpr ⟨?_, rfl⟩
      push_cast
      ring

/-- At distance 4000 the true value `-2.5 * 4000` ties the `-10000.0`
initialization, so the strict improvement test leaves the entry clipped. -/
theorem dpC3_val4000 : dpGF wordsC3 lexC3 5 4000 4000 = (-10000, 1) := by
  rw [show (4000 : ℕ) = 3999 + 1 from rfl, dpGF_succ]
  simp only [wordsC3_dropd 3999 (by norm_num)]
  refine (foldl_step1 (m := min 5 (3999 + 1)) (by omega) ?hr0 _).trans ?hm0
  case hr0 =>
    intro a k hk
    obtain ⟨c, hc, rfl⟩ := List.mem_range'.mp hk
    try dsimp only
    simp only [show (List.replicate (3999 + 1) zTok).take (2 + 1 * c) =
        List.replicate (2 + 1 * c) zTok from by
      rw [List.take_replicate]
      congr 1
      omega]
    simp only [fgs_zrep (2 + 1 * c) (by omega)]
    rw [if_pos (by norm_num : (-9999 : ℝ) ≤ -9990)]
  case hm0 =>
    try dsimp only
    simp only [show (List.replicate (3999 + 1) zTok).take 1 = [zTok] from by
      rw [List.take_replicate, show min 1 (3999 + 1) = 1 from by omega]
      rfl]
    simp only [fgs_z_single]
    rw [if_neg (by norm_num : ¬((-2.5 : ℝ) ≤ -9990))]
    simp only [Nat.add_sub_cancel]
    simp only [dpC3_val 3999 (by norm_num)]
    try dsimp only
    rw [if_neg (show ¬((-10000 : ℝ) < -2.5 + -2.5 * ((3999 : ℕ) : ℝ)) from by
      norm_num)]

/-- At distance 4001 the clipped neighbour keeps the entry clipped. -/
theorem dpC3_val4001 : dpGF wordsC3 lexC3 5 4001 4001 = (-10000, 1) := by
  rw [show (4001 : ℕ) = 4000 + 1 from rfl, dpGF_succ]
  simp only [wordsC3_dropd 4000 (by norm_num)]
  refine (foldl_step1 (m := min 5 (4000 + 1)) (by omega) ?hr1 _).trans ?hm1
  case hr1 =>
    intro a k hk
    obtain ⟨c, hc, rfl⟩ := List.mem_range'.mp hk
    try dsimp only
    simp only [show (List.replicate (4000 + 1) zTok).take (2 + 1 * c) =
        List.replicate (2 + 1 * c) zTok from by
      rw [List.take_replicate]
      congr 1
      omega]
    simp only [fgs_zrep (2 + 1 * c) (by omega)]
    rw [if_pos (by norm_num : (-9999 : ℝ) ≤ -9990)]
  case hm1 =>
    try dsimp only
    simp only [show (List.replicate (4000 + 1) zTok).take 1 = [zTok] from by
      rw [List.take_replicate, show min 1 (4000 + 1) = 1 from by omega]
      rfl]
    simp only [fgs_z_single]
    rw [if_neg (by norm_num : ¬((-2.5 : ℝ) ≤ -9990))]
    simp only [Nat.add_sub_cancel]
    simp only [dpC3_val4000]
    try dsimp only
    rw [if_neg (show ¬((-10000 : ℝ) < -2.5 + -10000) from by norm_num)]

/-- At the head the DP compares the singleton start (total
`9.6 - 10000` against the clipped tail) with the pair start
(`8.6 - 10000`) and keeps the singleton. -/
theorem dpC3_val4002 :
    dpGF wordsC3 lexC3 5 4002 4002 = (9.6 + -10000, 1) := by
  rw [show (4002 : ℕ) = 4001 + 1 from rfl, dpGF_succ]
  simp only [show wordsC3.drop (wordsC3.length - (4001 + 1)) = wordsC3 from by
    rw [wordsC3_length, show (4002 : ℕ) - (4001 + 1) = 0 from rfl,
      List.drop_zero]]
  rw [show min 5 (4001 + 1) = 5 from by omega]
  rw [show List.range' 1 5 = [1, 2, 3, 4, 5] from rfl]
  rw [List.foldl_cons, List.foldl_cons, List.foldl_cons, List.foldl_cons,
    List.foldl_cons, List.foldl_nil]
  try dsimp only
  simp only [show wordsC3.take 1 = [qqTok] from rfl,
    show wordsC3.take 2 = [qqTok, zTok] from rfl,
    show wordsC3.take 3 = qqTok :: List.replicate 2 zTok from rfl,
    show wordsC3.take 4 = qqTok :: List.replicate 3 zTok from rfl,
    show wordsC3.take 5 = qqTok :: List.replicate 4 zTok from rfl]
  simp only [fgs_qq_single, fgs_pair,
    show fallback_group_score (qqTok :: List.replicate 2 zTok) lexC3 =
      -9999 from fgs_qqz 2 (by norm_num) (by norm_num),
    show fallback_group_score (qqTok :: List.replicate 3 zTok) lexC3 =
      -9999 from fgs_qqz 3 (by norm_num) (by norm_num),
    show fallback_group_score (qqTok :: List.replicate 4 zTok) lexC3 =
      -9999 from fgs_qqz 4 (by norm_num) (by norm_num)]
  simp only [show (4001 + 1 : ℕ) - 1 = 4001 from rfl,
    show (4001 + 1 : ℕ) - 2 = 4000 from rfl]
  simp only [dpC3_val4001,
    dpGF_fuel wordsC3 lexC3 5 4000 4001 (by norm_num), dpC3_val4000]
  try dsimp only
  rw [if_neg (show ¬((9.6 : ℝ) ≤ -9990) from by norm_num)]
  rw [if_pos (show (-10000 : ℝ) < 9.6 + -10000 from by norm_num)]
  try dsimp only
  rw [if_neg (show ¬((8.6 : ℝ) ≤ -9990) from by norm_num)]
  try dsimp only
  rw [if_neg (show ¬((9.6 : ℝ) + -10000 < 8.6 + -10000) from by norm_num)]
  rw [if_pos (show (-9999 : ℝ) ≤ -9990 from by norm_num),
    if_pos (show (-9999 : ℝ) ≤ -9990 from by norm_num),
    if_pos (show (-9999 : ℝ) ≤ -9990 from by norm_num)]

/-- On the counterexample run the reconstruction takes singletons
everywhere. -/
theorem dpPlanC3 : ∀ m i, i + m = 4002 →
    dpPlanF wordsC3 lexC3 5 m i = List.replicate m 1 := by
  intro m
  induction m with
  | zero => intro i h; rfl
  | succ m ih =>
    intro i h
    have hbl : best_len wordsC3 lexC3 5 i = 1 := by
      unfold best_len
      rw [wordsC3_length]
      rw [show (4002 : ℕ) - i = m + 1 from by omega]
      by_cases hc : m + 1 ≤ 3999
      · rw [dpC3_val (m + 1) hc]
      · have hv : m + 1 = 4000 ∨ m + 1 = 4001 ∨ m + 1 = 4002 := by omega
        rcases hv with hv | hv | hv <;> rw [hv]
        · rw [dpC3_val4000]
        · rw [dpC3_val4001]
        · rw [dpC3_val4002]
    simp only [dpPlanF]
    rw [if_pos (show i < wordsC3.length from by rw [wordsC3_length]; omega)]
    rw [hbl]
    rw [ih (i + 1) (by omega)]
    rfl

/-- Per-word score of the all-singletons tail of the counterexample. -/
theorem planScoreC3_singles : ∀ m i, 1 ≤ i → i + m = 4002 →
    planScore wordsC3 lexC3 (List.replicate m 1) i = -2.5 * (m : ℝ) := by
  intro m
  induction m with
  | zero =>
    intro i _ _
    show (0 : ℝ) = -2.5 * ((0 : ℕ) : ℝ)
    norm_num
  | succ m ih =>
    intro i h1 h2
    simp only [List.replicate_succ, planScore]
    rw [wordsC3_drop i h1 (by omega)]
    rw [show (List.replicate (4002 - i) zTok).take 1 = [zTok] from by
      rw [List.take_replicate, show min 1 (4002 - i) = 1 from by omega]
      rfl]
    rw [fgs_z_single]
    rw [ih (i + 1) (by omega) (by omega)]
    push_cast
    ring

/-- One step of `planScore` on a cons plan. -/
theorem planScore_cons (words : List (List Char))
    (lexicon : List (List Char × ℕ)) (k : ℕ) (ks : List ℕ) (i : ℕ) :
    planScore words lexicon (k :: ks) i =
      fallback_group_score ((words.drop i).take k) lexicon +
        planScore words lexicon ks (i + k) := rfl

/-- Score of the plan the DP follows on the counterexample. -/
theorem planScoreC3_dp :
    planScore wordsC3 lexC3 (List.replicate 4002 1) 0 = 9.6 + -2.5 * 4001 := by
  rw [show (List.replicate 4002 1 : List ℕ) = 1 :: List.replicate 4001 1
    from rfl]
  rw [planScore_cons]
  rw [show (wordsC3.drop 0).take 1 = [qqTok] from rfl]
  rw [fgs_qq_single]
  rw [show (0 : ℕ) + 1 = 1 from rfl]
  rw [planScoreC3_singles 4001 1 (by norm_num) (by norm_num)]
  norm_num

/-- Score of the better plan that merges the first two words. -/
theorem planScoreC3_alt :
    planScore wordsC3 lexC3 (2 :: List.replicate 4000 1) 0 =
      8.6 + -2.5 * 4000 := by
  rw [planScore_cons]
  rw [show (wordsC3.drop 0).take 2 = [qqTok, zTok] from rfl]
  rw [fgs_pair]
  rw [show (0 : ℕ) + 2 = 2 from rfl]
  rw [planScoreC3_singles 4000 2 (by norm_num) (by norm_num)]
  norm_num

/-- Claim C3 counterexample: on the 4002-word run `qq zzzz ... zzzz`
with lexicon `{qq: 99, qqzzzz: 9}`, the plan that merges the first two
words is valid for `max_group = 5`, never rejected by the scorer, and
scores strictly more than the plan the DP reconstruction follows: the
`-10000.0` initialization clips every entry at distance 4000 or more
from the end, so `fallback_merge_words` is not score-optimal. -/
theorem claim_C3_counterexample :
    validPlan 5 wordsC3.length (2 :: List.replicate 4000 1) 0 ∧
    planOK wordsC3 lexC3 (2 :: List.replicate 4000 1) 0 ∧
    planScore wordsC3 lexC3 (dpPlanF wordsC3 lexC3 5 wordsC3.length 0) 0 <
      planScore wordsC3 lexC3 (2 :: List.replicate 4000 1) 0 := by
  refine ⟨?_, ?_, ?_⟩
  · rw [wordsC3_length]
    exact ⟨by norm_num, by norm_num, by norm_num,
      validPlan_singles 5 4002 (by norm_num) 4000 2 (by norm_num)⟩
  · exact ⟨fun h2 => by
      rw [show (wordsC3.drop 0).take 2 = [qqTok, zTok] from rfl, fgs_pair]
      norm_num, planOK_singles wordsC3 lexC3 4000 (0 + 2)⟩
  · rw [wordsC3_length, dpPlanC3 4002 0 (by norm_num), planScoreC3_dp,
      planScoreC3_alt]
    norm_num
